import Mathlib

/-!
# Booking: the in-memory inventory store and the order-creation workflow

A shallow embedding of `internal/storage/memory`, `internal/booking`,
`internal/idgen/simple` and `internal/migration`, followed by theorems about it.

Modelling conventions.

* Go pointers to `RoomAvailability` are addresses (`Ptr`) into an explicit heap `Mem`;
  the store's maps hold addresses, exactly as the Go maps hold `*RoomAvailability`.
  Orders and events are never written after they are built, so they are carried by value.
* A Go `map` is a finite association list (`GoMap`) with at most one entry per key;
  `range` over a map visits the entries in list order.
* `time.Time` is an instant in UTC counted in nanoseconds since the Unix epoch.
* `context.Context` is reduced to the two values this program stores in it.
* The `(value, error)` results of the interface methods and of `CreateOrder` are pairs,
  since both components may be nil or non-nil; functions of the repository that return
  either a value or an error return `Except`.
* `int` and `int64` are unbounded integers.
* Executions that panic (and the `recover` branches) are not modelled.
-/

namespace Booking

/-! ## Time -/

/-- A `time.Time` whose Location is UTC: the instant in nanoseconds since the Unix epoch.
Times in another Location are the subject of the section on requests not in UTC. -/
abbrev Time := Int

/-- Nanoseconds in `24 * time.Hour`. -/
def dayNs : Int := 86400000000000

namespace Time

/-- Go `t.Before(u)`. -/
def Before (t u : Time) : Bool := decide (t < u)

/-- Go `t.After(u)`. -/
def After (t u : Time) : Bool := decide (u < t)

/-- Go `t.Truncate(24 * time.Hour)`: round down to a multiple of a day. -/
def Truncate24h (t : Time) : Time := t - t % dayNs

/-- Go `t.AddDate(0, 0, 1)` for a UTC time. -/
def AddDay (t : Time) : Time := t + dayNs

/-- Decimal digit as a character. -/
def digitChar (n : Nat) : Char := Char.ofNat (48 + n % 10)

/-- Two-digit, zero padded. -/
def pad2 (n : Nat) : String := String.mk [digitChar (n / 10), digitChar n]

/-- Digits of a natural number, most significant first (`fuel` bounds the length). -/
def digitsAux : Nat → Nat → List Char → List Char
  | 0, _, acc => acc
  | fuel + 1, n, acc =>
    if n < 10 then digitChar n :: acc else digitsAux fuel (n / 10) (digitChar n :: acc)

/-- Go `%d` of an integer. -/
def fmtInt (n : Int) : String :=
  let body := String.mk (digitsAux (n.natAbs + 1) n.natAbs [])
  if n < 0 then "-" ++ body else body

/-- Year with at least four digits, as Go prints it for layout `2006`. -/
def fmtYear (y : Int) : String :=
  let n := y.natAbs
  let ds := digitsAux (n + 1) n []
  let body := String.mk (List.replicate (4 - ds.length) '0' ++ ds)
  if y < 0 then "-" ++ body else body

/-- Civil date (year, month, day) of a day number counted from 1970-01-01
(proleptic Gregorian calendar). -/
def civil (days : Int) : Int × Nat × Nat :=
  let z := days + 719468
  let era := z / 146097
  let doe := z - era * 146097
  let yoe := (doe - doe / 1460 + doe / 36524 - doe / 146096) / 365
  let y := yoe + era * 400
  let doy := doe - (365 * yoe + yoe / 4 - yoe / 100)
  let mp := (5 * doy + 2) / 153
  let d := doy - (153 * mp + 2) / 5 + 1
  let m := if mp < 10 then mp + 3 else mp - 9
  (if m ≤ 2 then y + 1 else y, m.toNat, d.toNat)

/-- Go `t.Format("2006-01-02")`. -/
def FormatDate (t : Time) : String :=
  let c := civil (t / dayNs)
  fmtYear c.1 ++ "-" ++ pad2 c.2.1 ++ "-" ++ pad2 c.2.2

/-- Go `t.Format(time.RFC3339)` for a time whose Location is UTC; `FormatRFC3339In` is
the same for a time in another zone. -/
def FormatRFC3339 (t : Time) : String :=
  let s := ((t % dayNs) / 1000000000).toNat
  FormatDate t ++ "T" ++ pad2 (s / 3600) ++ ":" ++ pad2 (s / 60 % 60) ++ ":" ++ pad2 (s % 60) ++ "Z"

end Time

/-- Function `date` of the migration package: midnight UTC of a civil date, through the
inverse of `Time.civil` (days from civil). -/
def date (year month day : Int) : Time :=
  let y := if month ≤ 2 then year - 1 else year
  let era := y / 400
  let yoe := y - era * 400
  let mp := if month > 2 then month - 3 else month + 9
  let doy := (153 * mp + 2) / 5 + day - 1
  let doe := yoe * 365 + yoe / 4 - yoe / 100 + doy
  (era * 146097 + doe - 719468) * dayNs

/-! ## Go maps -/

/-- A Go map as an association list. -/
abbrev GoMap (K V : Type) := List (K × V)

namespace GoMap

variable {K V : Type} [DecidableEq K]

/-- Go `v, ok := m[k]`. -/
def get : GoMap K V → K → Option V
  | [], _ => none
  | (k', v) :: rest, k => if k' = k then some v else get rest k

/-- Go `m[k] = v`. -/
def set : GoMap K V → K → V → GoMap K V
  | [], k, v => [(k, v)]
  | (k', v') :: rest, k, v => if k' = k then (k, v) :: rest else (k', v') :: set rest k v

/-- Go `delete(m, k)`. -/
def del : GoMap K V → K → GoMap K V
  | [], _ => []
  | (k', v') :: rest, k => if k' = k then del rest k else (k', v') :: del rest k

end GoMap

/-! ## Entities (`internal/booking/entity.go`) -/

/-- Price payload (`float64` in the source); the workflow only copies it. -/
abbrev Price := Int

structure RoomAvailability where
  HotelID : String
  RoomID : String
  Date : Time
  Quota : Int
deriving DecidableEq, Repr

structure GetAvailabilityInput where
  HotelID : String
  RoomID : String
  From : Time
  To : Time
deriving DecidableEq, Repr

structure Event where
  ID : Int
  OrderID : Int
  CreatedAt : Time
deriving DecidableEq, Repr

structure Place where
  HotelID : String
  RoomID : String
  From : Time
  To : Time
  Price : Price
deriving DecidableEq, Repr

structure Payer where
  Email : String
deriving DecidableEq, Repr

structure Order where
  ID : Int
  Payer : Payer
  Places : List Place
  CreatedAt : Time
  Price : Price
deriving DecidableEq, Repr

/-! ## The heap of room records -/

/-- Address of a `RoomAvailability` record (`*RoomAvailability`). -/
abbrev Ptr := Nat

/-- The heap: the record behind every address, and the next address to allocate. -/
structure Mem where
  cell : Ptr → RoomAvailability
  next : Ptr

namespace Mem

/-- Go `&RoomAvailability{...}`. -/
def alloc (m : Mem) (r : RoomAvailability) : Ptr × Mem :=
  (m.next, { cell := Function.update m.cell m.next r, next := m.next + 1 })

/-- Go `availability.Quota--` through a pointer. -/
def decQuota (m : Mem) (p : Ptr) : Mem :=
  { m with cell := Function.update m.cell p { m.cell p with Quota := (m.cell p).Quota - 1 } }

end Mem

/-! ## Errors (`internal/booking/error.go`, `internal/storage/memory/error.go`) -/

/-- One entry of `AvailabilityError.errors`: the room, the hotel and the dates that the
formatted message `room .. is unavalable in hotel .. on following dates ..` carries. -/
structure UnavailableRoom where
  hotelID : String
  roomID : String
  dates : List Time
deriving DecidableEq, Repr

/-- Error values of the program. `wrap msg e` is `fmt.Errorf(msg + ": %w", e)`;
`other` is an error value of a collaborator outside the two packages. -/
inductive Error where
  | ErrIdempotencyKey
  | ErrNextID
  | ErrLogic
  | ErrRecordNotFound
  | ErrTransactionIDNotFoundInCtx
  | ErrTransactionNotFound
  | AvailabilityError (errors : List UnavailableRoom)
  | InputError (fields : GoMap String (List String))
  | other (msg : String)
  | wrap (msg : String) (err : Error)
deriving DecidableEq, Repr

namespace Error

/-- Go `errors.Is(err, target)` for a non-nil `err`. -/
def Is : Error → Error → Bool
  | wrap msg inner, target => decide (wrap msg inner = target) || Is inner target
  | e, target => decide (e = target)

/-- Go `IsAvailabilityError` (`errors.As` to `*AvailabilityError`). -/
def IsAvailabilityError : Error → Option (List UnavailableRoom)
  | AvailabilityError errs => some errs
  | wrap _ inner => IsAvailabilityError inner
  | _ => none

/-- Go `IsInputError` (`errors.As` to `*InputError`). -/
def IsInputError : Error → Option (GoMap String (List String))
  | InputError fields => some fields
  | wrap _ inner => IsInputError inner
  | _ => none

end Error

/-- Go `errors.Is(err, target)` where `err` may be nil. -/
def errorsIs : Option Error → Error → Bool
  | none, _ => false
  | some e, target => e.Is target

/-! ## Context values (`context.go` of both packages) -/

/-- The two values the program keeps in a `context.Context`. -/
structure Ctx where
  idempotencyKey : Option String
  transactionID : Option String
deriving DecidableEq, Repr

def NewContextWithIdempotencyKey (ctx : Ctx) (key : String) : Ctx :=
  { ctx with idempotencyKey := some key }

def IdempotencyKeyFromContext (ctx : Ctx) : Option String := ctx.idempotencyKey

def withTransactionID (ctx : Ctx) (trxID : String) : Ctx :=
  { ctx with transactionID := some trxID }

def transactionIDFromContext (ctx : Ctx) : Option String := ctx.transactionID

/-- Go `fmt.Sprintf("%s_%s_%s", hotelID, roomID, date)`. -/
def roomKey (hotelID roomID date : String) : String :=
  hotelID ++ "_" ++ roomID ++ "_" ++ date

/-- The days visited by `for d := from; !d.After(to); d = d.AddDate(0, 0, 1)`,
with the number of iterations as fuel. -/
def daysLoop : Nat → Time → Time → List Time
  | 0, _, _ => []
  | n + 1, d, last => if Time.After d last then [] else d :: daysLoop n (Time.AddDay d) last

/-- The days from `first` to `last`, both included, one day apart. -/
def days (first last : Time) : List Time :=
  daysLoop ((last - first) / dayNs + 1).toNat first last

/-! ## The in-memory store (`internal/storage/memory/db.go`) -/

namespace memory

/-- The closures appended to `rollbackActions`, one constructor per closure body,
holding the variables the closure captures. -/
inductive rollbackAction where
  | restoreRoom (key : String) (originalRoom : Ptr)
  | deleteRoom (key : String)
  | deleteOrder (orderID : Int)
  | deleteEvent (eventID : Int)
deriving DecidableEq, Repr

structure transaction where
  id : String
  roomModifications : GoMap String Ptr
  orderModifications : GoMap Int Order
  eventModifications : GoMap Int Event
  rollbackActions : List rollbackAction
deriving DecidableEq, Repr

structure DB where
  roomAvailabilities : GoMap String Ptr
  events : GoMap Int Event
  orders : GoMap Int Order
  transactions : GoMap String transaction
  nextTrxID : Int
  orderIdempotencyKeys : GoMap String Order
deriving DecidableEq, Repr

def New : DB :=
  { roomAvailabilities := [], events := [], orders := [], transactions := [],
    nextTrxID := 0, orderIdempotencyKeys := [] }

namespace DB

def BeginTransaction (db : DB) (ctx : Ctx) (_level : String) : (Ctx × Option Error) × DB :=
  let trxID := "trx-" ++ Time.fmtInt db.nextTrxID
  let trx : transaction :=
    { id := trxID, roomModifications := [], orderModifications := [],
      eventModifications := [], rollbackActions := [] }
  ((withTransactionID ctx trxID, none),
   { db with nextTrxID := db.nextTrxID + 1, transactions := db.transactions.set trxID trx })

/-- The prologue shared by `CommitTransaction`, `RollbackTransaction` and the `Save*`
methods: the transaction id of the context and the transaction registered under it. -/
def openTransaction (db : DB) (ctx : Ctx) : Except Error (String × transaction) :=
  match transactionIDFromContext ctx with
  | none => .error .ErrTransactionIDNotFoundInCtx
  | some trxID =>
    if trxID = "" then .error .ErrTransactionIDNotFoundInCtx
    else
      match db.transactions.get trxID with
      | none => .error (.wrap ("transaction " ++ trxID ++ " not found") .ErrTransactionNotFound)
      | some trx => .ok (trxID, trx)

/-- Method `CommitTransaction`. Its three loops range over Go maps, whose iteration order
is not specified; the folds take the entries in the order in which they were staged. The
order shows only in the index entry of the key when the transaction has staged more than
one order; `CreateOrder` stages one. -/
def CommitTransaction (db : DB) (ctx : Ctx) : Option Error × DB :=
  match openTransaction db ctx with
  | .error e => (some e, db)
  | .ok (trxID, trx) =>
    match IdempotencyKeyFromContext ctx with
    | none => (some .ErrIdempotencyKey, db)
    | some idempotencyKey =>
      if idempotencyKey = "" then (some .ErrIdempotencyKey, db)
      else
        let db := trx.roomModifications.foldl
          (fun (db : DB) kv => { db with roomAvailabilities := db.roomAvailabilities.set kv.1 kv.2 }) db
        let db := trx.orderModifications.foldl
          (fun (db : DB) kv =>
            { db with orders := db.orders.set kv.2.ID kv.2,
                      orderIdempotencyKeys := db.orderIdempotencyKeys.set idempotencyKey kv.2 }) db
        let db := trx.eventModifications.foldl
          (fun (db : DB) kv => { db with events := db.events.set kv.2.ID kv.2 }) db
        (none, { db with transactions := db.transactions.del trxID })

/-- Running one closure of `rollbackActions`. -/
def runRollbackAction (db : DB) : rollbackAction → DB
  | .restoreRoom key originalRoom =>
    { db with roomAvailabilities := db.roomAvailabilities.set key originalRoom }
  | .deleteRoom key => { db with roomAvailabilities := db.roomAvailabilities.del key }
  | .deleteOrder orderID => { db with orders := db.orders.del orderID }
  | .deleteEvent eventID => { db with events := db.events.del eventID }

def RollbackTransaction (db : DB) (ctx : Ctx) : Option Error × DB :=
  match openTransaction db ctx with
  | .error e => (some e, db)
  | .ok (trxID, trx) =>
    let db := trx.rollbackActions.foldl runRollbackAction db
    (none, { db with transactions := db.transactions.del trxID })

/-- One iteration of the loop of `SaveRoomAvailabilities`. -/
def stageRoom (mem : Mem) (db : DB) (trx : transaction) (availability : Ptr) : transaction :=
  let a := mem.cell availability
  let key := roomKey a.HotelID a.RoomID (Time.FormatRFC3339 a.Date)
  match trx.roomModifications.get key with
  | some _ => trx
  | none =>
    let trx := { trx with roomModifications := trx.roomModifications.set key availability }
    match db.roomAvailabilities.get key with
    | some originalRoom =>
      { trx with rollbackActions := trx.rollbackActions ++ [.restoreRoom key originalRoom] }
    | none => { trx with rollbackActions := trx.rollbackActions ++ [.deleteRoom key] }

def SaveRoomAvailabilities (mem : Mem) (db : DB) (ctx : Ctx) (availabilities : List Ptr) :
    Option Error × DB :=
  match openTransaction db ctx with
  | .error e => (some e, db)
  | .ok (trxID, trx) =>
    let trx := availabilities.foldl (stageRoom mem db) trx
    (none, { db with transactions := db.transactions.set trxID trx })

def SaveOrder (db : DB) (ctx : Ctx) (order : Order) : Option Error × DB :=
  match openTransaction db ctx with
  | .error e => (some e, db)
  | .ok (trxID, trx) =>
    match trx.orderModifications.get order.ID with
    | some _ => (none, db)
    | none =>
      let trx := { trx with
        orderModifications := trx.orderModifications.set order.ID order,
        rollbackActions := trx.rollbackActions ++ [.deleteOrder order.ID] }
      (none, { db with transactions := db.transactions.set trxID trx })

def SaveEvent (db : DB) (ctx : Ctx) (event : Event) : Option Error × DB :=
  match openTransaction db ctx with
  | .error e => (some e, db)
  | .ok (trxID, trx) =>
    match trx.eventModifications.get event.ID with
    | some _ => (none, db)
    | none =>
      let trx := { trx with
        eventModifications := trx.eventModifications.set event.ID event,
        rollbackActions := trx.rollbackActions ++ [.deleteEvent event.ID] }
      (none, { db with transactions := db.transactions.set trxID trx })

/-- The loop state of `GetAvailabilities`. -/
structure scan where
  unavailableDates : List Time
  availabilityErr : List UnavailableRoom
  result : List Ptr
deriving DecidableEq, Repr

/-- One iteration of the inner loop (one day of one query). -/
def scanDay (mem : Mem) (db : DB) (input : GetAvailabilityInput) (s : scan) (d : Time) : scan :=
  let key := roomKey input.HotelID input.RoomID (Time.FormatRFC3339 d)
  match db.roomAvailabilities.get key with
  | none => { s with unavailableDates := s.unavailableDates ++ [d] }
  | some roomAvailability =>
    if (mem.cell roomAvailability).Quota < 1 then
      { s with unavailableDates := s.unavailableDates ++ [d] }
    else { s with result := s.result ++ [roomAvailability] }

/-- One iteration of the outer loop (one query). -/
def scanInput (mem : Mem) (db : DB) (s : scan) (input : GetAvailabilityInput) : scan :=
  let s := (days input.From input.To).foldl (scanDay mem db input) s
  if s.unavailableDates.length > 0 then
    { s with
      availabilityErr := s.availabilityErr ++ [⟨input.HotelID, input.RoomID, s.unavailableDates⟩],
      unavailableDates := [] }
  else s

def GetAvailabilities (mem : Mem) (db : DB) (inputs : List GetAvailabilityInput) :
    List Ptr × Option Error :=
  let s := inputs.foldl (scanInput mem db) ⟨[], [], []⟩
  if s.availabilityErr.length > 0 then ([], some (.AvailabilityError s.availabilityErr))
  else (s.result, none)

def GetOrderByIdempotencyKey (db : DB) (ctx : Ctx) : Option Order × Option Error :=
  match IdempotencyKeyFromContext ctx with
  | none => (none, some .ErrIdempotencyKey)
  | some key =>
    if key = "" then (none, some .ErrIdempotencyKey)
    else
      match db.orderIdempotencyKeys.get key with
      | some order => (some order, none)
      | none => (none, some .ErrRecordNotFound)

end DB

end memory

/-! ## The ID generator (`internal/idgen/simple/simple.go`) -/

namespace simple

structure Generator where
  counter : Int
deriving DecidableEq, Repr

def New : Generator := { counter := 0 }

def Generator.GetID (g : Generator) (_ctx : Ctx) : (Int × Option Error) × Generator :=
  let g := { g with counter := g.counter + 1 }
  ((g.counter, none), g)

end simple

/-! ## The booking workflow (`internal/booking/booking.go`) -/

/-- Interface `BoostStrategy`: `Apply` may rewrite the order and may return an error. -/
abbrev BoostStrategy := Order → Order × Option Error

structure BookInput where
  Payer : Payer
  Places : List Place
  BoostStrategies : List BoostStrategy

/-- Interface `idGenerator` over a generator state `γ`. -/
structure idGenerator (γ : Type) where
  GetID : Ctx → γ → (Int × Option Error) × γ

/-- Interfaces `storageReader` and `storageWriter` over a storage state `σ`; every method
may read and write the heap of room records as well as its own state. -/
structure storage (σ : Type) where
  GetAvailabilities : Ctx → List GetAvailabilityInput → Mem → σ → (List Ptr × Option Error) × Mem × σ
  GetOrderByIdempotencyKey : Ctx → Mem → σ → (Option Order × Option Error) × Mem × σ
  BeginTransaction : Ctx → String → Mem → σ → (Ctx × Option Error) × Mem × σ
  CommitTransaction : Ctx → Mem → σ → Option Error × Mem × σ
  RollbackTransaction : Ctx → Mem → σ → Option Error × Mem × σ
  SaveRoomAvailabilities : Ctx → List Ptr → Mem → σ → Option Error × Mem × σ
  SaveEvent : Ctx → Event → Mem → σ → Option Error × Mem × σ
  SaveOrder : Ctx → Order → Mem → σ → Option Error × Mem × σ

structure Manager (σ γ : Type) where
  storage : storage σ
  idGenerator : idGenerator γ

/-- The state of the program: the heap, the storage and the generator. -/
structure World (σ γ : Type) where
  mem : Mem
  db : σ
  gen : γ

/-- What the workflow reads from outside the program: the clock (`time.Now().UTC()`) and
whether `mail.ParseAddress` accepts an address. -/
structure Env where
  now : Time
  parseAddress : String → Bool

/-- Method `addError` of `InputError`. -/
def addError (fields : GoMap String (List String)) (field msg : String) :
    GoMap String (List String) :=
  fields.set field ((fields.get field).getD [] ++ [msg])

/-- Method `fieldsCount` of `InputError`. -/
def fieldsCount (fields : GoMap String (List String)) : Nat := fields.length

/-- The body of the loop of `validate` for one place. -/
def validatePlace (env : Env) (inputErr : GoMap String (List String)) (place : Place) :
    GoMap String (List String) :=
  let inputErr :=
    if place.HotelID = "" then addError inputErr "place.hotelID" "provide place.hotelID"
    else inputErr
  let inputErr :=
    if place.RoomID = "" then addError inputErr "place.roomID" "provide place.roomID"
    else inputErr
  let inputErr :=
    if Time.Before place.From env.now then
      addError inputErr "place.from" "place.from must not be in the past"
    else inputErr
  let inputErr :=
    if Time.Before place.To env.now then
      addError inputErr "place.from" "place.to must not be in the past"
    else inputErr
  if Time.After place.From place.To then
    addError inputErr "place.from" "place.from must be before place.to"
  else inputErr

/-- The field map built by `validate`. -/
def BookInput.validateFields (env : Env) (b : BookInput) : GoMap String (List String) :=
  let inputErr : GoMap String (List String) := []
  let inputErr :=
    if env.parseAddress b.Payer.Email then inputErr
    else addError inputErr "payer.email" "provide valid email"
  let inputErr :=
    if b.Places.length = 0 then addError inputErr "places" "provide at least one place"
    else inputErr
  b.Places.foldl (validatePlace env) inputErr

def BookInput.validate (env : Env) (b : BookInput) : Option Error :=
  let inputErr := b.validateFields env
  if fieldsCount inputErr > 0 then some (.InputError inputErr) else none

def BookInput.prepareDates (b : BookInput) : BookInput :=
  { b with Places := b.Places.map fun place =>
      { place with From := Time.Truncate24h place.From, To := Time.Truncate24h place.To } }

namespace Manager

variable {σ γ : Type}

def buildEvent (env : Env) (m : Manager σ γ) (ctx : Ctx) (orderID : Int) (gen : γ) :
    Except Error Event × γ :=
  match m.idGenerator.GetID ctx gen with
  | ((_, some _), gen) => (.error .ErrNextID, gen)
  | ((id, none), gen) => (.ok { ID := id, OrderID := orderID, CreatedAt := env.now }, gen)

/-- The loop over `input.BoostStrategies` in `buildOrder`. -/
def applyStrategies : List BoostStrategy → Order → Except Error Order
  | [], order => .ok order
  | strategy :: rest, order =>
    match strategy order with
    | (_, some err) => .error (.wrap "apply strategy to order" err)
    | (order, none) => applyStrategies rest order

def buildOrder (env : Env) (m : Manager σ γ) (ctx : Ctx) (input : BookInput) (gen : γ) :
    Except Error (Order × Event) × γ :=
  match m.idGenerator.GetID ctx gen with
  | ((_, some _), gen) => (.error .ErrNextID, gen)
  | ((id, none), gen) =>
    let order : Order :=
      { ID := id, Payer := { Email := input.Payer.Email }, Places := input.Places,
        CreatedAt := env.now, Price := 0 }
    match applyStrategies input.BoostStrategies order with
    | .error err => (.error err, gen)
    | .ok order =>
      match buildEvent env m ctx order.ID gen with
      | (.error err, gen) =>
        (.error (.wrap ("build event for order " ++ Time.fmtInt order.ID) err), gen)
      | (.ok event, gen) => (.ok (order, event), gen)

def getRoomAvailabilities (m : Manager σ γ) (ctx : Ctx) (input : BookInput) (mem : Mem) (db : σ) :
    Except Error (List Ptr) × Mem × σ :=
  let req : List GetAvailabilityInput := input.Places.map fun property =>
    { HotelID := property.HotelID, RoomID := property.RoomID,
      From := property.From, To := property.To }
  match m.storage.GetAvailabilities ctx req mem db with
  | ((_, some err), mem, db) => (.error (.wrap "get availabilities from storage" err), mem, db)
  | ((availabilities, none), mem, db) => (.ok availabilities, mem, db)

/-- The first loop of `updateRoomAvailabilities`: the records by their date key. -/
def availabilityMap (mem : Mem) (availabilities : List Ptr) : GoMap String Ptr :=
  availabilities.foldl
    (fun amap availability =>
      let a := mem.cell availability
      amap.set (roomKey a.HotelID a.RoomID (Time.FormatDate a.Date)) availability) []

/-- The inner loop of `updateRoomAvailabilities` over the days of one place; `none` is the
early return with `ErrLogic`. The decrements made before it stay in the heap. -/
def updateDays (amap : GoMap String Ptr) (property : Place) :
    List Time → List Ptr → Mem → Option (List Ptr) × Mem
  | [], updated, mem => (some updated, mem)
  | currentDate :: rest, updated, mem =>
    match amap.get (roomKey property.HotelID property.RoomID (Time.FormatDate currentDate)) with
    | some availability =>
      updateDays amap property rest (updated ++ [availability]) (mem.decQuota availability)
    | none => (none, mem)

/-- The outer loop of `updateRoomAvailabilities` over the places. -/
def updatePlaces (amap : GoMap String Ptr) :
    List Place → List Ptr → Mem → Option (List Ptr) × Mem
  | [], updated, mem => (some updated, mem)
  | property :: rest, updated, mem =>
    match updateDays amap property (days property.From property.To) updated mem with
    | (some updated, mem) => updatePlaces amap rest updated mem
    | (none, mem) => (none, mem)

def updateRoomAvailabilities (input : BookInput) (availabilities : List Ptr) (mem : Mem) :
    Except Error (List Ptr) × Mem :=
  let amap := availabilityMap mem availabilities
  match updatePlaces amap input.Places [] mem with
  | (some updated, mem) => (.ok updated, mem)
  | (none, mem) => (.error (.wrap "data are not the same. Check storage" .ErrLogic), mem)

/-- The deferred function of `CreateOrder`, run with the results `(order, err)` that the
`return` statement has just set: when `err` is not nil it assigns the result of
`RollbackTransaction` to `err`, otherwise the result of `CommitTransaction`. -/
def finish (m : Manager σ γ) (ctx : Ctx) (result : Option Order × Option Error) (mem : Mem)
    (db : σ) : (Option Order × Option Error) × Mem × σ :=
  match result with
  | (order, some _) =>
    match m.storage.RollbackTransaction ctx mem db with
    | (err, mem, db) => ((order, err), mem, db)
  | (order, none) =>
    match m.storage.CommitTransaction ctx mem db with
    | (err, mem, db) => ((order, err), mem, db)

/-- The part of `CreateOrder` after `BeginTransaction`: the three staging calls, each
`return` followed by the deferred function. -/
def persist (m : Manager σ γ) (ctx : Ctx) (order : Order) (availabilities : List Ptr)
    (event : Event) (mem : Mem) (db : σ) : (Option Order × Option Error) × Mem × σ :=
  match m.storage.SaveOrder ctx order mem db with
  | (some err, mem, db) => finish m ctx (none, some (.wrap "save order to storage" err)) mem db
  | (none, mem, db) =>
    match m.storage.SaveRoomAvailabilities ctx availabilities mem db with
    | (some err, mem, db) =>
      finish m ctx (none, some (.wrap "save room availabilities to storage" err)) mem db
    | (none, mem, db) =>
      match m.storage.SaveEvent ctx event mem db with
      | (some err, mem, db) =>
        finish m ctx (none, some (.wrap "save event to storage" err)) mem db
      | (none, mem, db) => finish m ctx (some order, none) mem db

def CreateOrder (env : Env) (m : Manager σ γ) (ctx : Ctx) (input : BookInput) (w : World σ γ) :
    (Option Order × Option Error) × World σ γ :=
  match input.validate env with
  | some err => ((none, some err), w)
  | none =>
    match m.storage.GetOrderByIdempotencyKey ctx w.mem w.db with
    | ((order, err), mem, db) =>
      if err.isSome && !errorsIs err .ErrRecordNotFound then
        ((none, err.map (Error.wrap "get order by idempotency key")), { w with mem := mem, db := db })
      else if !errorsIs err .ErrRecordNotFound then
        ((order, none), { w with mem := mem, db := db })
      else
        let input := input.prepareDates
        match getRoomAvailabilities m ctx input mem db with
        | (.error err, mem, db) =>
          ((none, some (.wrap "get availabilities" err)), { w with mem := mem, db := db })
        | (.ok availabilities, mem, db) =>
          match updateRoomAvailabilities input availabilities mem with
          | (.error err, mem) =>
            ((none, some (.wrap "update availabilities" err)), { w with mem := mem, db := db })
          | (.ok availabilities, mem) =>
            match buildOrder env m ctx input w.gen with
            | (.error err, gen) =>
              ((none, some (.wrap "build order" err)), { mem := mem, db := db, gen := gen })
            | (.ok (order, event), gen) =>
              match m.storage.BeginTransaction ctx "READ COMMITTED" mem db with
              | ((_, some err), mem, db) =>
                ((none, some (.wrap "begin transaction" err)), { mem := mem, db := db, gen := gen })
              | ((ctx, none), mem, db) =>
                match persist m ctx order availabilities event mem db with
                | (result, mem, db) => (result, { mem := mem, db := db, gen := gen })

end Manager

/-- The in-memory store as an implementation of the `storage` interface. -/
def memory.Storage : storage memory.DB where
  GetAvailabilities := fun _ inputs mem db => (db.GetAvailabilities mem inputs, mem, db)
  GetOrderByIdempotencyKey := fun ctx mem db => (db.GetOrderByIdempotencyKey ctx, mem, db)
  BeginTransaction := fun ctx level mem db =>
    ((db.BeginTransaction ctx level).1, mem, (db.BeginTransaction ctx level).2)
  CommitTransaction := fun ctx mem db => ((db.CommitTransaction ctx).1, mem, (db.CommitTransaction ctx).2)
  RollbackTransaction := fun ctx mem db =>
    ((db.RollbackTransaction ctx).1, mem, (db.RollbackTransaction ctx).2)
  SaveRoomAvailabilities := fun ctx availabilities mem db =>
    ((db.SaveRoomAvailabilities mem ctx availabilities).1, mem,
     (db.SaveRoomAvailabilities mem ctx availabilities).2)
  SaveEvent := fun ctx event mem db => ((db.SaveEvent ctx event).1, mem, (db.SaveEvent ctx event).2)
  SaveOrder := fun ctx order mem db => ((db.SaveOrder ctx order).1, mem, (db.SaveOrder ctx order).2)

/-- The simple generator as an implementation of the `idGenerator` interface. -/
def simple.IDs : idGenerator simple.Generator where
  GetID := fun ctx g => g.GetID ctx

/-- The manager wired as in `app.Run`: the in-memory store and the simple generator. -/
def appManager : Manager memory.DB simple.Generator :=
  { storage := memory.Storage, idGenerator := simple.IDs }

/-! ## The seed data (`internal/migration/migration.go`) -/

namespace migration

/-- The records of `roomAvailabilities` in `Up`. -/
def seed : List RoomAvailability :=
  [ { HotelID := "reddison", RoomID := "lux", Date := date 2024 2 26, Quota := 2 },
    { HotelID := "reddison", RoomID := "lux", Date := date 2024 2 27, Quota := 4 },
    { HotelID := "reddison", RoomID := "lux", Date := date 2024 2 28, Quota := 1 } ]

/-- Allocation of the slice literal: one fresh record per element. -/
def allocAll : List RoomAvailability → Mem → List Ptr × Mem
  | [], mem => ([], mem)
  | r :: rest, mem =>
    let (p, mem) := mem.alloc r
    let (ps, mem) := allocAll rest mem
    (p :: ps, mem)

def Up {σ : Type} (s : storage σ) (ctx : Ctx) (mem : Mem) (db : σ) : Option Error × Mem × σ :=
  match allocAll seed mem with
  | (roomAvailabilities, mem) =>
    match s.BeginTransaction ctx "" mem db with
    | ((_, some err), mem, db) => (some (.wrap "begin transaction" err), mem, db)
    | ((ctx, none), mem, db) =>
      let ctx := NewContextWithIdempotencyKey ctx "migration"
      match s.SaveRoomAvailabilities ctx roomAvailabilities mem db with
      | (some _, mem, db) => s.RollbackTransaction ctx mem db
      | (none, mem, db) => s.CommitTransaction ctx mem db

end migration

/-! ## Observations and concrete scenarios -/

/-- The quota that the store holds for a room-day: the record that the authoritative map
keeps under the key of `(hotelID, roomID, d)`, read through the heap. -/
def quotaAt {σ γ : Type} (rooms : σ → GoMap String Ptr) (w : World σ γ)
    (hotelID roomID : String) (d : Time) : Option Int :=
  ((rooms w.db).get (roomKey hotelID roomID (Time.FormatRFC3339 d))).map
    fun p => (w.mem.cell p).Quota

/-- The quota of a room-day in the in-memory store. -/
def memQuota {γ : Type} (w : World memory.DB γ) (hotelID roomID : String) (d : Time) :
    Option Int :=
  quotaAt memory.DB.roomAvailabilities w hotelID roomID d

/-- A heap with nothing allocated. -/
def emptyMem : Mem := { cell := fun _ => ⟨"", "", 0, 0⟩, next := 0 }

/-- The state of the program after `app.Run` has applied the migration. -/
def seededWorld : World memory.DB simple.Generator :=
  match migration.Up memory.Storage ⟨none, none⟩ emptyMem memory.New with
  | (_, mem, db) => { mem := mem, db := db, gen := simple.New }

/-- A clock reading before the seeded days, and a mail parser accepting `a@b.c` only. -/
def febFirst : Env := { now := date 2024 2 1, parseAddress := fun s => decide (s = "a@b.c") }

/-- A clock reading after the seeded days. -/
def marchFirst : Env := { febFirst with now := date 2024 3 1 }

/-- A request for one day of the seeded room. -/
def oneDay (d : Time) : Place :=
  { HotelID := "reddison", RoomID := "lux", From := d, To := d, Price := 0 }

/-- A request body with the accepted payer and no price strategy. -/
def request (places : List Place) : BookInput :=
  { Payer := { Email := "a@b.c" }, Places := places, BoostStrategies := [] }

/-- A context carrying an idempotency key, as `createOrderHandler` builds it. -/
def withKey (key : String) : Ctx := NewContextWithIdempotencyKey ⟨none, none⟩ key

/-- Method `Apply` of `boost.PromoCode` on a code whose `ValidThrough` is before the
current time: it returns the expiry error before touching the order. -/
def expiredPromo : BoostStrategy := fun order => (order, some (.other "promo code expired"))

/-- A storage call together with the error it returned. -/
inductive Call where
  | GetAvailabilities (err : Option Error)
  | GetOrderByIdempotencyKey (err : Option Error)
  | BeginTransaction (err : Option Error)
  | CommitTransaction (ctx : Ctx) (err : Option Error)
  | RollbackTransaction (ctx : Ctx) (err : Option Error)
  | SaveRoomAvailabilities (ctx : Ctx) (err : Option Error)
  | SaveEvent (ctx : Ctx) (err : Option Error)
  | SaveOrder (ctx : Ctx) (err : Option Error)
deriving DecidableEq, Repr

/-- Is the call a `RollbackTransaction`. -/
def Call.isRollback : Call → Bool
  | .RollbackTransaction _ _ => true
  | _ => false

/-- Is the call a `CommitTransaction`. -/
def Call.isCommit : Call → Bool
  | .CommitTransaction _ _ => true
  | _ => false

/-- A storage that behaves as `s` and appends every call it receives to a log. -/
def traced {σ : Type} (s : storage σ) : storage (σ × List Call) where
  GetAvailabilities := fun ctx inputs mem st =>
    match s.GetAvailabilities ctx inputs mem st.1 with
    | (r, mem, db) => (r, mem, (db, st.2 ++ [.GetAvailabilities r.2]))
  GetOrderByIdempotencyKey := fun ctx mem st =>
    match s.GetOrderByIdempotencyKey ctx mem st.1 with
    | (r, mem, db) => (r, mem, (db, st.2 ++ [.GetOrderByIdempotencyKey r.2]))
  BeginTransaction := fun ctx level mem st =>
    match s.BeginTransaction ctx level mem st.1 with
    | (r, mem, db) => (r, mem, (db, st.2 ++ [.BeginTransaction r.2]))
  CommitTransaction := fun ctx mem st =>
    match s.CommitTransaction ctx mem st.1 with
    | (r, mem, db) => (r, mem, (db, st.2 ++ [.CommitTransaction ctx r]))
  RollbackTransaction := fun ctx mem st =>
    match s.RollbackTransaction ctx mem st.1 with
    | (r, mem, db) => (r, mem, (db, st.2 ++ [.RollbackTransaction ctx r]))
  SaveRoomAvailabilities := fun ctx availabilities mem st =>
    match s.SaveRoomAvailabilities ctx availabilities mem st.1 with
    | (r, mem, db) => (r, mem, (db, st.2 ++ [.SaveRoomAvailabilities ctx r]))
  SaveEvent := fun ctx event mem st =>
    match s.SaveEvent ctx event mem st.1 with
    | (r, mem, db) => (r, mem, (db, st.2 ++ [.SaveEvent ctx r]))
  SaveOrder := fun ctx order mem st =>
    match s.SaveOrder ctx order mem st.1 with
    | (r, mem, db) => (r, mem, (db, st.2 ++ [.SaveOrder ctx r]))

/-- The world seen by a traced storage, with an empty log. -/
def World.traced {σ γ : Type} (w : World σ γ) : World (σ × List Call) γ :=
  { mem := w.mem, db := (w.db, []), gen := w.gen }

/-- The in-memory store, except that `SaveOrder` fails. -/
def saveOrderFails : storage memory.DB :=
  { memory.Storage with SaveOrder := fun _ _ mem db => (some (.other "disk full"), mem, db) }

/-- The in-memory store, except that `CommitTransaction` fails. -/
def commitFails : storage memory.DB :=
  { memory.Storage with CommitTransaction := fun _ mem db => (some (.other "commit failed"), mem, db) }

/-- No call of the log is a commit or a rollback. -/
def quietLog (log : List Call) : Prop :=
  ∀ call ∈ log, call.isRollback = false ∧ call.isCommit = false

/-- A Go map has one entry per key. -/
def GoMap.keysNodup {K V : Type} (m : GoMap K V) : Prop := (m.map Prod.fst).Nodup

/-- The buffers of a transaction as the `Save*` methods build them: one entry per key,
every order and every event under its own ID. -/
structure memory.transaction.wellFormed (trx : memory.transaction) : Prop where
  rooms : trx.roomModifications.keysNodup
  orders : trx.orderModifications.keysNodup
  events : trx.eventModifications.keysNodup
  orderIDs : ∀ kv ∈ trx.orderModifications, kv.1 = kv.2.ID
  eventIDs : ∀ kv ∈ trx.eventModifications, kv.1 = kv.2.ID

/-- A compensating action that changes nothing in the present authoritative state: the
room key still holds the record it held when it was staged (or is still absent), and no
order or event is stored under the staged ID. -/
def memory.neutralAction (db : memory.DB) : memory.rollbackAction → Prop
  | .restoreRoom key originalRoom => db.roomAvailabilities.get key = some originalRoom
  | .deleteRoom key => db.roomAvailabilities.get key = none
  | .deleteOrder orderID => db.orders.get orderID = none
  | .deleteEvent eventID => db.events.get eventID = none

instance (db : memory.DB) : DecidablePred (memory.neutralAction db) := fun a => by
  cases a <;> unfold memory.neutralAction <;> infer_instance

instance (log : List Call) : Decidable (quietLog log) := by
  unfold quietLog; infer_instance

/-- An order with ID 7 and one with ID 8, for the store scenarios. -/
def order7 : Order :=
  { ID := 7, Payer := { Email := "a@b.c" }, Places := [], CreatedAt := 0, Price := 0 }

def order8 : Order := { order7 with ID := 8 }

/-- A store in which a first transaction has committed `order7` under the idempotency
key `k`. -/
def committedKeyDB : memory.DB :=
  let db := (memory.New.BeginTransaction ⟨some "k", none⟩ "").2
  let db := (db.SaveOrder ⟨some "k", some "trx-0"⟩ order7).2
  (db.CommitTransaction ⟨some "k", some "trx-0"⟩).2

/-- The same store after a second transaction `trx-1` has staged another order that
carries the ID 7 again. -/
def staleOrderDB : memory.DB :=
  let db := (committedKeyDB.BeginTransaction ⟨some "b", none⟩ "").2
  (db.SaveOrder ⟨some "b", some "trx-1"⟩ { order7 with Payer := { Email := "c@d.e" } }).2

/-- The store of `committedKeyDB` after a second transaction `trx-1` has staged `order8`
and its event. -/
def secondWriterDB : memory.DB :=
  let db := (committedKeyDB.BeginTransaction ⟨some "k", none⟩ "").2
  let db := (db.SaveOrder ⟨some "k", some "trx-1"⟩ order8).2
  (db.SaveEvent ⟨some "k", some "trx-1"⟩ { ID := 9, OrderID := 8, CreatedAt := 0 }).2

instance {K V : Type} [DecidableEq K] (m : GoMap K V) : Decidable m.keysNodup := by
  unfold GoMap.keysNodup; infer_instance

/-- The transaction that is open in `secondWriterDB`. -/
def secondWriterTrx : memory.transaction :=
  { id := "trx-1", roomModifications := [], orderModifications := [(8, order8)],
    eventModifications := [(9, { ID := 9, OrderID := 8, CreatedAt := 0 })],
    rollbackActions := [.deleteOrder 8, .deleteEvent 9] }

/-- A manager over the in-memory store with any ID generator. -/
def memManager {γ : Type} (g : idGenerator γ) : Manager memory.DB γ :=
  { storage := memory.Storage, idGenerator := g }

/-- The key under which the store files a record (`SaveRoomAvailabilities`). -/
def storeKey (a : RoomAvailability) : String :=
  roomKey a.HotelID a.RoomID (Time.FormatRFC3339 a.Date)

/-- The room buffer of a transaction after the loop of `SaveRoomAvailabilities` has run
over `availabilities`: a record is entered under its key unless the key is taken. -/
def stagedRooms (mem : Mem) (availabilities : List Ptr) (staged : GoMap String Ptr) :
    GoMap String Ptr :=
  availabilities.foldl
    (fun staged p =>
      match staged.get (storeKey (mem.cell p)) with
      | some _ => staged
      | none => staged.set (storeKey (mem.cell p)) p) staged

/-- The store after `CreateOrder` has begun a transaction, staged `order`, the records
`availabilities` and `event`, and committed under the idempotency key `key`. -/
def memory.DB.afterBooking (db : memory.DB) (mem : Mem) (key : String) (order : Order)
    (event : Event) (availabilities : List Ptr) : memory.DB :=
  { roomAvailabilities :=
      (stagedRooms mem availabilities []).foldl (fun m kv => m.set kv.1 kv.2)
        db.roomAvailabilities,
    events := db.events.set event.ID event,
    orders := db.orders.set order.ID order,
    transactions := db.transactions.del ("trx-" ++ Time.fmtInt db.nextTrxID),
    nextTrxID := db.nextTrxID + 1,
    orderIdempotencyKeys := db.orderIdempotencyKeys.set key order }

/-- The store `db` after `BeginTransaction`, with the new transaction in the state `trx`. -/
def memory.DB.inTransaction (db : memory.DB) (trx : memory.transaction) : memory.DB :=
  { db with
    nextTrxID := db.nextTrxID + 1,
    transactions := db.transactions.set ("trx-" ++ Time.fmtInt db.nextTrxID) trx }

/-- The availability queries that `getRoomAvailabilities` builds from the places. -/
def queries (input : BookInput) : List GetAvailabilityInput :=
  input.Places.map fun property =>
    { HotelID := property.HotelID, RoomID := property.RoomID,
      From := property.From, To := property.To }

/-- What `CreateOrder` does over the in-memory store once validation has passed and the
idempotency key `key` is not in the index: the availability read, the decrement, the
IDs, and the committed transaction. -/
def bookFresh {γ : Type} (env : Env) (g : idGenerator γ) (ctx : Ctx) (key : String)
    (input : BookInput) (w : World memory.DB γ) :
    (Option Order × Option Error) × World memory.DB γ :=
  match w.db.GetAvailabilities w.mem (queries input.prepareDates) with
  | (_, some err) =>
    ((none, some (.wrap "get availabilities" (.wrap "get availabilities from storage" err))), w)
  | (availabilities, none) =>
    match Manager.updateRoomAvailabilities input.prepareDates availabilities w.mem with
    | (.error err, mem) =>
      ((none, some (.wrap "update availabilities" err)), { w with mem := mem })
    | (.ok availabilities, mem) =>
      match Manager.buildOrder env (memManager g) ctx input.prepareDates w.gen with
      | (.error err, gen) =>
        ((none, some (.wrap "build order" err)), { mem := mem, db := w.db, gen := gen })
      | (.ok (order, event), gen) =>
        ((some order, none),
         { mem := mem, db := w.db.afterBooking mem key order event availabilities, gen := gen })

/-- A sequence of `CreateOrder` calls, each with its own clock reading, context and body;
the state after the last one. -/
def runCalls {σ γ : Type} (m : Manager σ γ) :
    List (Env × Ctx × BookInput) → World σ γ → World σ γ
  | [], w => w
  | (env, ctx, input) :: rest, w => runCalls m rest (Manager.CreateOrder env m ctx input w).2

namespace memory.DB

/-- The record that `GetAvailabilities` accepts for a day of a query: the one stored under
the key of the day, when its quota is at least 1. -/
def availableOn (mem : Mem) (db : DB) (input : GetAvailabilityInput) (d : Time) : Option Ptr :=
  match db.roomAvailabilities.get
      (roomKey input.HotelID input.RoomID (Time.FormatRFC3339 d)) with
  | none => none
  | some p => if (mem.cell p).Quota < 1 then none else some p

/-- The days of a query without an acceptable record, in ascending order. -/
def unavailableDays (mem : Mem) (db : DB) (input : GetAvailabilityInput) : List Time :=
  (days input.From input.To).filter fun d => (availableOn mem db input d).isNone

/-- The acceptable records of the days of a query, in ascending order of the days. -/
def availableRecords (mem : Mem) (db : DB) (input : GetAvailabilityInput) : List Ptr :=
  (days input.From input.To).filterMap (availableOn mem db input)

/-- The entries of the availability error: one per query with an unavailable day. -/
def unavailableRooms (mem : Mem) (db : DB) (inputs : List GetAvailabilityInput) :
    List UnavailableRoom :=
  inputs.filterMap fun input =>
    if (unavailableDays mem db input).length > 0 then
      some ⟨input.HotelID, input.RoomID, unavailableDays mem db input⟩
    else none

end memory.DB

/-- The key under which the decrement step files a record (`updateRoomAvailabilities`). -/
def dateKey (a : RoomAvailability) : String :=
  roomKey a.HotelID a.RoomID (Time.FormatDate a.Date)

/-- A requested room-day: hotel, room and day. -/
abbrev RoomDay := String × String × Time

/-- The store key of a room-day. -/
def RoomDay.storeKey (r : RoomDay) : String := roomKey r.1 r.2.1 (Time.FormatRFC3339 r.2.2)

/-- The key of a room-day in the decrement step. -/
def RoomDay.dateKey (r : RoomDay) : String := roomKey r.1 r.2.1 (Time.FormatDate r.2.2)

/-- The record carries the identifiers of the room-day. -/
def RoomDay.names (r : RoomDay) (a : RoomAvailability) : Prop :=
  a.HotelID = r.1 ∧ a.RoomID = r.2.1 ∧ a.Date = r.2.2

instance (r : RoomDay) (a : RoomAvailability) : Decidable (r.names a) := by
  unfold RoomDay.names; infer_instance

/-- The room-days of a list of queries, in query order and ascending day order. -/
def requestsOf (inputs : List GetAvailabilityInput) : List RoomDay :=
  inputs.flatMap fun input =>
    (days input.From input.To).map fun d => (input.HotelID, input.RoomID, d)

/-- The room-days that a request body asks for, after `prepareDates`. -/
def requestedDays (input : BookInput) : List RoomDay :=
  requestsOf (queries input.prepareDates)

/-- The record that `GetAvailabilities` accepts for a room-day. -/
def accepted (mem : Mem) (db : memory.DB) (r : RoomDay) : Option Ptr :=
  match db.roomAvailabilities.get r.storeKey with
  | none => none
  | some p => if (mem.cell p).Quota < 1 then none else some p

/-- The loops of `updateRoomAvailabilities` over the keys of the requested days. -/
def decKeys (amap : GoMap String Ptr) : List String → List Ptr → Mem → Option (List Ptr) × Mem
  | [], updated, mem => (some updated, mem)
  | key :: rest, updated, mem =>
    match amap.get key with
    | some availability => decKeys amap rest (updated ++ [availability]) (mem.decQuota availability)
    | none => (none, mem)

/-- The store after a booking whose staged records are the ones the store already holds
under their keys: the room map is as before, the order, the event and the idempotency entry
are added, the transaction opened for the booking is gone. -/
def memory.DB.booked (db : memory.DB) (key : String) (order : Order) (event : Event) :
    memory.DB :=
  { roomAvailabilities := db.roomAvailabilities,
    events := db.events.set event.ID event,
    orders := db.orders.set order.ID order,
    transactions := db.transactions.del ("trx-" ++ Time.fmtInt db.nextTrxID),
    nextTrxID := db.nextTrxID + 1,
    orderIdempotencyKeys := db.orderIdempotencyKeys.set key order }

/-- The requested room-days are bookable in the state `(mem, db)`: for each one, in order,
`avs` lists the record stored under its key; the record carries the identifiers of the
room-day and its quota is at least 1. -/
def bookable (mem : Mem) (db : memory.DB) (reqs : List RoomDay) (avs : List Ptr) : Prop :=
  List.Forall₂
    (fun (r : RoomDay) p =>
      db.roomAvailabilities.get r.storeKey = some p ∧ 1 ≤ (mem.cell p).Quota ∧
      r.names (mem.cell p))
    reqs avs

/-- A state in which the store files the record of hotel `a_b`, room `c` for 2024-02-26
(quota 5) under the key `a_b_c_2024-02-26T00:00:00Z`, and another client has a transaction
open. -/
def collidingWorld : World memory.DB simple.Generator :=
  let pm := emptyMem.alloc { HotelID := "a_b", RoomID := "c", Date := date 2024 2 26, Quota := 5 }
  let db := (memory.New.BeginTransaction ⟨some "seed", none⟩ "").2
  let db := (db.SaveRoomAvailabilities pm.2 ⟨some "seed", some "trx-0"⟩ [pm.1]).2
  let db := (db.CommitTransaction ⟨some "seed", some "trx-0"⟩).2
  let db := (db.BeginTransaction ⟨some "other", none⟩ "").2
  { mem := pm.2, db := db, gen := simple.New }

/-- Two places with different (hotel, room) pairs whose keys are the same string. -/
def collidingRequest : BookInput :=
  request
    [ { HotelID := "a_b", RoomID := "c", From := date 2024 2 26, To := date 2024 2 26, Price := 0 },
      { HotelID := "a", RoomID := "b_c", From := date 2024 2 26, To := date 2024 2 26, Price := 0 } ]

/-- The first booking of the scenario of the spec: key `k1`, one day, quota 2. -/
def firstBooking : (Option Order × Option Error) × World memory.DB simple.Generator :=
  Manager.CreateOrder febFirst appManager (withKey "k1") (request [oneDay (date 2024 2 26)])
    seededWorld

/-- The order that the first booking returns. -/
def firstOrder : Order :=
  { ID := 1, Payer := { Email := "a@b.c" }, Places := [oneDay (date 2024 2 26)],
    CreatedAt := date 2024 2 1, Price := 0 }

/-- The results of a sequence of `CreateOrder` calls, in order. -/
def callResults {σ γ : Type} (m : Manager σ γ) :
    List (Env × Ctx × BookInput) → World σ γ → List (Option Order × Option Error)
  | [], _ => []
  | (env, ctx, input) :: rest, w =>
    (Manager.CreateOrder env m ctx input w).1 ::
      callResults m rest (Manager.CreateOrder env m ctx input w).2

/-- A call that books the single place `D..D` of a room under the idempotency key `key`:
the payer address is well formed, the clock is not after `D`, and no price strategy
fails. -/
structure booksDay (hotelID roomID : String) (D : Time) (key : String)
    (c : Env × Ctx × BookInput) : Prop where
  key : c.2.1.idempotencyKey = some key
  email : c.1.parseAddress c.2.2.Payer.Email = true
  place : ∃ price, c.2.2.Places =
    [{ HotelID := hotelID, RoomID := roomID, From := D, To := D, Price := price }]
  clock : c.1.now ≤ D
  strategies : ∀ s ∈ c.2.2.BoostStrategies, ∀ o, (s o).2 = none

/-- The three bookings of the scenario of the spec for (reddison, lux, 2024-02-26), with
the keys `k1`, `k2` and `k3`. -/
def scenarioCalls : List (Env × Ctx × BookInput) :=
  [ (febFirst, withKey "k1", request [oneDay (date 2024 2 26)]),
    (febFirst, withKey "k2", request [oneDay (date 2024 2 26)]),
    (febFirst, withKey "k3", request [oneDay (date 2024 2 26)]) ]

/-! ## Validation: the rules in the words of the spec -/

/-- One step of `validate`: the message is added when the rule is violated. -/
def addIf (violated : Bool) (field msg : String) (fields : GoMap String (List String)) :
    GoMap String (List String) :=
  if violated then addError fields field msg else fields

/-- All messages of a field map, field by field. -/
def allMessages (fields : GoMap String (List String)) : List String :=
  fields.flatMap fun kv => kv.2

/-- The rules of the spec for one place: non-empty hotel and room identifiers, from and to
not in the past, from not after to. -/
def placeValid (now : Time) (place : Place) : Prop :=
  place.HotelID ≠ "" ∧ place.RoomID ≠ "" ∧ ¬ place.From < now ∧ ¬ place.To < now ∧
  ¬ place.To < place.From

instance (now : Time) (place : Place) : Decidable (placeValid now place) := by
  unfold placeValid; infer_instance

/-- The rules of the spec for a request: payer email well formed, at least one place,
every place valid. -/
def inputValid (env : Env) (b : BookInput) : Prop :=
  env.parseAddress b.Payer.Email = true ∧ b.Places ≠ [] ∧
  ∀ place ∈ b.Places, placeValid env.now place

/-- The messages for the rules that a place violates, one per violated rule. -/
def placeViolations (now : Time) (place : Place) : List String :=
  (if place.HotelID = "" then ["provide place.hotelID"] else []) ++
  (if place.RoomID = "" then ["provide place.roomID"] else []) ++
  (if place.From < now then ["place.from must not be in the past"] else []) ++
  (if place.To < now then ["place.to must not be in the past"] else []) ++
  (if place.To < place.From then ["place.from must be before place.to"] else [])

/-- The messages for the rules that a request violates, one per violated rule. -/
def violations (env : Env) (b : BookInput) : List String :=
  (if env.parseAddress b.Payer.Email then [] else ["provide valid email"]) ++
  (if b.Places.length = 0 then ["provide at least one place"] else []) ++
  b.Places.flatMap (placeViolations env.now)

/-- A clock reading at noon of 2024-02-26. -/
def noon26 : Env := { febFirst with now := date 2024 2 26 + 12 * 3600 * 1000000000 }

/-- A request with an invalid payer address and one place whose from is in the past and
after its to. -/
def badRequest : BookInput :=
  { Payer := { Email := "nobody" },
    Places := [{ HotelID := "reddison", RoomID := "lux", From := date 2024 2 25,
                 To := date 2024 2 24, Price := 0 }],
    BoostStrategies := [] }

/-- An error is of one of the two kinds that `createOrderHandler` answers with a client
error: `IsInputError` or `IsAvailabilityError` recognises it. -/
def Error.isClientError (e : Error) : Bool :=
  e.IsInputError.isSome || e.IsAvailabilityError.isSome

/-- A price strategy supplied by a caller whose `Apply` returns the value of
`booking.NewAvailabilityError()`. -/
def soldOutStrategy : BoostStrategy := fun order => (order, some (.AvailabilityError []))

/-- One call of a method of the in-memory store that takes part in a transaction. The
records in memory at the time of a `SaveRoomAvailabilities` call are part of the call. -/
inductive StoreOp where
  | begin (ctx : Ctx) (level : String)
  | commit (ctx : Ctx)
  | rollback (ctx : Ctx)
  | saveRooms (mem : Mem) (ctx : Ctx) (availabilities : List Ptr)
  | saveOrder (ctx : Ctx) (order : Order)
  | saveEvent (ctx : Ctx) (event : Event)

namespace StoreOp

/-- The error that the call returns and the store after it. -/
def run : StoreOp → memory.DB → Option Error × memory.DB
  | begin ctx level, db => ((db.BeginTransaction ctx level).1.2, (db.BeginTransaction ctx level).2)
  | commit ctx, db => db.CommitTransaction ctx
  | rollback ctx, db => db.RollbackTransaction ctx
  | saveRooms mem ctx availabilities, db => db.SaveRoomAvailabilities mem ctx availabilities
  | saveOrder ctx order, db => db.SaveOrder ctx order
  | saveEvent ctx event, db => db.SaveEvent ctx event

/-- The call is a `CommitTransaction` or a `RollbackTransaction` carrying the handle `h`. -/
def closes (h : String) : StoreOp → Prop
  | commit ctx => ctx.transactionID = some h
  | rollback ctx => ctx.transactionID = some h
  | _ => False

/-- The call is one of the five methods that take a handle, and it carries `h`. -/
def carries (h : String) : StoreOp → Prop
  | begin _ _ => False
  | commit ctx => ctx.transactionID = some h
  | rollback ctx => ctx.transactionID = some h
  | saveRooms _ ctx _ => ctx.transactionID = some h
  | saveOrder ctx _ => ctx.transactionID = some h
  | saveEvent ctx _ => ctx.transactionID = some h

instance (h : String) (op : StoreOp) : Decidable (op.closes h) := by
  cases op <;> unfold closes <;> infer_instance

instance (h : String) (op : StoreOp) : Decidable (op.carries h) := by
  cases op <;> unfold carries <;> infer_instance

end StoreOp

/-- The store after a sequence of calls. -/
def runOps (ops : List StoreOp) (db : memory.DB) : memory.DB :=
  ops.foldl (fun db op => (op.run db).2) db

/-- The handle that `BeginTransaction` makes of the counter value `n`. -/
def trxName (n : Int) : String := "trx-" ++ Time.fmtInt n

/-- Every open transaction is registered under a handle made of a counter value that
`BeginTransaction` has already passed. -/
def memory.DB.handlesIssued (db : memory.DB) : Prop :=
  0 ≤ db.nextTrxID ∧
  ∀ k trx, db.transactions.get k = some trx →
    ∃ n : Int, 0 ≤ n ∧ n < db.nextTrxID ∧ k = trxName n

/-- The handle `h` has been issued and its transaction is no longer registered. -/
def memory.DB.consumed (db : memory.DB) (h : String) : Prop :=
  db.transactions.get h = none ∧ ∃ n : Int, 0 ≤ n ∧ n < db.nextTrxID ∧ h = trxName n

/-- What a call can do to the register of open transactions and to the counter: nothing,
remove one handle, replace the buffer of an open handle, or register the next handle. -/
inductive memory.DB.registerStep (db db' : memory.DB) : Prop where
  | same (ht : db'.transactions = db.transactions) (hn : db'.nextTrxID = db.nextTrxID)
  | closed (k : String) (ht : db'.transactions = db.transactions.del k)
      (hn : db'.nextTrxID = db.nextTrxID)
  | staged (k : String) (old new : memory.transaction)
      (hk : db.transactions.get k = some old)
      (ht : db'.transactions = db.transactions.set k new) (hn : db'.nextTrxID = db.nextTrxID)
  | opened (new : memory.transaction)
      (ht : db'.transactions = db.transactions.set (trxName db.nextTrxID) new)
      (hn : db'.nextTrxID = db.nextTrxID + 1)

/-- The number that a string of decimal digits denotes. -/
def digitsValue (cs : List Char) (start : Nat) : Nat :=
  cs.foldl (fun v c => v * 10 + (c.toNat - 48)) start

/-- The call is `BeginTransaction` or one of the three staging methods. -/
def StoreOp.stages : StoreOp → Prop
  | .begin _ _ => True
  | .saveRooms _ _ _ => True
  | .saveOrder _ _ => True
  | .saveEvent _ _ => True
  | _ => False

instance (op : StoreOp) : Decidable op.stages := by
  cases op <;> unfold StoreOp.stages <;> infer_instance

/-- The handle that the context of the call carries; `BeginTransaction` reads none. -/
def StoreOp.handle : StoreOp → Option String
  | .begin _ _ => none
  | .commit ctx => ctx.transactionID
  | .rollback ctx => ctx.transactionID
  | .saveRooms _ ctx _ => ctx.transactionID
  | .saveOrder ctx _ => ctx.transactionID
  | .saveEvent ctx _ => ctx.transactionID

/-- A history of the store: transaction `trx-0` commits `order7` under the key `k`, two
more transactions are begun, and `trx-2` stages `order8`. -/
def twoOpen : List StoreOp :=
  [.begin (withKey "k") "", .saveOrder ⟨some "k", some "trx-0"⟩ order7,
   .commit ⟨some "k", some "trx-0"⟩, .begin ⟨none, none⟩ "", .begin ⟨none, none⟩ "",
   .saveOrder ⟨none, some "trx-2"⟩ order8]

/-- Successive calls of `GetID` on one generator, one per context of the list: the
returned values in call order, and the generator after the last call. -/
def simple.Generator.calls (g : simple.Generator) :
    List Ctx → List (Int × Option Error) × simple.Generator
  | [] => ([], g)
  | ctx :: rest =>
    ((g.GetID ctx).1 :: ((g.GetID ctx).2.calls rest).1, ((g.GetID ctx).2.calls rest).2)

/-- The field map holds the message about `place.to` under the field `place.from`. -/
def toMessageUnderFrom (fields : GoMap String (List String)) : Prop :=
  ∃ msgs, fields.get "place.from" = some msgs ∧ "place.to must not be in the past" ∈ msgs

/-- The state of `collidingWorld` after a further transaction has saved and committed a
record of hotel `a`, room `b_c` for 2024-02-26 with quota 1. -/
def overwrittenWorld : World memory.DB simple.Generator :=
  let pm := collidingWorld.mem.alloc
    { HotelID := "a", RoomID := "b_c", Date := date 2024 2 26, Quota := 1 }
  let db := (collidingWorld.db.BeginTransaction ⟨some "w", none⟩ "").2
  let db := (db.SaveRoomAvailabilities pm.2 ⟨some "w", some "trx-2"⟩ [pm.1]).2
  let db := (db.CommitTransaction ⟨some "w", some "trx-2"⟩).2
  { mem := pm.2, db := db, gen := collidingWorld.gen }

/-! ## `CreateOrder` call by call -/

/-- Where one invocation of `CreateOrder` stands between two of its storage calls, with
the local variables it holds there. -/
inductive Invocation where
  | start
  | lookedUp
  | read (availabilities : List Ptr)
  | built (order : Order) (event : Event) (availabilities : List Ptr)
  | begun (ctx : Ctx) (order : Order) (event : Event) (availabilities : List Ptr)
  | orderSaved (ctx : Ctx) (order : Order) (event : Event) (availabilities : List Ptr)
  | roomsSaved (ctx : Ctx) (order : Order) (event : Event)
  | returning (ctx : Ctx) (result : Option Order × Option Error)
  | done (result : Option Order × Option Error)
deriving DecidableEq, Repr

namespace Invocation

variable {σ γ : Type}

/-- The next piece of `CreateOrder`: from `start` the validation and
`GetOrderByIdempotencyKey`; then `GetAvailabilities`; then the decrement and `buildOrder`
(no storage call); then `BeginTransaction`, `SaveOrder`, `SaveRoomAvailabilities`,
`SaveEvent`; at `returning` the deferred function. Each piece runs on the shared state as
it is when the piece starts. -/
def step (env : Env) (m : Manager σ γ) (ctx : Ctx) (input : BookInput) :
    Invocation → World σ γ → Invocation × World σ γ
  | start, w =>
    match input.validate env with
    | some err => (done (none, some err), w)
    | none =>
      match m.storage.GetOrderByIdempotencyKey ctx w.mem w.db with
      | ((order, err), mem, db) =>
        if err.isSome && !errorsIs err .ErrRecordNotFound then
          (done (none, err.map (Error.wrap "get order by idempotency key")),
           { w with mem := mem, db := db })
        else if !errorsIs err .ErrRecordNotFound then
          (done (order, none), { w with mem := mem, db := db })
        else (lookedUp, { w with mem := mem, db := db })
  | lookedUp, w =>
    match Manager.getRoomAvailabilities m ctx input.prepareDates w.mem w.db with
    | (.error err, mem, db) =>
      (done (none, some (.wrap "get availabilities" err)), { w with mem := mem, db := db })
    | (.ok availabilities, mem, db) => (read availabilities, { w with mem := mem, db := db })
  | read availabilities, w =>
    match Manager.updateRoomAvailabilities input.prepareDates availabilities w.mem with
    | (.error err, mem) =>
      (done (none, some (.wrap "update availabilities" err)), { w with mem := mem })
    | (.ok availabilities, mem) =>
      match Manager.buildOrder env m ctx input.prepareDates w.gen with
      | (.error err, gen) =>
        (done (none, some (.wrap "build order" err)), { mem := mem, db := w.db, gen := gen })
      | (.ok (order, event), gen) =>
        (built order event availabilities, { mem := mem, db := w.db, gen := gen })
  | built order event availabilities, w =>
    match m.storage.BeginTransaction ctx "READ COMMITTED" w.mem w.db with
    | ((_, some err), mem, db) =>
      (done (none, some (.wrap "begin transaction" err)), { w with mem := mem, db := db })
    | ((ctx, none), mem, db) =>
      (begun ctx order event availabilities, { w with mem := mem, db := db })
  | begun ctx order event availabilities, w =>
    match m.storage.SaveOrder ctx order w.mem w.db with
    | (some err, mem, db) =>
      (returning ctx (none, some (.wrap "save order to storage" err)),
       { w with mem := mem, db := db })
    | (none, mem, db) =>
      (orderSaved ctx order event availabilities, { w with mem := mem, db := db })
  | orderSaved ctx order event availabilities, w =>
    match m.storage.SaveRoomAvailabilities ctx availabilities w.mem w.db with
    | (some err, mem, db) =>
      (returning ctx (none, some (.wrap "save room availabilities to storage" err)),
       { w with mem := mem, db := db })
    | (none, mem, db) => (roomsSaved ctx order event, { w with mem := mem, db := db })
  | roomsSaved ctx order event, w =>
    match m.storage.SaveEvent ctx event w.mem w.db with
    | (some err, mem, db) =>
      (returning ctx (none, some (.wrap "save event to storage" err)),
       { w with mem := mem, db := db })
    | (none, mem, db) => (returning ctx (some order, none), { w with mem := mem, db := db })
  | returning ctx result, w =>
    match Manager.finish m ctx result w.mem w.db with
    | (result, mem, db) => (done result, { w with mem := mem, db := db })
  | done result, w => (done result, w)

/-- The invocation run alone for `n` pieces. -/
def run (env : Env) (m : Manager σ γ) (ctx : Ctx) (input : BookInput) :
    Nat → Invocation × World σ γ → Invocation × World σ γ
  | 0, s => s
  | n + 1, s => run env m ctx input n (step env m ctx input s.1 s.2)

end Invocation

/-- Two invocations of `CreateOrder` on one shared state, run piece by piece in the order
that the schedule gives: `true` lets the first invocation take its next piece, `false`
the second. -/
def interleave {σ γ : Type} (env : Env) (m : Manager σ γ) (first second : Ctx × BookInput) :
    List Bool → Invocation × Invocation × World σ γ → Invocation × Invocation × World σ γ
  | [], s => s
  | true :: rest, (a, b, w) =>
    interleave env m first second rest
      ((Invocation.step env m first.1 first.2 a w).1, b,
       (Invocation.step env m first.1 first.2 a w).2)
  | false :: rest, (a, b, w) =>
    interleave env m first second rest
      (a, (Invocation.step env m second.1 second.2 b w).1,
       (Invocation.step env m second.1 second.2 b w).2)

/-- The schedule in which the first invocation runs to its end before the second starts. -/
def oneAfterTheOther : List Bool := List.replicate 8 true ++ List.replicate 8 false

/-- The schedule in which both invocations have read the availabilities before either of
them goes on: each takes its pieces up to `GetAvailabilities` in turn, then the first runs
to its end, then the second. -/
def bothReadFirst : List Bool :=
  [true, false, true, false] ++ List.replicate 6 true ++ List.replicate 6 false

/-! ## Records under their own keys -/

/-- Two readings of a record agree on hotel, room and date (the quota may differ). -/
def sameRoomDay (a b : RoomAvailability) : Prop :=
  a.HotelID = b.HotelID ∧ a.RoomID = b.RoomID ∧ a.Date = b.Date

instance (a b : RoomAvailability) : Decidable (sameRoomDay a b) := by
  unfold sameRoomDay; infer_instance

/-- The records that a `SaveRoomAvailabilities` call stages carried, at the time of the
call, the hotel, room and date that they carry in `mem`: nothing but the store's own
operations and the quota decrement has touched them. -/
def StoreOp.recordsAsIn (mem : Mem) : StoreOp → Prop
  | .saveRooms mem' _ availabilities =>
    ∀ p ∈ availabilities, sameRoomDay (mem'.cell p) (mem.cell p)
  | _ => True

instance (mem : Mem) (op : StoreOp) : Decidable (op.recordsAsIn mem) := by
  cases op <;> unfold StoreOp.recordsAsIn <;> infer_instance

/-- Every entry of the buffers of a transaction is under its own key, and every room that
a rollback action restores is restored under its own key. -/
def memory.transaction.keyed (mem : Mem) (trx : memory.transaction) : Prop :=
  (∀ kv ∈ trx.roomModifications, kv.1 = storeKey (mem.cell kv.2)) ∧
  (∀ kv ∈ trx.orderModifications, kv.2.ID = kv.1) ∧
  (∀ kv ∈ trx.eventModifications, kv.2.ID = kv.1) ∧
  (∀ k p, memory.rollbackAction.restoreRoom k p ∈ trx.rollbackActions →
    k = storeKey (mem.cell p))

/-- Every entry of the authoritative maps is under its own key, and every open transaction
is `keyed`. -/
def memory.DB.keyed (mem : Mem) (db : memory.DB) : Prop :=
  (∀ kv ∈ db.roomAvailabilities, kv.1 = storeKey (mem.cell kv.2)) ∧
  (∀ kv ∈ db.orders, kv.2.ID = kv.1) ∧
  (∀ kv ∈ db.events, kv.2.ID = kv.1) ∧
  (∀ ht ∈ db.transactions, ht.2.keyed mem)

/-- The calls of `migration.Up` on the in-memory store, with the records as they are in
the seeded state. -/
def seedOps : List StoreOp :=
  [.begin ⟨none, none⟩ "",
   .saveRooms seededWorld.mem ⟨some "migration", some "trx-0"⟩ [0, 1, 2],
   .commit ⟨some "migration", some "trx-0"⟩]

/-- A request for the seeded room from 2024-02-26 to 2024-02-27. -/
def twoNights : BookInput :=
  request [{ HotelID := "reddison", RoomID := "lux", From := date 2024 2 26,
             To := date 2024 2 27, Price := 0 }]

/-- The seeded store after transaction `trx-1` has staged the store's own record of
(reddison, lux, 2024-02-26), as `CreateOrder` does, and a later transaction `trx-2` has
saved and committed a new record for the same room-day with quota 7. -/
def staleRoomWorld : World memory.DB simple.Generator :=
  let pm := seededWorld.mem.alloc
    { HotelID := "reddison", RoomID := "lux", Date := date 2024 2 26, Quota := 7 }
  let db := (seededWorld.db.BeginTransaction ⟨some "a", none⟩ "").2
  let db := (db.SaveRoomAvailabilities pm.2 ⟨some "a", some "trx-1"⟩ [0]).2
  let db := (db.BeginTransaction ⟨some "b", none⟩ "").2
  let db := (db.SaveRoomAvailabilities pm.2 ⟨some "b", some "trx-2"⟩ [pm.1]).2
  let db := (db.CommitTransaction ⟨some "b", some "trx-2"⟩).2
  { mem := pm.2, db := db, gen := seededWorld.gen }

/-! ## Requests whose times are not in UTC

`Time` and the functions above are the `time.Time` values whose Location is UTC, such as
the dates of `migration.date` and a request decoded from texts ending in `Z`. The JSON
decoder gives a time sent as `...+03:00` the Location of that offset; `Truncate` and
`AddDate` keep it, and `Format` prints the time in it. The definitions of this section are
`GetAvailabilities`, `updateRoomAvailabilities` and `CreateOrder` for a request whose
`From` and `To` are in the fixed zone `offset` seconds east of UTC, over a store whose
records have UTC dates. At `offset = 0` they are the definitions above. -/

/-- The zone part of layout `Z07:00`: `Z` for offset 0, else sign, hours and minutes. -/
def Time.zoneText (offset : Int) : String :=
  if offset = 0 then "Z"
  else
    (if Int.tdiv offset 60 < 0 then "-" else "+") ++
      Time.pad2 ((Int.tdiv offset 60).natAbs / 60) ++ ":" ++
      Time.pad2 ((Int.tdiv offset 60).natAbs % 60)

/-- Go `t.Format("2006-01-02")` for the instant `t` in the zone `offset`. -/
def Time.FormatDateIn (offset : Int) (t : Time) : String :=
  Time.FormatDate (t + offset * 1000000000)

/-- Go `t.Format(time.RFC3339)` for the instant `t` in the zone `offset`. -/
def Time.FormatRFC3339In (offset : Int) (t : Time) : String :=
  let s := (((t + offset * 1000000000) % dayNs) / 1000000000).toNat
  Time.FormatDateIn offset t ++ "T" ++ Time.pad2 (s / 3600) ++ ":" ++
    Time.pad2 (s / 60 % 60) ++ ":" ++ Time.pad2 (s % 60) ++ Time.zoneText offset

namespace memory.DB

/-- One iteration of the inner loop of `GetAvailabilities` for a query in the zone
`offset`: `d` carries the Location of `input.From`, and the key is formatted in it. -/
def scanDayIn (offset : Int) (mem : Mem) (db : DB) (input : GetAvailabilityInput) (s : scan)
    (d : Time) : scan :=
  let key := roomKey input.HotelID input.RoomID (Time.FormatRFC3339In offset d)
  match db.roomAvailabilities.get key with
  | none => { s with unavailableDates := s.unavailableDates ++ [d] }
  | some roomAvailability =>
    if (mem.cell roomAvailability).Quota < 1 then
      { s with unavailableDates := s.unavailableDates ++ [d] }
    else { s with result := s.result ++ [roomAvailability] }

/-- One iteration of the outer loop of `GetAvailabilities` for a query in the zone
`offset`. -/
def scanInputIn (offset : Int) (mem : Mem) (db : DB) (s : scan) (input : GetAvailabilityInput) :
    scan :=
  let s := (days input.From input.To).foldl (scanDayIn offset mem db input) s
  if s.unavailableDates.length > 0 then
    { s with
      availabilityErr := s.availabilityErr ++ [⟨input.HotelID, input.RoomID, s.unavailableDates⟩],
      unavailableDates := [] }
  else s

/-- `GetAvailabilities` for queries whose times are in the zone `offset`. -/
def GetAvailabilitiesIn (offset : Int) (mem : Mem) (db : DB)
    (inputs : List GetAvailabilityInput) : List Ptr × Option Error :=
  let s := inputs.foldl (scanInputIn offset mem db) ⟨[], [], []⟩
  if s.availabilityErr.length > 0 then ([], some (.AvailabilityError s.availabilityErr))
  else (s.result, none)

end memory.DB

namespace Manager

/-- `getRoomAvailabilities` over the in-memory store for a request in the zone `offset`. -/
def getRoomAvailabilitiesIn (offset : Int) (input : BookInput) (mem : Mem) (db : memory.DB) :
    Except Error (List Ptr) × Mem × memory.DB :=
  let req : List GetAvailabilityInput := input.Places.map fun property =>
    { HotelID := property.HotelID, RoomID := property.RoomID,
      From := property.From, To := property.To }
  match db.GetAvailabilitiesIn offset mem req with
  | (_, some err) => (.error (.wrap "get availabilities from storage" err), mem, db)
  | (availabilities, none) => (.ok availabilities, mem, db)

/-- The inner loop of `updateRoomAvailabilities` for a place in the zone `offset`:
`currentDate` carries the Location of `property.From`. -/
def updateDaysIn (offset : Int) (amap : GoMap String Ptr) (property : Place) :
    List Time → List Ptr → Mem → Option (List Ptr) × Mem
  | [], updated, mem => (some updated, mem)
  | currentDate :: rest, updated, mem =>
    match amap.get
        (roomKey property.HotelID property.RoomID (Time.FormatDateIn offset currentDate)) with
    | some availability =>
      updateDaysIn offset amap property rest (updated ++ [availability])
        (mem.decQuota availability)
    | none => (none, mem)

/-- The outer loop of `updateRoomAvailabilities` for places in the zone `offset`. -/
def updatePlacesIn (offset : Int) (amap : GoMap String Ptr) :
    List Place → List Ptr → Mem → Option (List Ptr) × Mem
  | [], updated, mem => (some updated, mem)
  | property :: rest, updated, mem =>
    match updateDaysIn offset amap property (days property.From property.To) updated mem with
    | (some updated, mem) => updatePlacesIn offset amap rest updated mem
    | (none, mem) => (none, mem)

/-- `updateRoomAvailabilities` for a request in the zone `offset`; the records are filed
under their own dates, which are in UTC. -/
def updateRoomAvailabilitiesIn (offset : Int) (input : BookInput) (availabilities : List Ptr)
    (mem : Mem) : Except Error (List Ptr) × Mem :=
  let amap := availabilityMap mem availabilities
  match updatePlacesIn offset amap input.Places [] mem with
  | (some updated, mem) => (.ok updated, mem)
  | (none, mem) => (.error (.wrap "data are not the same. Check storage" .ErrLogic), mem)

/-- `CreateOrder` over the in-memory store for a request whose `From` and `To` are in the
zone `offset`: the statements of `CreateOrder`, with the two steps that format a time of
the request taking the zone. -/
def CreateOrderIn {γ : Type} (offset : Int) (env : Env) (g : Booking.idGenerator γ) (ctx : Ctx)
    (input : BookInput) (w : World memory.DB γ) :
    (Option Order × Option Error) × World memory.DB γ :=
  match input.validate env with
  | some err => ((none, some err), w)
  | none =>
    match (memManager g).storage.GetOrderByIdempotencyKey ctx w.mem w.db with
    | ((order, err), mem, db) =>
      if err.isSome && !errorsIs err .ErrRecordNotFound then
        ((none, err.map (Error.wrap "get order by idempotency key")), { w with mem := mem, db := db })
      else if !errorsIs err .ErrRecordNotFound then
        ((order, none), { w with mem := mem, db := db })
      else
        let input := input.prepareDates
        match getRoomAvailabilitiesIn offset input mem db with
        | (.error err, mem, db) =>
          ((none, some (.wrap "get availabilities" err)), { w with mem := mem, db := db })
        | (.ok availabilities, mem, db) =>
          match updateRoomAvailabilitiesIn offset input availabilities mem with
          | (.error err, mem) =>
            ((none, some (.wrap "update availabilities" err)), { w with mem := mem, db := db })
          | (.ok availabilities, mem) =>
            match buildOrder env (memManager g) ctx input w.gen with
            | (.error err, gen) =>
              ((none, some (.wrap "build order" err)), { mem := mem, db := db, gen := gen })
            | (.ok (order, event), gen) =>
              match (memManager g).storage.BeginTransaction ctx "READ COMMITTED" mem db with
              | ((_, some err), mem, db) =>
                ((none, some (.wrap "begin transaction" err)), { mem := mem, db := db, gen := gen })
              | ((ctx, none), mem, db) =>
                match persist (memManager g) ctx order availabilities event mem db with
                | (result, mem, db) => (result, { mem := mem, db := db, gen := gen })

end Manager

/-! # Theorems -/

/-! ## Go maps -/

namespace GoMap

variable {K V : Type} [DecidableEq K]

theorem get_set_same (m : GoMap K V) (k : K) (v : V) : (m.set k v).get k = some v := by
  induction m with
  | nil => simp [set, get]
  | cons kv rest ih =>
    obtain ⟨k', v'⟩ := kv
    by_cases h : k' = k <;> simp [set, get, h, ih]

theorem get_set_ne (m : GoMap K V) {k k' : K} (v : V) (h : k ≠ k') :
    (m.set k v).get k' = m.get k' := by
  induction m with
  | nil => simp [set, get, h]
  | cons kv rest ih =>
    obtain ⟨k0, v0⟩ := kv
    by_cases h0 : k0 = k
    · subst h0; simp [set, get, h]
    · by_cases h1 : k0 = k'
      · subst h1; simp [set, get, h0]
      · simp [set, get, h0, h1, ih]

theorem set_set (m : GoMap K V) (k : K) (a b : V) : (m.set k a).set k b = m.set k b := by
  induction m with
  | nil => simp [set]
  | cons kv rest ih =>
    obtain ⟨k0, v0⟩ := kv
    by_cases h0 : k0 = k <;> simp [set, h0, ih]

theorem get_del_same (m : GoMap K V) (k : K) : (m.del k).get k = none := by
  induction m with
  | nil => simp [del, get]
  | cons kv rest ih =>
    obtain ⟨k0, v0⟩ := kv
    by_cases h0 : k0 = k <;> simp [del, get, h0, ih]

theorem get_del_ne (m : GoMap K V) {k k' : K} (h : k ≠ k') : (m.del k).get k' = m.get k' := by
  induction m with
  | nil => simp [del, get]
  | cons kv rest ih =>
    obtain ⟨k0, v0⟩ := kv
    by_cases h0 : k0 = k
    · subst h0; simp [del, get, h, ih]
    · by_cases h1 : k0 = k'
      · subst h1; simp [del, get, h0]
      · simp [del, get, h0, h1, ih]

theorem del_set (m : GoMap K V) (k : K) (a : V) : (m.set k a).del k = m.del k := by
  induction m with
  | nil => simp [set, del]
  | cons kv rest ih =>
    obtain ⟨k0, v0⟩ := kv
    by_cases h0 : k0 = k <;> simp [set, del, h0, ih]

theorem set_eq_self (m : GoMap K V) {k : K} {v : V} (h : m.get k = some v) : m.set k v = m := by
  induction m with
  | nil => simp [get] at h
  | cons kv rest ih =>
    obtain ⟨k0, v0⟩ := kv
    by_cases h0 : k0 = k
    · subst h0; simp [get] at h; simp [set, h]
    · simp [get, h0] at h; simp [set, h0, ih h]

theorem del_eq_self (m : GoMap K V) {k : K} (h : m.get k = none) : m.del k = m := by
  induction m with
  | nil => simp [del]
  | cons kv rest ih =>
    obtain ⟨k0, v0⟩ := kv
    by_cases h0 : k0 = k
    · subst h0; simp [get] at h
    · simp [get, h0] at h; simp [del, h0, ih h]

theorem get_eq_none_of_not_mem_keys (m : GoMap K V) {k : K}
    (h : k ∉ m.map Prod.fst) : m.get k = none := by
  induction m with
  | nil => rfl
  | cons kv rest ih =>
    obtain ⟨k0, v0⟩ := kv
    simp only [List.map_cons, List.mem_cons, not_or] at h
    simp [get, Ne.symm h.1, ih h.2]

theorem mem_of_get_eq_some (m : GoMap K V) {k : K} {v : V} (h : m.get k = some v) :
    (k, v) ∈ m := by
  induction m with
  | nil => simp [get] at h
  | cons kv rest ih =>
    obtain ⟨k0, v0⟩ := kv
    by_cases h0 : k0 = k
    · subst h0; simp [get] at h; simp [h]
    · simp [get, h0] at h; exact List.mem_cons_of_mem _ (ih h)

/-- Writing the entries of a map `l` into `m0` one by one: a key of `l` ends with the
value `l` holds for it. -/
theorem get_foldl_set_of_some (l : GoMap K V) (m0 : GoMap K V) (hnd : l.keysNodup) {k : K}
    {v : V} (h : l.get k = some v) :
    (l.foldl (fun m kv => m.set kv.1 kv.2) m0).get k = some v := by
  induction l generalizing m0 with
  | nil => simp [get] at h
  | cons kv rest ih =>
    obtain ⟨k0, v0⟩ := kv
    simp only [keysNodup, List.map_cons, List.nodup_cons] at hnd
    simp only [List.foldl_cons]
    by_cases h0 : k0 = k
    · subst h0
      simp [get] at h
      subst h
      have hrest : GoMap.get rest k0 = none := get_eq_none_of_not_mem_keys rest hnd.1
      have key : ∀ (r : GoMap K V) (m1 : GoMap K V), GoMap.get r k0 = none →
          (r.foldl (fun m kv => m.set kv.1 kv.2) m1).get k0 = m1.get k0 := by
        intro r
        induction r with
        | nil => intro m1 _; rfl
        | cons kv r ihr =>
          obtain ⟨k1, v1⟩ := kv
          intro m1 hr
          by_cases h1 : k1 = k0
          · simp [get, h1] at hr
          · simp [get, h1] at hr
            simp only [List.foldl_cons]
            rw [ihr _ hr, get_set_ne _ _ h1]
      rw [key rest _ hrest, get_set_same]
    · simp [get, h0] at h
      exact ih _ hnd.2 h

/-- Writing the entries of `l` into `m0`: a key that `l` does not hold keeps its value. -/
theorem get_foldl_set_of_none (l : GoMap K V) (m0 : GoMap K V) {k : K}
    (h : l.get k = none) :
    (l.foldl (fun m kv => m.set kv.1 kv.2) m0).get k = m0.get k := by
  induction l generalizing m0 with
  | nil => rfl
  | cons kv rest ih =>
    obtain ⟨k0, v0⟩ := kv
    by_cases h0 : k0 = k
    · simp [get, h0] at h
    · simp [get, h0] at h
      simp only [List.foldl_cons]
      rw [ih _ h, get_set_ne _ _ h0]

/-- Writing entries that the map already holds changes nothing. -/
theorem foldl_set_eq_self (l : GoMap K V) (m0 : GoMap K V)
    (h : ∀ kv ∈ l, m0.get kv.1 = some kv.2) :
    l.foldl (fun m kv => m.set kv.1 kv.2) m0 = m0 := by
  induction l with
  | nil => rfl
  | cons kv rest ih =>
    simp only [List.foldl_cons]
    rw [set_eq_self m0 (h kv (List.mem_cons_self _ _))]
    exact ih fun kv hkv => h kv (List.mem_cons_of_mem _ hkv)

end GoMap

/-- C1 (defect witness): in the seeded store the room-day 2024-02-28 has quota 1; one
request with two places that both cover that day is validated, succeeds, and leaves the
committed quota of that room-day at -1. -/
theorem C1_repeated_day_makes_quota_negative :
    memQuota seededWorld "reddison" "lux" (date 2024 2 28) = some 1 ∧
    (request [oneDay (date 2024 2 28), oneDay (date 2024 2 28)]).validate febFirst = none ∧
    ((Manager.CreateOrder febFirst appManager (withKey "k1")
        (request [oneDay (date 2024 2 28), oneDay (date 2024 2 28)]) seededWorld).1.1.isSome
      = true) ∧
    (Manager.CreateOrder febFirst appManager (withKey "k1")
        (request [oneDay (date 2024 2 28), oneDay (date 2024 2 28)]) seededWorld).1.2 = none ∧
    memQuota (Manager.CreateOrder febFirst appManager (withKey "k1")
        (request [oneDay (date 2024 2 28), oneDay (date 2024 2 28)]) seededWorld).2
      "reddison" "lux" (date 2024 2 28) = some (-1) := by
  decide

/-- C2 (defect witness): a request with an expired promo code is rejected with an error
and nothing is committed (no order, no event, no idempotency entry), yet the quota that the
store reports for the requested room-day has dropped from 2 to 1. -/
theorem C2_failed_order_still_decrements_quota :
    memQuota seededWorld "reddison" "lux" (date 2024 2 26) = some 2 ∧
    (Manager.CreateOrder febFirst appManager (withKey "k1")
        { request [oneDay (date 2024 2 26)] with BoostStrategies := [expiredPromo] }
        seededWorld).1
      = (none, some (.wrap "build order"
          (.wrap "apply strategy to order" (.other "promo code expired")))) ∧
    (Manager.CreateOrder febFirst appManager (withKey "k1")
        { request [oneDay (date 2024 2 26)] with BoostStrategies := [expiredPromo] }
        seededWorld).2.db = seededWorld.db ∧
    memQuota (Manager.CreateOrder febFirst appManager (withKey "k1")
        { request [oneDay (date 2024 2 26)] with BoostStrategies := [expiredPromo] }
        seededWorld).2 "reddison" "lux" (date 2024 2 26) = some 1 := by
  decide

/-- C6 (defect witness): with a store whose `SaveOrder` fails and whose rollback succeeds,
`CreateOrder` calls `RollbackTransaction` once and `CommitTransaction` never, and returns
a nil order together with a nil error: the staging error is lost. -/
theorem C6_staging_error_is_replaced_by_rollback_result :
    (Manager.CreateOrder febFirst ⟨traced saveOrderFails, simple.IDs⟩ (withKey "k1")
        (request [oneDay (date 2024 2 26)]) seededWorld.traced).1 = (none, none) ∧
    ((Manager.CreateOrder febFirst ⟨traced saveOrderFails, simple.IDs⟩ (withKey "k1")
        (request [oneDay (date 2024 2 26)]) seededWorld.traced).2.db.2.filter
      fun c => c.isRollback || c.isCommit)
      = [.RollbackTransaction ⟨some "k1", some "trx-1"⟩ none] ∧
    (.SaveOrder ⟨some "k1", some "trx-1"⟩ (some (.other "disk full")) ∈
      (Manager.CreateOrder febFirst ⟨traced saveOrderFails, simple.IDs⟩ (withKey "k1")
        (request [oneDay (date 2024 2 26)]) seededWorld.traced).2.db.2) := by
  decide

/-! ## The calls made by `CreateOrder` -/

theorem quietLog_nil : quietLog [] := by
  intro call h; cases h

theorem quietLog_append_single (call : Call) {log : List Call} (h : quietLog log)
    (h1 : call.isRollback = false) (h2 : call.isCommit = false) : quietLog (log ++ [call]) := by
  intro c hc
  rcases List.mem_append.1 hc with hc | hc
  · exact h c hc
  · simp at hc; subst hc; exact ⟨h1, h2⟩

theorem not_mem_commit_of_quiet {log : List Call} (h : quietLog log) (c : Ctx)
    (e : Option Error) : Call.CommitTransaction c e ∉ log := by
  intro hmem
  have := (h _ hmem).2
  simp [Call.isCommit] at this

theorem quietLog_no_rollback {log : List Call} (h : quietLog log) :
    ∀ call ∈ log, call.isRollback = false :=
  fun call hc => (h call hc).1

section tracedCalls

variable {σ γ : Type} (s : storage σ) (g : idGenerator γ)

theorem traced_GetOrderByIdempotencyKey (ctx : Ctx) (mem : Mem) (db : σ) (log : List Call)
    {r : Option Order × Option Error} {mem1 : Mem} {db1 : σ}
    (h : s.GetOrderByIdempotencyKey ctx mem db = (r, mem1, db1)) :
    (traced s).GetOrderByIdempotencyKey ctx mem (db, log)
      = (r, mem1, (db1, log ++ [.GetOrderByIdempotencyKey r.2])) := by
  simp only [traced, h]

theorem traced_GetAvailabilities (ctx : Ctx) (inputs : List GetAvailabilityInput) (mem : Mem)
    (db : σ) (log : List Call) {r : List Ptr × Option Error} {mem1 : Mem} {db1 : σ}
    (h : s.GetAvailabilities ctx inputs mem db = (r, mem1, db1)) :
    (traced s).GetAvailabilities ctx inputs mem (db, log)
      = (r, mem1, (db1, log ++ [.GetAvailabilities r.2])) := by
  simp only [traced, h]

theorem traced_BeginTransaction (ctx : Ctx) (level : String) (mem : Mem) (db : σ)
    (log : List Call) {r : Ctx × Option Error} {mem1 : Mem} {db1 : σ}
    (h : s.BeginTransaction ctx level mem db = (r, mem1, db1)) :
    (traced s).BeginTransaction ctx level mem (db, log)
      = (r, mem1, (db1, log ++ [.BeginTransaction r.2])) := by
  simp only [traced, h]

theorem traced_CommitTransaction (ctx : Ctx) (mem : Mem) (db : σ) (log : List Call)
    {r : Option Error} {mem1 : Mem} {db1 : σ}
    (h : s.CommitTransaction ctx mem db = (r, mem1, db1)) :
    (traced s).CommitTransaction ctx mem (db, log)
      = (r, mem1, (db1, log ++ [.CommitTransaction ctx r])) := by
  simp only [traced, h]

theorem traced_RollbackTransaction (ctx : Ctx) (mem : Mem) (db : σ) (log : List Call)
    {r : Option Error} {mem1 : Mem} {db1 : σ}
    (h : s.RollbackTransaction ctx mem db = (r, mem1, db1)) :
    (traced s).RollbackTransaction ctx mem (db, log)
      = (r, mem1, (db1, log ++ [.RollbackTransaction ctx r])) := by
  simp only [traced, h]

theorem traced_SaveOrder (ctx : Ctx) (order : Order) (mem : Mem) (db : σ) (log : List Call)
    {r : Option Error} {mem1 : Mem} {db1 : σ}
    (h : s.SaveOrder ctx order mem db = (r, mem1, db1)) :
    (traced s).SaveOrder ctx order mem (db, log)
      = (r, mem1, (db1, log ++ [.SaveOrder ctx r])) := by
  simp only [traced, h]

theorem traced_SaveRoomAvailabilities (ctx : Ctx) (avs : List Ptr) (mem : Mem) (db : σ)
    (log : List Call) {r : Option Error} {mem1 : Mem} {db1 : σ}
    (h : s.SaveRoomAvailabilities ctx avs mem db = (r, mem1, db1)) :
    (traced s).SaveRoomAvailabilities ctx avs mem (db, log)
      = (r, mem1, (db1, log ++ [.SaveRoomAvailabilities ctx r])) := by
  simp only [traced, h]

theorem traced_SaveEvent (ctx : Ctx) (event : Event) (mem : Mem) (db : σ) (log : List Call)
    {r : Option Error} {mem1 : Mem} {db1 : σ}
    (h : s.SaveEvent ctx event mem db = (r, mem1, db1)) :
    (traced s).SaveEvent ctx event mem (db, log)
      = (r, mem1, (db1, log ++ [.SaveEvent ctx r])) := by
  simp only [traced, h]

theorem finish_traced_commit (ctx : Ctx)
    (result : Option Order × Option Error) (mem : Mem) (db : σ) (log : List Call)
    (hq : quietLog log) (c : Ctx) (e : Error)
    (hmem : Call.CommitTransaction c (some e) ∈
      (Manager.finish ⟨traced s, g⟩ ctx result mem (db, log)).2.2.2) :
    result.2 = none ∧
    (Manager.finish ⟨traced s, g⟩ ctx result mem (db, log)).1 = (result.1, some e) ∧
    (Manager.finish ⟨traced s, g⟩ ctx result mem (db, log)).2.2.2
      = log ++ [.CommitTransaction ctx (some e)] ∧
    c = ctx := by
  obtain ⟨order, err⟩ := result
  cases err with
  | some e0 =>
    rcases h : s.RollbackTransaction ctx mem db with ⟨r, mem1, db1⟩
    simp only [Manager.finish, traced_RollbackTransaction s ctx mem db log h,
      List.mem_append, List.mem_singleton] at hmem
    rcases hmem with hmem | hmem
    · exact absurd hmem (not_mem_commit_of_quiet hq c _)
    · cases hmem
  | none =>
    rcases h : s.CommitTransaction ctx mem db with ⟨r, mem1, db1⟩
    have hfin : Manager.finish ⟨traced s, g⟩ ctx (order, none) mem (db, log)
        = ((order, r), mem1, (db1, log ++ [.CommitTransaction ctx r])) := by
      simp only [Manager.finish, traced_CommitTransaction s ctx mem db log h]
    rw [hfin] at hmem ⊢
    simp only [List.mem_append, List.mem_singleton] at hmem
    rcases hmem with hmem | hmem
    · exact absurd hmem (not_mem_commit_of_quiet hq c _)
    · injection hmem with h1 h2
      subst h1
      subst h2
      exact ⟨rfl, rfl, rfl, rfl⟩

theorem persist_traced_commit (ctx : Ctx)
    (order : Order) (availabilities : List Ptr) (event : Event) (mem : Mem) (db : σ)
    (log : List Call) (hq : quietLog log) (c : Ctx) (e : Error)
    (hmem : Call.CommitTransaction c (some e) ∈
      (Manager.persist ⟨traced s, g⟩ ctx order availabilities event mem (db, log)).2.2.2) :
    (Manager.persist ⟨traced s, g⟩ ctx order availabilities event mem (db, log)).1
      = (some order, some e) ∧
    (Manager.persist ⟨traced s, g⟩ ctx order availabilities event mem (db, log)).2.2.2
      = log ++ [.SaveOrder c none, .SaveRoomAvailabilities c none, .SaveEvent c none,
                .CommitTransaction c (some e)] := by
  rcases h1 : s.SaveOrder ctx order mem db with ⟨r1, mem1, db1⟩
  have hq1 := quietLog_append_single (.SaveOrder ctx r1) hq rfl rfl
  cases r1 with
  | some e1 =>
    simp only [Manager.persist, traced_SaveOrder s ctx order mem db log h1] at hmem
    have := (finish_traced_commit s g ctx _ mem1 db1 _ hq1 c e hmem).1
    cases this
  | none =>
    rcases h2 : s.SaveRoomAvailabilities ctx availabilities mem1 db1 with ⟨r2, mem2, db2⟩
    have hq2 := quietLog_append_single (.SaveRoomAvailabilities ctx r2) hq1 rfl rfl
    cases r2 with
    | some e2 =>
      simp only [Manager.persist, traced_SaveOrder s ctx order mem db log h1,
        traced_SaveRoomAvailabilities s ctx availabilities mem1 db1 _ h2] at hmem
      have := (finish_traced_commit s g ctx _ mem2 db2 _ hq2 c e hmem).1
      cases this
    | none =>
      rcases h3 : s.SaveEvent ctx event mem2 db2 with ⟨r3, mem3, db3⟩
      have hq3 := quietLog_append_single (.SaveEvent ctx r3) hq2 rfl rfl
      cases r3 with
      | some e3 =>
        simp only [Manager.persist, traced_SaveOrder s ctx order mem db log h1,
          traced_SaveRoomAvailabilities s ctx availabilities mem1 db1 _ h2,
          traced_SaveEvent s ctx event mem2 db2 _ h3] at hmem
        have := (finish_traced_commit s g ctx _ mem3 db3 _ hq3 c e hmem).1
        cases this
      | none =>
        simp only [Manager.persist, traced_SaveOrder s ctx order mem db log h1,
          traced_SaveRoomAvailabilities s ctx availabilities mem1 db1 _ h2,
          traced_SaveEvent s ctx event mem2 db2 _ h3] at hmem ⊢
        obtain ⟨_, hres, hlog, hc⟩ := finish_traced_commit s g ctx _ mem3 db3 _ hq3 c e hmem
        subst hc
        refine ⟨hres, ?_⟩
        rw [hlog]
        simp only [List.append_assoc, List.cons_append, List.nil_append]

theorem CreateOrder_traced_commit (env : Env) (ctx : Ctx) (input : BookInput)
    (w : World σ γ) (c : Ctx) (e : Error)
    (hmem : Call.CommitTransaction c (some e) ∈
      (Manager.CreateOrder env ⟨traced s, g⟩ ctx input w.traced).2.db.2) :
    ∃ order event gen front,
      Manager.buildOrder env (⟨traced s, g⟩ : Manager (σ × List Call) γ) ctx
        input.prepareDates w.gen = (.ok (order, event), gen) ∧
      (Manager.CreateOrder env ⟨traced s, g⟩ ctx input w.traced).1 = (some order, some e) ∧
      (Manager.CreateOrder env ⟨traced s, g⟩ ctx input w.traced).2.db.2
        = front ++ [.SaveOrder c none, .SaveRoomAvailabilities c none, .SaveEvent c none,
                    .CommitTransaction c (some e)] ∧
      quietLog front := by
  unfold Manager.CreateOrder at hmem ⊢
  rcases h4 : Manager.buildOrder env (⟨traced s, g⟩ : Manager (σ × List Call) γ) ctx
    input.prepareDates w.gen with ⟨r4, gen4⟩
  have h4' : Manager.buildOrder env (⟨traced s, g⟩ : Manager (σ × List Call) γ) ctx
    input.prepareDates w.traced.gen = (r4, gen4) := h4
  cases hv : input.validate env with
  | some e0 =>
    rw [hv] at hmem
    exact absurd hmem (not_mem_commit_of_quiet quietLog_nil c _)
  | none =>
    rcases h1 : s.GetOrderByIdempotencyKey ctx w.mem w.db with ⟨⟨o1, e1⟩, mem1, db1⟩
    have hq1 : quietLog ([] ++ [Call.GetOrderByIdempotencyKey e1]) :=
      quietLog_append_single _ quietLog_nil rfl rfl
    simp only [hv, World.traced, traced_GetOrderByIdempotencyKey s ctx w.mem w.db [] h1]
      at hmem ⊢
    split at hmem
    · exact absurd hmem (not_mem_commit_of_quiet hq1 c _)
    · split at hmem
      · exact absurd hmem (not_mem_commit_of_quiet hq1 c _)
      · rename_i hn1 hn2
        rw [if_neg hn1, if_neg hn2]
        rcases h2 : s.GetAvailabilities ctx
          (input.prepareDates.Places.map fun property =>
            ({ HotelID := property.HotelID, RoomID := property.RoomID,
               From := property.From, To := property.To } : GetAvailabilityInput))
          mem1 db1 with ⟨⟨avs, e2⟩, mem2, db2⟩
        have hq2 := quietLog_append_single (.GetAvailabilities e2) hq1 rfl rfl
        simp only [Manager.getRoomAvailabilities, traced_GetAvailabilities s ctx _ mem1 db1 _ h2]
          at hmem ⊢
        cases e2 with
        | some e2 => exact absurd hmem (not_mem_commit_of_quiet hq2 c _)
        | none =>
          simp only [] at hmem ⊢
          rcases h3 : Manager.updateRoomAvailabilities input.prepareDates avs mem2 with
            ⟨r3, mem3⟩
          rw [h3] at hmem
          cases r3 with
          | error e3 => exact absurd hmem (not_mem_commit_of_quiet hq2 c _)
          | ok avs3 =>
            simp only [World.traced] at h4'
            simp only [h4'] at hmem ⊢
            cases r4 with
            | error e4 => exact absurd hmem (not_mem_commit_of_quiet hq2 c _)
            | ok oe =>
              obtain ⟨order, event⟩ := oe
              simp only [] at hmem ⊢
              rcases h5 : s.BeginTransaction ctx "READ COMMITTED" mem3 db2 with
                ⟨⟨ctx5, e5⟩, mem5, db5⟩
              have hq5 := quietLog_append_single (.BeginTransaction e5) hq2 rfl rfl
              simp only [traced_BeginTransaction s ctx _ mem3 db2 _ h5] at hmem ⊢
              cases e5 with
              | some e5 => exact absurd hmem (not_mem_commit_of_quiet hq5 c _)
              | none =>
                simp only [] at hmem ⊢
                obtain ⟨hres, hlog⟩ :=
                  persist_traced_commit s g ctx5 order avs3 event mem5 db5 _ hq5 c e hmem
                exact ⟨order, event, gen4, _, rfl, hres, hlog, hq5⟩

end tracedCalls

/-! ## The in-memory store: commit and rollback -/

namespace memory.DB

theorem openTransaction_of_open {db : DB} {ctx : Ctx} {trxID : String} {trx : transaction}
    (hctx : ctx.transactionID = some trxID) (hne : trxID ≠ "")
    (hopen : db.transactions.get trxID = some trx) :
    openTransaction db ctx = .ok (trxID, trx) := by
  simp [openTransaction, transactionIDFromContext, hctx, hne, hopen]

theorem commitRooms_eq (l : GoMap String Ptr) (db : DB) :
    l.foldl (fun (db : DB) kv =>
        { db with roomAvailabilities := db.roomAvailabilities.set kv.1 kv.2 }) db
      = { db with roomAvailabilities :=
            l.foldl (fun m kv => m.set kv.1 kv.2) db.roomAvailabilities } := by
  induction l generalizing db with
  | nil => rfl
  | cons kv rest ih => simp only [List.foldl_cons]; rw [ih]

theorem commitOrders_eq (key : String) (l : GoMap Int Order) (db : DB) :
    l.foldl (fun (db : DB) kv =>
        { db with orders := db.orders.set kv.2.ID kv.2,
                  orderIdempotencyKeys := db.orderIdempotencyKeys.set key kv.2 }) db
      = { db with
          orders := l.foldl (fun m kv => m.set kv.2.ID kv.2) db.orders,
          orderIdempotencyKeys :=
            l.foldl (fun m kv => m.set key kv.2) db.orderIdempotencyKeys } := by
  induction l generalizing db with
  | nil => rfl
  | cons kv rest ih => simp only [List.foldl_cons]; rw [ih]

theorem commitEvents_eq (l : GoMap Int Event) (db : DB) :
    l.foldl (fun (db : DB) kv => { db with events := db.events.set kv.2.ID kv.2 }) db
      = { db with events := l.foldl (fun m kv => m.set kv.2.ID kv.2) db.events } := by
  induction l generalizing db with
  | nil => rfl
  | cons kv rest ih => simp only [List.foldl_cons]; rw [ih]

/-- The state after a commit, field by field. -/
theorem CommitTransaction_eq {db : DB} {ctx : Ctx} {trxID key : String} {trx : transaction}
    (hctx : ctx.transactionID = some trxID) (hne : trxID ≠ "")
    (hopen : db.transactions.get trxID = some trx)
    (hkey : ctx.idempotencyKey = some key) (hkne : key ≠ "") :
    CommitTransaction db ctx = (none,
      { roomAvailabilities :=
          trx.roomModifications.foldl (fun m kv => m.set kv.1 kv.2) db.roomAvailabilities,
        events := trx.eventModifications.foldl (fun m kv => m.set kv.2.ID kv.2) db.events,
        orders := trx.orderModifications.foldl (fun m kv => m.set kv.2.ID kv.2) db.orders,
        transactions := db.transactions.del trxID,
        nextTrxID := db.nextTrxID,
        orderIdempotencyKeys :=
          trx.orderModifications.foldl (fun m kv => m.set key kv.2) db.orderIdempotencyKeys }) := by
  simp only [CommitTransaction, openTransaction_of_open hctx hne hopen,
    IdempotencyKeyFromContext, hkey, hkne, if_false, commitRooms_eq, commitOrders_eq,
    commitEvents_eq]

/-- Entries stored under their own ID are written under their key. -/
theorem foldl_set_ownID {V : Type} (ID : V → Int) (l : GoMap Int V) (m0 : GoMap Int V)
    (h : ∀ kv ∈ l, kv.1 = ID kv.2) :
    l.foldl (fun m kv => m.set (ID kv.2) kv.2) m0 = l.foldl (fun m kv => m.set kv.1 kv.2) m0 := by
  induction l generalizing m0 with
  | nil => rfl
  | cons kv rest ih =>
    simp only [List.foldl_cons]
    rw [← h kv (List.mem_cons_self _ _)]
    exact ih _ fun kv hkv => h kv (List.mem_cons_of_mem _ hkv)

theorem rollback_index (l : List rollbackAction) (db : DB) :
    (l.foldl runRollbackAction db).orderIdempotencyKeys = db.orderIdempotencyKeys ∧
    (l.foldl runRollbackAction db).transactions = db.transactions ∧
    (l.foldl runRollbackAction db).nextTrxID = db.nextTrxID := by
  induction l generalizing db with
  | nil => exact ⟨rfl, rfl, rfl⟩
  | cons a rest ih =>
    simp only [List.foldl_cons]
    obtain ⟨h1, h2, h3⟩ := ih (runRollbackAction db a)
    rw [h1, h2, h3]
    cases a <;> exact ⟨rfl, rfl, rfl⟩

theorem runRollbackAction_neutral {db : DB} {a : rollbackAction} (h : neutralAction db a) :
    runRollbackAction db a = db := by
  cases a with
  | restoreRoom key originalRoom =>
    simp only [runRollbackAction, GoMap.set_eq_self _ (show _ = _ from h)]
  | deleteRoom key => simp only [runRollbackAction, GoMap.del_eq_self _ (show _ = _ from h)]
  | deleteOrder orderID =>
    simp only [runRollbackAction, GoMap.del_eq_self _ (show _ = _ from h)]
  | deleteEvent eventID =>
    simp only [runRollbackAction, GoMap.del_eq_self _ (show _ = _ from h)]

theorem rollback_neutral (l : List rollbackAction) (db : DB)
    (h : ∀ a ∈ l, neutralAction db a) : l.foldl runRollbackAction db = db := by
  induction l with
  | nil => rfl
  | cons a rest ih =>
    simp only [List.foldl_cons]
    rw [runRollbackAction_neutral (h a (List.mem_cons_self _ _))]
    exact ih fun a ha => h a (List.mem_cons_of_mem _ ha)

end memory.DB

/-! ## Claims about the store -/

/-- C7 (counterexample): with a store whose commit fails after three successful staging
calls, `CreateOrder` returns the commit error together with the order, and the log of
storage calls contains no `RollbackTransaction`. -/
theorem C7_no_rollback_after_failed_commit :
    (Manager.CreateOrder febFirst ⟨traced commitFails, simple.IDs⟩ (withKey "k1")
        (request [oneDay (date 2024 2 26)]) seededWorld.traced).1.2
      = some (.other "commit failed") ∧
    ((Manager.CreateOrder febFirst ⟨traced commitFails, simple.IDs⟩ (withKey "k1")
        (request [oneDay (date 2024 2 26)]) seededWorld.traced).2.db.2.drop 3)
      = [.SaveOrder ⟨some "k1", some "trx-1"⟩ none,
         .SaveRoomAvailabilities ⟨some "k1", some "trx-1"⟩ none,
         .SaveEvent ⟨some "k1", some "trx-1"⟩ none,
         .CommitTransaction ⟨some "k1", some "trx-1"⟩ (some (.other "commit failed"))] ∧
    ¬ ∃ call ∈ (Manager.CreateOrder febFirst ⟨traced commitFails, simple.IDs⟩ (withKey "k1")
        (request [oneDay (date 2024 2 26)]) seededWorld.traced).2.db.2,
        call.isRollback = true := by
  decide

/-- C7 (amended): for every storage, generator, state and input, if the log of storage
calls of `CreateOrder` contains a `CommitTransaction` that returned an error `e`, then the
three staging calls before it succeeded and the commit is the last storage call of the
log; `CreateOrder` returns exactly `e`, together with the order that `buildOrder` built;
and it has called `RollbackTransaction` not at all. -/
theorem C7_commit_error_returned_without_rollback {σ γ : Type} (env : Env) (s : storage σ)
    (g : idGenerator γ) (ctx : Ctx) (input : BookInput) (w : World σ γ) (c : Ctx) (e : Error)
    (h : Call.CommitTransaction c (some e) ∈
      (Manager.CreateOrder env ⟨traced s, g⟩ ctx input w.traced).2.db.2) :
    (∃ order event gen,
      Manager.buildOrder env (⟨traced s, g⟩ : Manager (σ × List Call) γ) ctx
        input.prepareDates w.gen = (.ok (order, event), gen) ∧
      (Manager.CreateOrder env ⟨traced s, g⟩ ctx input w.traced).1 = (some order, some e)) ∧
    (∀ call ∈ (Manager.CreateOrder env ⟨traced s, g⟩ ctx input w.traced).2.db.2,
      call.isRollback = false) ∧
    (∃ front, (Manager.CreateOrder env ⟨traced s, g⟩ ctx input w.traced).2.db.2
      = front ++ [.SaveOrder c none, .SaveRoomAvailabilities c none, .SaveEvent c none,
                  .CommitTransaction c (some e)]) := by
  obtain ⟨order, event, gen, front, hbuild, hres, hlog, hq⟩ :=
    CreateOrder_traced_commit s g env ctx input w c e h
  refine ⟨⟨order, event, gen, hbuild, hres⟩, ?_, ⟨front, hlog⟩⟩
  rw [hlog]
  intro call hc
  rcases List.mem_append.1 hc with hc | hc
  · exact (hq call hc).1
  · simp only [List.mem_cons, List.mem_singleton, List.not_mem_nil, or_false] at hc
    rcases hc with hc | hc | hc | hc <;> subst hc <;> rfl

/-- C7 (witness): the amended statement at the store whose commit fails, for the first
booking of the seeded store: the order is returned with the commit error, and the log ends
with the three staging calls and the commit. -/
theorem C7_commit_error_returned_without_rollback_witness :
    Call.CommitTransaction ⟨some "k1", some "trx-1"⟩ (some (.other "commit failed")) ∈
      (Manager.CreateOrder febFirst ⟨traced commitFails, simple.IDs⟩ (withKey "k1")
        (request [oneDay (date 2024 2 26)]) seededWorld.traced).2.db.2 ∧
    (Manager.CreateOrder febFirst ⟨traced commitFails, simple.IDs⟩ (withKey "k1")
        (request [oneDay (date 2024 2 26)]) seededWorld.traced).1
      = (some firstOrder, some (.other "commit failed")) ∧
    (∀ call ∈ (Manager.CreateOrder febFirst ⟨traced commitFails, simple.IDs⟩ (withKey "k1")
        (request [oneDay (date 2024 2 26)]) seededWorld.traced).2.db.2,
        call.isRollback = false) ∧
    (∃ front, (Manager.CreateOrder febFirst ⟨traced commitFails, simple.IDs⟩ (withKey "k1")
        (request [oneDay (date 2024 2 26)]) seededWorld.traced).2.db.2
      = front ++ [.SaveOrder ⟨some "k1", some "trx-1"⟩ none,
                  .SaveRoomAvailabilities ⟨some "k1", some "trx-1"⟩ none,
                  .SaveEvent ⟨some "k1", some "trx-1"⟩ none,
                  .CommitTransaction ⟨some "k1", some "trx-1"⟩
                    (some (.other "commit failed"))]) :=
  ⟨by decide, by decide,
   (C7_commit_error_returned_without_rollback febFirst commitFails simple.IDs (withKey "k1")
     (request [oneDay (date 2024 2 26)]) seededWorld ⟨some "k1", some "trx-1"⟩
     (.other "commit failed") (by decide)).2⟩

/-- C8 (defect witness): `RollbackTransaction` runs compensating actions against the
authoritative maps instead of discarding the buffer. (1) The store holds the committed
order 7; an open transaction has staged an order with the same ID; rolling that transaction
back succeeds and deletes the committed order from the orders map. (2) Transaction `trx-1`
has staged the record of (reddison, lux, 2024-02-26), quota 2; a later transaction has
committed a new record for that room-day, quota 7; rolling `trx-1` back succeeds and puts
the old record back, so the quota read for the room-day drops from 7 to 2. -/
theorem C8_rollback_deletes_committed_order :
    staleOrderDB.orders.get 7 = some order7 ∧
    (staleOrderDB.transactions.get "trx-1").isSome = true ∧
    (staleOrderDB.RollbackTransaction ⟨some "b", some "trx-1"⟩).1 = none ∧
    (staleOrderDB.RollbackTransaction ⟨some "b", some "trx-1"⟩).2.orders.get 7 = none ∧
    memQuota staleRoomWorld "reddison" "lux" (date 2024 2 26) = some 7 ∧
    (staleRoomWorld.db.transactions.get "trx-1").isSome = true ∧
    (staleRoomWorld.db.RollbackTransaction ⟨some "a", some "trx-1"⟩).1 = none ∧
    memQuota
      { staleRoomWorld with
        db := (staleRoomWorld.db.RollbackTransaction ⟨some "a", some "trx-1"⟩).2 }
      "reddison" "lux" (date 2024 2 26) = some 2 := by
  decide

/-- Where rollback does discard: for every store state and open transaction `t`,
`RollbackTransaction` succeeds, removes `t` and leaves the idempotency index as it was; and
when every compensating action of `t` is neutral in the present state (each staged room key
still holds what it held when it was staged, no order or event is stored under a staged
ID), the room, order and event maps are left exactly as they were. -/
theorem rollback_discards_when_compensations_neutral (db : memory.DB) (ctx : Ctx)
    (trxID : String) (trx : memory.transaction)
    (hctx : ctx.transactionID = some trxID) (hne : trxID ≠ "")
    (hopen : db.transactions.get trxID = some trx) :
    (db.RollbackTransaction ctx).1 = none ∧
    (db.RollbackTransaction ctx).2.transactions.get trxID = none ∧
    (db.RollbackTransaction ctx).2.orderIdempotencyKeys = db.orderIdempotencyKeys ∧
    ((∀ a ∈ trx.rollbackActions, memory.neutralAction db a) →
      (db.RollbackTransaction ctx).2.roomAvailabilities = db.roomAvailabilities ∧
      (db.RollbackTransaction ctx).2.orders = db.orders ∧
      (db.RollbackTransaction ctx).2.events = db.events) := by
  have hidx := memory.DB.rollback_index trx.rollbackActions db
  have hrb : db.RollbackTransaction ctx = (none,
      { trx.rollbackActions.foldl memory.DB.runRollbackAction db with
        transactions :=
          (trx.rollbackActions.foldl memory.DB.runRollbackAction db).transactions.del trxID }) := by
    simp only [memory.DB.RollbackTransaction, memory.DB.openTransaction_of_open hctx hne hopen]
  rw [hrb]
  refine ⟨rfl, ?_, hidx.1, ?_⟩
  · exact GoMap.get_del_same _ _
  · intro hn
    rw [memory.DB.rollback_neutral _ _ hn]
    exact ⟨rfl, rfl, rfl⟩

/-- C9: for every store state, open transaction `t` (with buffers as the `Save*` methods
build them) and non-empty idempotency key `k`, `CommitTransaction` succeeds and afterwards
(1) every staged room key holds the staged record and every other room key is unchanged,
(2) every staged order and event is in the authoritative map under its ID and every other
entry is unchanged, (3) when exactly one order is staged, `GetOrderByIdempotencyKey` for
`k` returns it, and (4) `t` is no longer a known transaction. -/
theorem C9_commit_merges_buffer (db : memory.DB) (ctx : Ctx) (trxID key : String)
    (trx : memory.transaction)
    (hctx : ctx.transactionID = some trxID) (hne : trxID ≠ "")
    (hopen : db.transactions.get trxID = some trx)
    (hkey : ctx.idempotencyKey = some key) (hkne : key ≠ "") (hwf : trx.wellFormed) :
    (db.CommitTransaction ctx).1 = none ∧
    (∀ k p, trx.roomModifications.get k = some p →
      (db.CommitTransaction ctx).2.roomAvailabilities.get k = some p) ∧
    (∀ k, trx.roomModifications.get k = none →
      (db.CommitTransaction ctx).2.roomAvailabilities.get k = db.roomAvailabilities.get k) ∧
    (∀ id o, trx.orderModifications.get id = some o →
      o.ID = id ∧ (db.CommitTransaction ctx).2.orders.get o.ID = some o) ∧
    (∀ id, trx.orderModifications.get id = none →
      (db.CommitTransaction ctx).2.orders.get id = db.orders.get id) ∧
    (∀ id e, trx.eventModifications.get id = some e →
      e.ID = id ∧ (db.CommitTransaction ctx).2.events.get e.ID = some e) ∧
    (∀ id, trx.eventModifications.get id = none →
      (db.CommitTransaction ctx).2.events.get id = db.events.get id) ∧
    (∀ id o, trx.orderModifications = [(id, o)] →
      (db.CommitTransaction ctx).2.GetOrderByIdempotencyKey ctx = (some o, none)) ∧
    (db.CommitTransaction ctx).2.transactions.get trxID = none := by
  rw [memory.DB.CommitTransaction_eq hctx hne hopen hkey hkne]
  rw [memory.DB.foldl_set_ownID Order.ID _ _ hwf.orderIDs,
    memory.DB.foldl_set_ownID Event.ID _ _ hwf.eventIDs]
  refine ⟨rfl, ?_, ?_, ?_, ?_, ?_, ?_, ?_, ?_⟩
  · intro k p h
    exact GoMap.get_foldl_set_of_some _ _ hwf.rooms h
  · intro k h
    exact GoMap.get_foldl_set_of_none _ _ h
  · intro id o h
    have hid : id = o.ID := hwf.orderIDs _ (GoMap.mem_of_get_eq_some _ h)
    subst hid
    exact ⟨rfl, GoMap.get_foldl_set_of_some _ _ hwf.orders h⟩
  · intro id h
    exact GoMap.get_foldl_set_of_none _ _ h
  · intro id e h
    have hid : id = e.ID := hwf.eventIDs _ (GoMap.mem_of_get_eq_some _ h)
    subst hid
    exact ⟨rfl, GoMap.get_foldl_set_of_some _ _ hwf.events h⟩
  · intro id h
    exact GoMap.get_foldl_set_of_none _ _ h
  · intro id o h
    simp [memory.DB.GetOrderByIdempotencyKey, IdempotencyKeyFromContext, hkey, hkne, h,
      GoMap.get_set_same]
  · exact GoMap.get_del_same _ _

/-- C9 (witness): the statement at the open transaction `trx-1` of `secondWriterDB` and the key `k`. -/
theorem C9_commit_merges_buffer_witness :
    (withTransactionID (withKey "k") "trx-1").transactionID = some "trx-1" ∧ "trx-1" ≠ "" ∧
    secondWriterDB.transactions.get "trx-1" = some secondWriterTrx ∧
    (withTransactionID (withKey "k") "trx-1").idempotencyKey = some "k" ∧ "k" ≠ "" ∧
    secondWriterTrx.wellFormed ∧
    (secondWriterDB.CommitTransaction (withTransactionID (withKey "k") "trx-1")).1 = none ∧
    (secondWriterDB.CommitTransaction
      (withTransactionID (withKey "k") "trx-1")).2.transactions.get "trx-1" = none :=
  ⟨rfl, by decide, by decide, rfl, by decide,
   ⟨by decide, by decide, by decide, by decide, by decide⟩,
   (C9_commit_merges_buffer secondWriterDB (withTransactionID (withKey "k") "trx-1")
      "trx-1" "k" secondWriterTrx rfl (by decide) (by decide) rfl (by decide)
      ⟨by decide, by decide, by decide, by decide, by decide⟩).1,
   (C9_commit_merges_buffer secondWriterDB (withTransactionID (withKey "k") "trx-1")
      "trx-1" "k" secondWriterTrx rfl (by decide) (by decide) rfl (by decide)
      ⟨by decide, by decide, by decide, by decide, by decide⟩).2.2.2.2.2.2.2.2⟩

/-- What a commit does to an entry of the idempotency index: for every store state in
which the index maps key `k` to an order `o`, committing a further transaction that
carries `k` makes the index map `k` to the order that this transaction staged; if the
transaction staged no order, the index still maps `k` to `o`. -/
theorem commit_sets_index_to_staged_order (db : memory.DB) (ctx : Ctx) (trxID key : String)
    (trx : memory.transaction) (o : Order)
    (hctx : ctx.transactionID = some trxID) (hne : trxID ≠ "")
    (hopen : db.transactions.get trxID = some trx)
    (hkey : ctx.idempotencyKey = some key) (hkne : key ≠ "")
    (hidx : db.orderIdempotencyKeys.get key = some o) :
    (∀ id o', trx.orderModifications = [(id, o')] →
      (db.CommitTransaction ctx).2.orderIdempotencyKeys.get key = some o' ∧
      (db.CommitTransaction ctx).2.GetOrderByIdempotencyKey ctx = (some o', none)) ∧
    (trx.orderModifications = [] →
      (db.CommitTransaction ctx).2.orderIdempotencyKeys.get key = some o) := by
  rw [memory.DB.CommitTransaction_eq hctx hne hopen hkey hkne]
  constructor
  · intro id o' h
    simp [memory.DB.GetOrderByIdempotencyKey, IdempotencyKeyFromContext, hkey, hkne, h,
      GoMap.get_set_same]
  · intro h
    simp [h, hidx]

/-- C10 (defect witness): `CommitTransaction` assigns the index entry of the key without
looking whether the key is taken. (1) The index maps `k` to the committed `order7`; a
further transaction that carries `k` and stages `order8` is committed; afterwards the
lookup for `k` returns `order8`, not `order7`. (2) The same for every store state, key and
transaction that staged one order. (3) Through `CreateOrder`: two invocations with the one
key `k1`, both past the lookup of the key before either commits, both commit; the orders 1
and 3 are both in the orders map and the index maps `k1` to order 3. -/
theorem C10_second_commit_overwrites_index :
    secondWriterDB.GetOrderByIdempotencyKey (withKey "k") = (some order7, none) ∧
    order8 ≠ order7 ∧
    (secondWriterDB.CommitTransaction (withTransactionID (withKey "k") "trx-1")).1 = none ∧
    (secondWriterDB.CommitTransaction
        (withTransactionID (withKey "k") "trx-1")).2.GetOrderByIdempotencyKey (withKey "k")
      = (some order8, none) ∧
    (∀ (db : memory.DB) (ctx : Ctx) (trxID key : String) (trx : memory.transaction)
        (o o' : Order) (id : Int),
      ctx.transactionID = some trxID → trxID ≠ "" → db.transactions.get trxID = some trx →
      ctx.idempotencyKey = some key → key ≠ "" →
      db.orderIdempotencyKeys.get key = some o → trx.orderModifications = [(id, o')] →
      (db.CommitTransaction ctx).2.GetOrderByIdempotencyKey ctx = (some o', none)) ∧
    (interleave febFirst appManager
        (withKey "k1", request [oneDay (date 2024 2 27)])
        (withKey "k1", request [oneDay (date 2024 2 27)])
        bothReadFirst (.start, .start, seededWorld)).1
      = .done (some { ID := 1, Payer := { Email := "a@b.c" },
                      Places := [oneDay (date 2024 2 27)], CreatedAt := date 2024 2 1,
                      Price := 0 }, none) ∧
    (interleave febFirst appManager
        (withKey "k1", request [oneDay (date 2024 2 27)])
        (withKey "k1", request [oneDay (date 2024 2 27)])
        bothReadFirst (.start, .start, seededWorld)).2.1
      = .done (some { ID := 3, Payer := { Email := "a@b.c" },
                      Places := [oneDay (date 2024 2 27)], CreatedAt := date 2024 2 1,
                      Price := 0 }, none) ∧
    ((interleave febFirst appManager
        (withKey "k1", request [oneDay (date 2024 2 27)])
        (withKey "k1", request [oneDay (date 2024 2 27)])
        bothReadFirst (.start, .start, seededWorld)).2.2.db.orders.get 1).isSome = true ∧
    ((interleave febFirst appManager
        (withKey "k1", request [oneDay (date 2024 2 27)])
        (withKey "k1", request [oneDay (date 2024 2 27)])
        bothReadFirst (.start, .start, seededWorld)).2.2.db.orders.get 3).isSome = true ∧
    ((interleave febFirst appManager
        (withKey "k1", request [oneDay (date 2024 2 27)])
        (withKey "k1", request [oneDay (date 2024 2 27)])
        bothReadFirst (.start, .start, seededWorld)).2.2.db.orderIdempotencyKeys.get
      "k1").map (fun o => o.ID) = some 3 := by
  refine ⟨by decide, by decide, by decide, by decide, ?_, by decide, by decide, by decide,
    by decide, by decide⟩
  intro db ctx trxID key trx o o' id hctx hne hopen hkey hkne hidx hstaged
  exact ((commit_sets_index_to_staged_order db ctx trxID key trx o hctx hne hopen hkey hkne
    hidx).1 id o' hstaged).2

/-! ## The workflow over the in-memory store -/

theorem trxID_ne_empty (n : Int) : "trx-" ++ Time.fmtInt n ≠ "" := by
  intro h
  have := congrArg String.length h
  simp only [String.length_append] at this
  have h4 : ("trx-" : String).length = 4 := by decide
  have h0 : ("" : String).length = 0 := by decide
  omega

namespace memory.DB

theorem stageRoom_fields (mem : Mem) (db : DB) (avs : List Ptr) (trx : transaction) :
    (avs.foldl (stageRoom mem db) trx).roomModifications
        = stagedRooms mem avs trx.roomModifications ∧
    (avs.foldl (stageRoom mem db) trx).orderModifications = trx.orderModifications ∧
    (avs.foldl (stageRoom mem db) trx).eventModifications = trx.eventModifications := by
  induction avs generalizing trx with
  | nil => exact ⟨rfl, rfl, rfl⟩
  | cons p rest ih =>
    simp only [List.foldl_cons, stagedRooms]
    obtain ⟨h1, h2, h3⟩ := ih (stageRoom mem db trx p)
    rw [h1, h2, h3]
    unfold stageRoom
    simp only [storeKey, stagedRooms]
    cases hget : trx.roomModifications.get
        (roomKey (mem.cell p).HotelID (mem.cell p).RoomID
          (Time.FormatRFC3339 (mem.cell p).Date)) with
    | some q => exact ⟨rfl, rfl, rfl⟩
    | none =>
      cases db.roomAvailabilities.get
        (roomKey (mem.cell p).HotelID (mem.cell p).RoomID
          (Time.FormatRFC3339 (mem.cell p).Date)) <;> exact ⟨rfl, rfl, rfl⟩

end memory.DB

namespace memory.DB

theorem BeginTransaction_eq (db : DB) (ctx : Ctx) (level : String) :
    db.BeginTransaction ctx level
      = ((withTransactionID ctx ("trx-" ++ Time.fmtInt db.nextTrxID), none),
         db.inTransaction
          { id := "trx-" ++ Time.fmtInt db.nextTrxID, roomModifications := [],
            orderModifications := [], eventModifications := [], rollbackActions := [] }) := rfl

theorem openTransaction_inTransaction (db : DB) (ctx : Ctx) (trx : transaction) :
    openTransaction (db.inTransaction trx)
        (withTransactionID ctx ("trx-" ++ Time.fmtInt db.nextTrxID))
      = .ok ("trx-" ++ Time.fmtInt db.nextTrxID, trx) :=
  openTransaction_of_open rfl (trxID_ne_empty _) (GoMap.get_set_same _ _ _)

theorem inTransaction_set (db : DB) (trx trx' : transaction) :
    ({ db.inTransaction trx with
        transactions :=
          (db.inTransaction trx).transactions.set ("trx-" ++ Time.fmtInt db.nextTrxID) trx' } : DB)
      = db.inTransaction trx' := by
  simp only [inTransaction, GoMap.set_set]

theorem SaveOrder_inTransaction (db : DB) (ctx : Ctx) (trx : transaction) (order : Order)
    (h : trx.orderModifications.get order.ID = none) :
    SaveOrder (db.inTransaction trx)
        (withTransactionID ctx ("trx-" ++ Time.fmtInt db.nextTrxID)) order
      = (none, db.inTransaction
          { trx with
            orderModifications := trx.orderModifications.set order.ID order,
            rollbackActions := trx.rollbackActions ++ [.deleteOrder order.ID] }) := by
  simp only [SaveOrder, openTransaction_inTransaction, h, inTransaction_set]

theorem SaveEvent_inTransaction (db : DB) (ctx : Ctx) (trx : transaction) (event : Event)
    (h : trx.eventModifications.get event.ID = none) :
    SaveEvent (db.inTransaction trx)
        (withTransactionID ctx ("trx-" ++ Time.fmtInt db.nextTrxID)) event
      = (none, db.inTransaction
          { trx with
            eventModifications := trx.eventModifications.set event.ID event,
            rollbackActions := trx.rollbackActions ++ [.deleteEvent event.ID] }) := by
  simp only [SaveEvent, openTransaction_inTransaction, h, inTransaction_set]

theorem SaveRoomAvailabilities_inTransaction (mem : Mem) (db : DB) (ctx : Ctx)
    (trx : transaction) (avs : List Ptr) :
    SaveRoomAvailabilities mem (db.inTransaction trx)
        (withTransactionID ctx ("trx-" ++ Time.fmtInt db.nextTrxID)) avs
      = (none, db.inTransaction (avs.foldl (stageRoom mem (db.inTransaction trx)) trx)) := by
  simp only [SaveRoomAvailabilities, openTransaction_inTransaction, inTransaction_set]

theorem stageRoom_rooms (mem : Mem) (db : DB) (avs : List Ptr) (trx : transaction) :
    (avs.foldl (stageRoom mem db) trx).roomModifications
      = stagedRooms mem avs trx.roomModifications := (stageRoom_fields mem db avs trx).1

theorem stageRoom_orders (mem : Mem) (db : DB) (avs : List Ptr) (trx : transaction) :
    (avs.foldl (stageRoom mem db) trx).orderModifications = trx.orderModifications :=
  (stageRoom_fields mem db avs trx).2.1

theorem stageRoom_events (mem : Mem) (db : DB) (avs : List Ptr) (trx : transaction) :
    (avs.foldl (stageRoom mem db) trx).eventModifications = trx.eventModifications :=
  (stageRoom_fields mem db avs trx).2.2

end memory.DB

/-- Over the in-memory store, the staging calls after `BeginTransaction` succeed and the
transaction is committed. -/
theorem persist_memory {γ : Type} (g : idGenerator γ) (ctx : Ctx) (key : String)
    (hkey : ctx.idempotencyKey = some key) (hkne : key ≠ "") (order : Order)
    (avs : List Ptr) (event : Event) (mem : Mem) (db : memory.DB) :
    Manager.persist (memManager g) (db.BeginTransaction ctx "READ COMMITTED").1.1 order avs
        event mem (db.BeginTransaction ctx "READ COMMITTED").2
      = ((some order, none), mem, db.afterBooking mem key order event avs) := by
  have hne := trxID_ne_empty db.nextTrxID
  simp only [memory.DB.BeginTransaction_eq, Manager.persist, memManager, memory.Storage]
  rw [memory.DB.SaveOrder_inTransaction db ctx
    { id := "trx-" ++ Time.fmtInt db.nextTrxID, roomModifications := [],
      orderModifications := [], eventModifications := [], rollbackActions := [] } order rfl]
  simp only [memory.DB.SaveRoomAvailabilities_inTransaction]
  rw [memory.DB.SaveEvent_inTransaction db ctx _ event
    (by rw [memory.DB.stageRoom_events]; rfl)]
  simp only [Manager.finish]
  rw [@memory.DB.CommitTransaction_eq (db.inTransaction _)
    (withTransactionID ctx ("trx-" ++ Time.fmtInt db.nextTrxID)) _ _ _
    rfl hne (GoMap.get_set_same _ _ _) hkey hkne]
  simp only [memory.DB.stageRoom_rooms, memory.DB.stageRoom_orders,
    memory.DB.stageRoom_events, memory.DB.afterBooking, memory.DB.inTransaction,
    GoMap.del_set, GoMap.set, List.foldl_cons, List.foldl_nil]

section memoryCalls

variable {γ : Type} (g : idGenerator γ)

theorem memManager_GetOrderByIdempotencyKey (ctx : Ctx) (mem : Mem) (db : memory.DB) :
    (memManager g).storage.GetOrderByIdempotencyKey ctx mem db
      = (db.GetOrderByIdempotencyKey ctx, mem, db) := rfl

theorem memManager_GetAvailabilities (ctx : Ctx) (inputs : List GetAvailabilityInput)
    (mem : Mem) (db : memory.DB) :
    (memManager g).storage.GetAvailabilities ctx inputs mem db
      = (db.GetAvailabilities mem inputs, mem, db) := rfl

theorem memManager_BeginTransaction (ctx : Ctx) (level : String) (mem : Mem)
    (db : memory.DB) :
    (memManager g).storage.BeginTransaction ctx level mem db
      = ((db.BeginTransaction ctx level).1, mem, (db.BeginTransaction ctx level).2) := rfl

end memoryCalls

theorem CreateOrder_memory_invalid {γ : Type} (env : Env) (g : idGenerator γ) (ctx : Ctx)
    (input : BookInput) (w : World memory.DB γ) {err : Error}
    (hv : input.validate env = some err) :
    Manager.CreateOrder env (memManager g) ctx input w = ((none, some err), w) := by
  simp only [Manager.CreateOrder, hv]

theorem CreateOrder_memory_nokey {γ : Type} (env : Env) (g : idGenerator γ) (ctx : Ctx)
    (input : BookInput) (w : World memory.DB γ) (hv : input.validate env = none)
    (hkey : ctx.idempotencyKey = none ∨ ctx.idempotencyKey = some "") :
    Manager.CreateOrder env (memManager g) ctx input w
      = ((none, some (.wrap "get order by idempotency key" .ErrIdempotencyKey)), w) := by
  rcases hkey with hkey | hkey <;>
    simp [Manager.CreateOrder, hv, memManager_GetOrderByIdempotencyKey,
      memory.DB.GetOrderByIdempotencyKey, IdempotencyKeyFromContext, hkey, errorsIs, Error.Is]

theorem CreateOrder_memory_replay {γ : Type} (env : Env) (g : idGenerator γ) (ctx : Ctx)
    (input : BookInput) (w : World memory.DB γ) {key : String} {o : Order}
    (hv : input.validate env = none)
    (hkey : ctx.idempotencyKey = some key) (hkne : key ≠ "")
    (hidx : w.db.orderIdempotencyKeys.get key = some o) :
    Manager.CreateOrder env (memManager g) ctx input w = ((some o, none), w) := by
  simp [Manager.CreateOrder, hv, memManager_GetOrderByIdempotencyKey,
    memory.DB.GetOrderByIdempotencyKey, IdempotencyKeyFromContext, hkey, hkne, hidx, errorsIs]

theorem CreateOrder_memory_fresh {γ : Type} (env : Env) (g : idGenerator γ) (ctx : Ctx)
    (input : BookInput) (w : World memory.DB γ) {key : String}
    (hv : input.validate env = none)
    (hkey : ctx.idempotencyKey = some key) (hkne : key ≠ "")
    (hidx : w.db.orderIdempotencyKeys.get key = none) :
    Manager.CreateOrder env (memManager g) ctx input w = bookFresh env g ctx key input w := by
  have hp := fun order avs event mem =>
    persist_memory g ctx key hkey hkne order avs event mem w.db
  simp only [memory.DB.BeginTransaction_eq] at hp
  unfold bookFresh
  simp only [Manager.CreateOrder, hv, Manager.getRoomAvailabilities,
    memManager_GetOrderByIdempotencyKey, memManager_GetAvailabilities,
    memManager_BeginTransaction, memory.DB.GetOrderByIdempotencyKey,
    IdempotencyKeyFromContext, hkey, hkne, hidx, errorsIs, Error.Is, if_false]
  rcases hga : w.db.GetAvailabilities w.mem (queries input.prepareDates) with ⟨avs, e⟩
  simp only [queries] at hga
  simp only [hga]
  cases e with
  | some e => simp
  | none =>
    simp only []
    rcases hup : Manager.updateRoomAvailabilities input.prepareDates avs w.mem with ⟨r, mem⟩
    cases r with
    | error e => simp
    | ok avs2 =>
      simp only []
      rcases hbo : Manager.buildOrder env (memManager g) ctx input.prepareDates w.gen with
        ⟨r, gen⟩
      cases r with
      | error e => simp
      | ok oe =>
        obtain ⟨order, event⟩ := oe
        simp [hp, memory.DB.BeginTransaction_eq]

/-! ## Idempotent replay -/

theorem bookFresh_keeps_index {γ : Type} (env : Env) (g : idGenerator γ) (ctx : Ctx)
    (key : String) (input : BookInput) (w : World memory.DB γ) {k : String} {o : Order}
    (hne : key ≠ k) (h : w.db.orderIdempotencyKeys.get k = some o) :
    (bookFresh env g ctx key input w).2.db.orderIdempotencyKeys.get k = some o := by
  unfold bookFresh
  rcases w.db.GetAvailabilities w.mem (queries input.prepareDates) with ⟨avs, e⟩
  cases e with
  | some e => exact h
  | none =>
    simp only []
    rcases Manager.updateRoomAvailabilities input.prepareDates avs w.mem with ⟨r, mem⟩
    cases r with
    | error e => exact h
    | ok avs2 =>
      simp only []
      rcases Manager.buildOrder env (memManager g) ctx input.prepareDates w.gen with ⟨r, gen⟩
      cases r with
      | error e => exact h
      | ok oe =>
        obtain ⟨order, event⟩ := oe
        simp only [memory.DB.afterBooking]
        rw [GoMap.get_set_ne _ _ hne]
        exact h

theorem bookFresh_success_index {γ : Type} (env : Env) (g : idGenerator γ) (ctx : Ctx)
    (key : String) (input : BookInput) (w w1 : World memory.DB γ) {o : Order}
    (h : bookFresh env g ctx key input w = ((some o, none), w1)) :
    w1.db.orderIdempotencyKeys.get key = some o := by
  revert h
  unfold bookFresh
  rcases w.db.GetAvailabilities w.mem (queries input.prepareDates) with ⟨avs, e⟩
  cases e with
  | some e => intro h; simp at h
  | none =>
    simp only []
    rcases Manager.updateRoomAvailabilities input.prepareDates avs w.mem with ⟨r, mem⟩
    cases r with
    | error e => intro h; simp at h
    | ok avs2 =>
      simp only []
      rcases Manager.buildOrder env (memManager g) ctx input.prepareDates w.gen with ⟨r, gen⟩
      cases r with
      | error e => intro h; simp at h
      | ok oe =>
        obtain ⟨order, event⟩ := oe
        intro h
        simp only [Prod.mk.injEq, Option.some.injEq, and_true] at h
        obtain ⟨ho, hw⟩ := h
        subst ho hw
        exact GoMap.get_set_same _ _ _

/-- A call of `CreateOrder` never changes what the index holds for a key. -/
theorem CreateOrder_memory_keeps_index {γ : Type} (env : Env) (g : idGenerator γ) (ctx : Ctx)
    (input : BookInput) (w : World memory.DB γ) {k : String} {o : Order}
    (h : w.db.orderIdempotencyKeys.get k = some o) :
    (Manager.CreateOrder env (memManager g) ctx input w).2.db.orderIdempotencyKeys.get k
      = some o := by
  cases hv : input.validate env with
  | some err => rw [CreateOrder_memory_invalid env g ctx input w hv]; exact h
  | none =>
    cases hkey : ctx.idempotencyKey with
    | none => rw [CreateOrder_memory_nokey env g ctx input w hv (Or.inl hkey)]; exact h
    | some key =>
      by_cases hkne : key = ""
      · subst hkne
        rw [CreateOrder_memory_nokey env g ctx input w hv (Or.inr hkey)]; exact h
      · cases hidx : w.db.orderIdempotencyKeys.get key with
        | some o' => rw [CreateOrder_memory_replay env g ctx input w hv hkey hkne hidx]; exact h
        | none =>
          rw [CreateOrder_memory_fresh env g ctx input w hv hkey hkne hidx]
          apply bookFresh_keeps_index env g ctx key input w _ h
          intro heq
          subst heq
          rw [hidx] at h
          cases h

/-- A successful call leaves its order in the index under its key. -/
theorem CreateOrder_memory_success_index {γ : Type} (env : Env) (g : idGenerator γ)
    (ctx : Ctx) (input : BookInput) (w w1 : World memory.DB γ) {k : String} {o : Order}
    (hkey : ctx.idempotencyKey = some k)
    (h : Manager.CreateOrder env (memManager g) ctx input w = ((some o, none), w1)) :
    k ≠ "" ∧ w1.db.orderIdempotencyKeys.get k = some o := by
  cases hv : input.validate env with
  | some err => rw [CreateOrder_memory_invalid env g ctx input w hv] at h; simp at h
  | none =>
    by_cases hkne : k = ""
    · subst hkne
      rw [CreateOrder_memory_nokey env g ctx input w hv (Or.inr hkey)] at h
      simp at h
    · refine ⟨hkne, ?_⟩
      cases hidx : w.db.orderIdempotencyKeys.get k with
      | some o' =>
        rw [CreateOrder_memory_replay env g ctx input w hv hkey hkne hidx] at h
        simp only [Prod.mk.injEq, Option.some.injEq, and_true] at h
        obtain ⟨ho, hw⟩ := h
        subst ho hw
        exact hidx
      | none =>
        rw [CreateOrder_memory_fresh env g ctx input w hv hkey hkne hidx] at h
        exact bookFresh_success_index env g ctx k input w w1 h

theorem runCalls_keeps_index {γ : Type} (g : idGenerator γ)
    (calls : List (Env × Ctx × BookInput)) (w : World memory.DB γ) {k : String} {o : Order}
    (h : w.db.orderIdempotencyKeys.get k = some o) :
    (runCalls (memManager g) calls w).db.orderIdempotencyKeys.get k = some o := by
  induction calls generalizing w with
  | nil => exact h
  | cons c rest ih =>
    obtain ⟨env, ctx, input⟩ := c
    exact ih _ (CreateOrder_memory_keeps_index env g ctx input w h)

/-- C3 (counterexample): the first call with key `k1` commits an order; a later call with
the same key and a different body (no places) does not return that order but an
`InputError`; and so does a later call with the same key and the same body, once the clock
has passed the requested day. -/
theorem C3_replay_with_invalid_body_is_rejected :
    firstBooking.1 = (some firstOrder, none) ∧
    (Manager.CreateOrder febFirst appManager (withKey "k1") (request []) firstBooking.2).1
      = (none, some (.InputError [("places", ["provide at least one place"])])) ∧
    (Manager.CreateOrder marchFirst appManager (withKey "k1")
        (request [oneDay (date 2024 2 26)]) firstBooking.2).1
      = (none, some (.InputError [("place.from",
          ["place.from must not be in the past", "place.to must not be in the past"])])) := by
  decide

/-- C3 (amended): over the in-memory store with any ID generator, if a `CreateOrder` call
carrying key `k` succeeded with order `o`, then after any further `CreateOrder` calls, a
call carrying `k` with any body that passes validation at that time returns exactly `o` and
leaves the whole state - the heap of room records with their quotas, the store with its
orders, events and index, and the generator - unchanged. -/
theorem C3_replay_returns_committed_order {γ : Type} (g : idGenerator γ) (k : String)
    (env1 : Env) (ctx1 : Ctx) (input1 : BookInput) (w0 w1 : World memory.DB γ) (o : Order)
    (between : List (Env × Ctx × BookInput))
    (env2 : Env) (ctx2 : Ctx) (input2 : BookInput)
    (hk1 : ctx1.idempotencyKey = some k) (hk2 : ctx2.idempotencyKey = some k)
    (hfirst : Manager.CreateOrder env1 (memManager g) ctx1 input1 w0 = ((some o, none), w1))
    (hvalid : input2.validate env2 = none) :
    Manager.CreateOrder env2 (memManager g) ctx2 input2 (runCalls (memManager g) between w1)
      = ((some o, none), runCalls (memManager g) between w1) := by
  obtain ⟨hkne, hidx⟩ := CreateOrder_memory_success_index env1 g ctx1 input1 w0 w1 hk1 hfirst
  exact CreateOrder_memory_replay env2 g ctx2 input2 _ hvalid hk2 hkne
    (runCalls_keeps_index g between w1 hidx)

/-! ## `GetAvailabilities` in closed form -/

namespace memory.DB

theorem scanDay_eq (mem : Mem) (db : DB) (input : GetAvailabilityInput) (s : scan) (d : Time) :
    scanDay mem db input s d =
      match availableOn mem db input d with
      | none => { s with unavailableDates := s.unavailableDates ++ [d] }
      | some p => { s with result := s.result ++ [p] } := by
  simp only [scanDay, availableOn]
  cases h : db.roomAvailabilities.get
      (roomKey input.HotelID input.RoomID (Time.FormatRFC3339 d)) with
  | none => rfl
  | some p =>
    by_cases hq : (mem.cell p).Quota < 1 <;> simp [hq]

theorem scanDays_eq (mem : Mem) (db : DB) (input : GetAvailabilityInput) (ds : List Time)
    (s : scan) :
    ds.foldl (scanDay mem db input) s =
      { unavailableDates :=
          s.unavailableDates ++ ds.filter fun d => (availableOn mem db input d).isNone,
        availabilityErr := s.availabilityErr,
        result := s.result ++ ds.filterMap (availableOn mem db input) } := by
  induction ds generalizing s with
  | nil => simp
  | cons d rest ih =>
    simp only [List.foldl_cons]
    rw [ih, scanDay_eq]
    cases h : availableOn mem db input d with
    | none => simp [h, List.filter_cons, List.filterMap_cons]
    | some p => simp [h, List.filter_cons, List.filterMap_cons]

theorem scanInput_eq (mem : Mem) (db : DB) (input : GetAvailabilityInput) (s : scan)
    (hs : s.unavailableDates = []) :
    scanInput mem db s input =
      { unavailableDates := [],
        availabilityErr := s.availabilityErr ++ unavailableRooms mem db [input],
        result := s.result ++ availableRecords mem db input } := by
  unfold scanInput
  rw [scanDays_eq]
  simp only [hs, List.nil_append, unavailableRooms, List.filterMap_cons, List.filterMap_nil]
  by_cases h : (unavailableDays mem db input).length > 0
  · simp only [unavailableDays] at h
    simp [h, unavailableDays, availableRecords]
  · simp only [unavailableDays] at h
    simp only [h, if_false, unavailableDays, availableRecords, List.append_nil]
    simp only [gt_iff_lt, List.length_pos, ne_eq, not_not] at h
    rw [h]

theorem scanInputs_eq (mem : Mem) (db : DB) (inputs : List GetAvailabilityInput) (s : scan)
    (hs : s.unavailableDates = []) :
    inputs.foldl (scanInput mem db) s =
      { unavailableDates := [],
        availabilityErr := s.availabilityErr ++ unavailableRooms mem db inputs,
        result := s.result ++ inputs.flatMap (availableRecords mem db) } := by
  induction inputs generalizing s with
  | nil =>
    obtain ⟨u, e, r⟩ := s
    simp only at hs
    simp [hs, unavailableRooms]
  | cons input rest ih =>
    simp only [List.foldl_cons]
    rw [ih _ (by rw [scanInput_eq mem db input s hs]), scanInput_eq mem db input s hs]
    simp [unavailableRooms, List.filterMap_cons, List.flatMap_cons]
    cases h : (if (unavailableDays mem db input).length > 0 then
        some (⟨input.HotelID, input.RoomID, unavailableDays mem db input⟩ : UnavailableRoom)
      else none) <;> simp_all

/-- What `GetAvailabilities` returns: the error with the unavailable rooms when there is
one, otherwise the records of all requested days. -/
theorem GetAvailabilities_eq (mem : Mem) (db : DB) (inputs : List GetAvailabilityInput) :
    GetAvailabilities mem db inputs =
      if (unavailableRooms mem db inputs).length > 0 then
        ([], some (.AvailabilityError (unavailableRooms mem db inputs)))
      else (inputs.flatMap (availableRecords mem db), none) := by
  unfold GetAvailabilities
  rw [scanInputs_eq mem db inputs _ rfl]
  simp

end memory.DB

/-! ## The requested days and their records -/

theorem forall₂_filterMap_of_isSome {α β : Type} (f : α → Option β) (l : List α)
    (h : ∀ a ∈ l, (f a).isSome = true) :
    List.Forall₂ (fun a b => f a = some b) l (l.filterMap f) := by
  induction l with
  | nil => exact List.Forall₂.nil
  | cons a rest ih =>
    have ha := h a (List.mem_cons_self _ _)
    cases hfa : f a with
    | none => rw [hfa] at ha; cases ha
    | some b =>
      rw [List.filterMap_cons, hfa]
      exact List.Forall₂.cons hfa (ih fun x hx => h x (List.mem_cons_of_mem _ hx))

theorem availableOn_eq_accepted (mem : Mem) (db : memory.DB) (input : GetAvailabilityInput)
    (d : Time) :
    memory.DB.availableOn mem db input d = accepted mem db (input.HotelID, input.RoomID, d) :=
  rfl

theorem availableRecords_eq (mem : Mem) (db : memory.DB) (inputs : List GetAvailabilityInput) :
    inputs.flatMap (memory.DB.availableRecords mem db)
      = (requestsOf inputs).filterMap (accepted mem db) := by
  induction inputs with
  | nil => rfl
  | cons input rest ih =>
    simp only [List.flatMap_cons, requestsOf, List.filterMap_append] at ih ⊢
    rw [ih]
    congr 1
    simp only [memory.DB.availableRecords, List.filterMap_map]
    rfl

theorem accepted_of_no_unavailable (mem : Mem) (db : memory.DB)
    (inputs : List GetAvailabilityInput)
    (h : memory.DB.unavailableRooms mem db inputs = []) :
    ∀ r ∈ requestsOf inputs, (accepted mem db r).isSome = true := by
  intro r hr
  simp only [requestsOf, List.mem_flatMap, List.mem_map] at hr
  obtain ⟨input, hin, d, hd, rfl⟩ := hr
  by_contra hne
  have hmem : d ∈ memory.DB.unavailableDays mem db input := by
    simp only [memory.DB.unavailableDays, List.mem_filter]
    refine ⟨hd, ?_⟩
    rw [availableOn_eq_accepted]
    cases hacc : accepted mem db (input.HotelID, input.RoomID, d) with
    | none => rfl
    | some p => rw [hacc] at hne; simp at hne
  have hpos : (memory.DB.unavailableDays mem db input).length > 0 :=
    List.length_pos_of_mem hmem
  have : (⟨input.HotelID, input.RoomID, memory.DB.unavailableDays mem db input⟩ :
      UnavailableRoom) ∈ memory.DB.unavailableRooms mem db inputs := by
    simp only [memory.DB.unavailableRooms, List.mem_filterMap]
    exact ⟨input, hin, by simp [hpos]⟩
  rw [h] at this
  cases this

/-- When `GetAvailabilities` returns no error, its result lists, for the requested
room-days in order, the record stored for each, and every quota is at least 1. -/
theorem GetAvailabilities_ok (mem : Mem) (db : memory.DB) (inputs : List GetAvailabilityInput)
    {avs : List Ptr} (h : db.GetAvailabilities mem inputs = (avs, none)) :
    List.Forall₂ (fun r p => accepted mem db r = some p) (requestsOf inputs) avs := by
  rw [memory.DB.GetAvailabilities_eq] at h
  by_cases hlen : (memory.DB.unavailableRooms mem db inputs).length > 0
  · simp [hlen] at h
  · simp only [hlen, if_false, Prod.mk.injEq, and_true] at h
    subst h
    rw [availableRecords_eq]
    apply forall₂_filterMap_of_isSome
    apply accepted_of_no_unavailable
    simpa using hlen

theorem accepted_some {mem : Mem} {db : memory.DB} {r : RoomDay} {p : Ptr}
    (h : accepted mem db r = some p) :
    db.roomAvailabilities.get r.storeKey = some p ∧ 1 ≤ (mem.cell p).Quota := by
  unfold accepted at h
  cases hget : db.roomAvailabilities.get r.storeKey with
  | none => rw [hget] at h; cases h
  | some q =>
    rw [hget] at h
    by_cases hq : (mem.cell q).Quota < 1
    · simp [hq] at h
    · simp only [hq, if_false, Option.some.injEq] at h
      subst h
      exact ⟨rfl, by omega⟩

/-! ## The decrement step -/

theorem updateDays_eq (amap : GoMap String Ptr) (property : Place) (ds : List Time)
    (updated : List Ptr) (mem : Mem) :
    Manager.updateDays amap property ds updated mem
      = decKeys amap
          (ds.map fun d => roomKey property.HotelID property.RoomID (Time.FormatDate d))
          updated mem := by
  induction ds generalizing updated mem with
  | nil => rfl
  | cons d rest ih =>
    simp only [Manager.updateDays, List.map_cons, decKeys]
    cases amap.get (roomKey property.HotelID property.RoomID (Time.FormatDate d)) with
    | none => rfl
    | some p => exact ih _ _

theorem decKeys_append (amap : GoMap String Ptr) (ks1 ks2 : List String) (updated : List Ptr)
    (mem : Mem) :
    decKeys amap (ks1 ++ ks2) updated mem =
      match decKeys amap ks1 updated mem with
      | (some updated, mem) => decKeys amap ks2 updated mem
      | (none, mem) => (none, mem) := by
  induction ks1 generalizing updated mem with
  | nil => rfl
  | cons k rest ih =>
    simp only [List.cons_append, decKeys]
    cases amap.get k with
    | none => rfl
    | some p => exact ih _ _

theorem updatePlaces_eq (amap : GoMap String Ptr) (places : List Place) (updated : List Ptr)
    (mem : Mem) :
    Manager.updatePlaces amap places updated mem
      = decKeys amap
          (places.flatMap fun property =>
            (days property.From property.To).map fun d =>
              roomKey property.HotelID property.RoomID (Time.FormatDate d))
          updated mem := by
  induction places generalizing updated mem with
  | nil => rfl
  | cons property rest ih =>
    simp only [Manager.updatePlaces, List.flatMap_cons, decKeys_append, updateDays_eq]
    rcases decKeys amap
      ((days property.From property.To).map fun d =>
        roomKey property.HotelID property.RoomID (Time.FormatDate d)) updated mem with ⟨r, mem1⟩
    cases r with
    | none => rfl
    | some u => exact ih _ _

theorem updatePlaces_requested (amap : GoMap String Ptr) (input : BookInput) (mem : Mem) :
    Manager.updatePlaces amap input.prepareDates.Places [] mem
      = decKeys amap ((requestedDays input).map RoomDay.dateKey) [] mem := by
  rw [updatePlaces_eq]
  congr 1
  simp only [requestedDays, requestsOf, queries, List.flatMap_map, List.map_flatMap,
    List.map_map]
  rfl

theorem decKeys_found (amap : GoMap String Ptr) (ks : List String) (ptrs : List Ptr)
    (h : List.Forall₂ (fun k p => amap.get k = some p) ks ptrs) (updated : List Ptr)
    (mem : Mem) :
    decKeys amap ks updated mem = (some (updated ++ ptrs), ptrs.foldl Mem.decQuota mem) := by
  induction h generalizing updated mem with
  | nil => simp [decKeys]
  | cons hk _ ih =>
    simp only [decKeys, hk, List.foldl_cons]
    rw [ih]
    simp

/-! ## The day loop -/

theorem daysLoop_mod (n : Nat) (d0 last d : Time) (h : d ∈ daysLoop n d0 last) :
    d % dayNs = d0 % dayNs := by
  induction n generalizing d0 with
  | zero => simp [daysLoop] at h
  | succ n ih =>
    simp only [daysLoop] at h
    split at h
    · simp at h
    · rcases List.mem_cons.1 h with h | h
      · rw [h]
      · rw [ih _ h]
        have key : ∀ x : Int, (x + 86400000000000) % 86400000000000 = x % 86400000000000 := by
          intro x; omega
        exact key d0

theorem Truncate24h_mod (t : Time) : Time.Truncate24h t % dayNs = 0 := by
  have key : ∀ x : Int, (x - x % 86400000000000) % 86400000000000 = 0 := by
    intro x; omega
  exact key t

theorem requestedDays_aligned (input : BookInput) :
    ∀ r ∈ requestedDays input, r.2.2 % dayNs = 0 := by
  intro r hr
  simp only [requestedDays, requestsOf, queries, BookInput.prepareDates, List.map_map,
    List.mem_flatMap, List.mem_map, Function.comp] at hr
  obtain ⟨q, ⟨pl, _, rfl⟩, d, hd, rfl⟩ := hr
  simp only [days] at hd
  rw [daysLoop_mod _ _ _ _ hd]
  exact Truncate24h_mod _

theorem FormatRFC3339_of_aligned (t : Time) (h : t % dayNs = 0) :
    Time.FormatRFC3339 t = Time.FormatDate t ++ "T00:00:00Z" := by
  simp only [Time.FormatRFC3339, h]
  have h0 : ((0 : Int) / 1000000000).toNat = 0 := by decide
  rw [h0]
  have hp : Time.pad2 (0 / 3600) = "00" ∧ Time.pad2 (0 / 60 % 60) = "00" ∧
      Time.pad2 (0 % 60) = "00" := by decide
  rw [hp.1]
  simp only [String.append_assoc]
  rfl

theorem storeKey_of_aligned (r : RoomDay) (h : r.2.2 % dayNs = 0) :
    r.storeKey = r.dateKey ++ "T00:00:00Z" := by
  simp only [RoomDay.storeKey, RoomDay.dateKey, roomKey, FormatRFC3339_of_aligned _ h,
    String.append_assoc]

theorem names_storeKey {r : RoomDay} {a : RoomAvailability} (h : r.names a) :
    storeKey a = r.storeKey := by
  obtain ⟨h1, h2, h3⟩ := h
  simp only [storeKey, RoomDay.storeKey, h1, h2, h3]

theorem names_dateKey {r : RoomDay} {a : RoomAvailability} (h : r.names a) :
    dateKey a = r.dateKey := by
  obtain ⟨h1, h2, h3⟩ := h
  simp only [dateKey, RoomDay.dateKey, h1, h2, h3]

theorem names_unique {r r' : RoomDay} {a : RoomAvailability} (h : r.names a)
    (h' : r'.names a) : r = r' := by
  obtain ⟨h1, h2, h3⟩ := h
  obtain ⟨h1', h2', h3'⟩ := h'
  obtain ⟨x, y, z⟩ := r
  obtain ⟨x', y', z'⟩ := r'
  simp only at h1 h2 h3 h1' h2' h3'
  rw [← h1, ← h2, ← h3, ← h1', ← h2', ← h3']

/-! ## Lists in step -/

theorem forall₂_exists_left {α β : Type} {R : α → β → Prop} {l1 : List α} {l2 : List β}
    (h : List.Forall₂ R l1 l2) : ∀ b ∈ l2, ∃ a ∈ l1, R a b := by
  induction h with
  | nil => intro b hb; cases hb
  | cons hab _ ih =>
    intro b hb
    rcases List.mem_cons.1 hb with hb | hb
    · subst hb; exact ⟨_, List.mem_cons_self _ _, hab⟩
    · obtain ⟨a, ha, hr⟩ := ih b hb
      exact ⟨a, List.mem_cons_of_mem _ ha, hr⟩

theorem forall₂_exists_right {α β : Type} {R : α → β → Prop} {l1 : List α} {l2 : List β}
    (h : List.Forall₂ R l1 l2) : ∀ a ∈ l1, ∃ b ∈ l2, R a b := by
  induction h with
  | nil => intro a ha; cases ha
  | cons hab _ ih =>
    intro a ha
    rcases List.mem_cons.1 ha with ha | ha
    · subst ha; exact ⟨_, List.mem_cons_self _ _, hab⟩
    · obtain ⟨b, hb, hr⟩ := ih a ha
      exact ⟨b, List.mem_cons_of_mem _ hb, hr⟩

/-- Two lists in step through a relation that sends distinct elements to distinct
elements: when the first has no repetition, neither has the second. -/
theorem forall₂_nodup {α β : Type} {R : α → β → Prop} {l1 : List α} {l2 : List β}
    (h : List.Forall₂ R l1 l2) (hinj : ∀ a a' b, R a b → R a' b → a = a')
    (hnd : l1.Nodup) : l2.Nodup := by
  induction h with
  | nil => exact List.nodup_nil
  | cons hab hrest ih =>
    rw [List.nodup_cons] at hnd ⊢
    refine ⟨?_, ih hnd.2⟩
    intro hb
    obtain ⟨a', ha', hr⟩ := forall₂_exists_left hrest _ hb
    have := hinj _ _ _ hab hr
    subst this
    exact hnd.1 ha'

theorem forall₂_map_eq {α β γ : Type} {R : α → β → Prop} {l1 : List α} {l2 : List β}
    (f : α → γ) (g : β → γ) (h : List.Forall₂ R l1 l2) (hfg : ∀ a b, R a b → f a = g b) :
    l1.map f = l2.map g := by
  induction h with
  | nil => rfl
  | cons hab _ ih => simp only [List.map_cons, hfg _ _ hab, ih]

namespace GoMap

variable {K V : Type} [DecidableEq K]

theorem get_of_mem_keysNodup (m : GoMap K V) {k : K} {v : V} (hmem : (k, v) ∈ m)
    (hnd : m.keysNodup) : m.get k = some v := by
  induction m with
  | nil => cases hmem
  | cons kv rest ih =>
    obtain ⟨k0, v0⟩ := kv
    simp only [keysNodup, List.map_cons, List.nodup_cons] at hnd
    rcases List.mem_cons.1 hmem with h | h
    · cases h; simp [get]
    · have hk : k0 ≠ k := by
        intro heq
        subst heq
        exact hnd.1 (List.mem_map.2 ⟨(k0, v), h, rfl⟩)
      simp only [get, hk, if_false]
      exact ih h hnd.2

theorem mem_set (m : GoMap K V) (k : K) (v : V) (kv : K × V) (h : kv ∈ m.set k v) :
    kv ∈ m ∨ kv = (k, v) := by
  induction m with
  | nil => simp [set] at h; exact Or.inr h
  | cons kv0 rest ih =>
    obtain ⟨k0, v0⟩ := kv0
    by_cases h0 : k0 = k
    · simp only [set, h0, if_true] at h
      rcases List.mem_cons.1 h with h | h
      · exact Or.inr h
      · exact Or.inl (List.mem_cons_of_mem _ h)
    · simp only [set, h0, if_false] at h
      rcases List.mem_cons.1 h with h | h
      · exact Or.inl (h ▸ List.mem_cons_self _ _)
      · rcases ih h with h | h
        · exact Or.inl (List.mem_cons_of_mem _ h)
        · exact Or.inr h

end GoMap

/-! ## A booking whose requested days are all available -/

theorem forall₂_imp_mem {α β : Type} {R S : α → β → Prop} {l1 : List α} {l2 : List β}
    (h : List.Forall₂ R l1 l2) (himp : ∀ a ∈ l1, ∀ b, R a b → S a b) :
    List.Forall₂ S l1 l2 := by
  induction h with
  | nil => exact List.Forall₂.nil
  | cons hab _ ih =>
    exact List.Forall₂.cons (himp _ (List.mem_cons_self _ _) _ hab)
      (ih fun a ha b hr => himp a (List.mem_cons_of_mem _ ha) b hr)

theorem filterMap_of_forall₂ {α β : Type} (f : α → Option β) {l : List α} {l2 : List β}
    (h : List.Forall₂ (fun a b => f a = some b) l l2) : l.filterMap f = l2 := by
  induction h with
  | nil => rfl
  | cons hab _ ih => rw [List.filterMap_cons, hab, ih]

theorem GetAvailabilities_of_accepted (mem : Mem) (db : memory.DB)
    (inputs : List GetAvailabilityInput) {avs : List Ptr}
    (h : List.Forall₂ (fun r p => accepted mem db r = some p) (requestsOf inputs) avs) :
    db.GetAvailabilities mem inputs = (avs, none) := by
  have hnone : memory.DB.unavailableRooms mem db inputs = [] := by
    simp only [memory.DB.unavailableRooms, List.filterMap_eq_nil_iff]
    intro input hin
    have hd : memory.DB.unavailableDays mem db input = [] := by
      simp only [memory.DB.unavailableDays, List.filter_eq_nil_iff]
      intro d hd
      have hr : ((input.HotelID, input.RoomID, d) : RoomDay) ∈ requestsOf inputs := by
        simp only [requestsOf, List.mem_flatMap, List.mem_map]
        exact ⟨input, hin, d, hd, rfl⟩
      obtain ⟨p, _, hp⟩ := forall₂_exists_right h _ hr
      rw [availableOn_eq_accepted, hp]
      simp
    simp [hd]
  rw [memory.DB.GetAvailabilities_eq, hnone, availableRecords_eq, filterMap_of_forall₂ _ h]
  simp

theorem availabilityMap_get (mem : Mem) (reqs : List RoomDay) (avs : List Ptr)
    (h : List.Forall₂ (fun (r : RoomDay) p => r.names (mem.cell p)) reqs avs)
    (hnd : (reqs.map RoomDay.dateKey).Nodup) :
    List.Forall₂ (fun k p => (Manager.availabilityMap mem avs).get k = some p)
      (reqs.map RoomDay.dateKey) avs := by
  have hkeys : reqs.map RoomDay.dateKey = avs.map fun p => dateKey (mem.cell p) :=
    forall₂_map_eq _ _ h fun r p hr => (names_dateKey hr).symm
  have hmap : Manager.availabilityMap mem avs
      = (avs.map fun p => (dateKey (mem.cell p), p)).foldl
          (fun (m : GoMap String Ptr) kv => m.set kv.1 kv.2) ([] : GoMap String Ptr) := by
    rw [List.foldl_map]; rfl
  have hl1 : (avs.map fun p => (dateKey (mem.cell p), p)).map Prod.fst
      = avs.map fun p => dateKey (mem.cell p) := by
    rw [List.map_map]; rfl
  have hl2 : (avs.map fun p => (dateKey (mem.cell p), p)).map Prod.snd = avs := by
    rw [List.map_map]; exact List.map_id _
  have hnd' : GoMap.keysNodup (avs.map fun p => (dateKey (mem.cell p), p)) := by
    unfold GoMap.keysNodup
    rw [hl1, ← hkeys]
    exact hnd
  rw [hkeys, hmap, ← hl1]
  conv => rhs; rw [← hl2]
  rw [List.forall₂_map_left_iff, List.forall₂_map_right_iff, List.forall₂_same]
  intro kv hkv
  exact GoMap.get_foldl_set_of_some _ _ hnd'
    (GoMap.get_of_mem_keysNodup _ (show (kv.1, kv.2) ∈ _ from hkv) hnd')

theorem decQuota_names (mem : Mem) (p q : Ptr) :
    ((mem.decQuota q).cell p).HotelID = (mem.cell p).HotelID ∧
    ((mem.decQuota q).cell p).RoomID = (mem.cell p).RoomID ∧
    ((mem.decQuota q).cell p).Date = (mem.cell p).Date := by
  by_cases h : p = q
  · subst h; simp [Mem.decQuota]
  · simp [Mem.decQuota, Function.update_noteq h]

theorem foldl_decQuota_names (ptrs : List Ptr) (mem : Mem) (p : Ptr) :
    ((ptrs.foldl Mem.decQuota mem).cell p).HotelID = (mem.cell p).HotelID ∧
    ((ptrs.foldl Mem.decQuota mem).cell p).RoomID = (mem.cell p).RoomID ∧
    ((ptrs.foldl Mem.decQuota mem).cell p).Date = (mem.cell p).Date := by
  induction ptrs generalizing mem with
  | nil => exact ⟨rfl, rfl, rfl⟩
  | cons q rest ih =>
    simp only [List.foldl_cons]
    obtain ⟨h1, h2, h3⟩ := ih (mem.decQuota q)
    obtain ⟨g1, g2, g3⟩ := decQuota_names mem p q
    exact ⟨h1.trans g1, h2.trans g2, h3.trans g3⟩

theorem foldl_decQuota_storeKey (ptrs : List Ptr) (mem : Mem) (p : Ptr) :
    storeKey ((ptrs.foldl Mem.decQuota mem).cell p) = storeKey (mem.cell p) := by
  obtain ⟨h1, h2, h3⟩ := foldl_decQuota_names ptrs mem p
  simp only [storeKey, h1, h2, h3]

/-- Decrementing through pairwise distinct addresses: each of them loses one unit, every
other record is as before. -/
theorem foldl_decQuota_cell (ptrs : List Ptr) (hnd : ptrs.Nodup) (mem : Mem) (p : Ptr) :
    (ptrs.foldl Mem.decQuota mem).cell p =
      if p ∈ ptrs then { mem.cell p with Quota := (mem.cell p).Quota - 1 } else mem.cell p := by
  induction ptrs generalizing mem with
  | nil => simp
  | cons q rest ih =>
    rw [List.nodup_cons] at hnd
    simp only [List.foldl_cons]
    rw [ih hnd.2]
    by_cases hpq : p = q
    · subst hpq
      simp [hnd.1, Mem.decQuota]
    · simp [hpq, Mem.decQuota, Function.update_noteq hpq]

theorem stagedRooms_mem (mem : Mem) (avs : List Ptr) (staged : GoMap String Ptr)
    (kv : String × Ptr) (h : kv ∈ stagedRooms mem avs staged) :
    kv ∈ staged ∨ (kv.2 ∈ avs ∧ kv.1 = storeKey (mem.cell kv.2)) := by
  induction avs generalizing staged with
  | nil => exact Or.inl h
  | cons p rest ih =>
    simp only [stagedRooms, List.foldl_cons] at h
    have h' := ih _ h
    rcases h' with h' | h'
    · cases hget : staged.get (storeKey (mem.cell p)) with
      | some q =>
        rw [hget] at h'
        exact Or.inl h'
      | none =>
        rw [hget] at h'
        rcases GoMap.mem_set _ _ _ _ h' with h' | h'
        · exact Or.inl h'
        · subst h'
          exact Or.inr ⟨List.mem_cons_self _ _, rfl⟩
    · exact Or.inr ⟨List.mem_cons_of_mem _ h'.1, h'.2⟩

theorem bookable_accepted {mem : Mem} {db : memory.DB} {reqs : List RoomDay}
    {avs : List Ptr} (h : bookable mem db reqs avs) :
    List.Forall₂ (fun r p => accepted mem db r = some p) reqs avs := by
  refine List.Forall₂.imp ?_ h
  intro r p ⟨hget, hq, _⟩
  have : ¬ (mem.cell p).Quota < 1 := by omega
  simp [accepted, hget, this]

theorem bookable_of_accepted {mem : Mem} {db : memory.DB} {reqs : List RoomDay}
    {avs : List Ptr}
    (hacc : List.Forall₂ (fun r p => accepted mem db r = some p) reqs avs)
    (hrec : ∀ r ∈ reqs, ∀ p, db.roomAvailabilities.get r.storeKey = some p →
      r.names (mem.cell p)) :
    bookable mem db reqs avs := by
  refine forall₂_imp_mem hacc ?_
  intro r hr p hp
  obtain ⟨hget, hq⟩ := accepted_some hp
  exact ⟨hget, hq, hrec r hr p hget⟩

theorem bookable_nodup {mem : Mem} {db : memory.DB} {reqs : List RoomDay} {avs : List Ptr}
    (h : bookable mem db reqs avs) (hnd : reqs.Nodup) : avs.Nodup :=
  forall₂_nodup h (fun _ _ _ h1 h2 => names_unique h1.2.2 h2.2.2) hnd

theorem string_append_right_cancel {a b s : String} (h : a ++ s = b ++ s) : a = b := by
  apply String.ext
  have := congrArg String.data h
  simp only [String.data_append] at this
  exact List.append_cancel_right this

theorem bookable_dateKeys_nodup {mem : Mem} {db : memory.DB} {reqs : List RoomDay}
    {avs : List Ptr} (h : bookable mem db reqs avs) (hnd : reqs.Nodup)
    (hal : ∀ r ∈ reqs, r.2.2 % dayNs = 0) : (reqs.map RoomDay.dateKey).Nodup := by
  apply List.Nodup.map_on _ hnd
  intro x hx y hy hxy
  obtain ⟨p, _, hp⟩ := forall₂_exists_right h x hx
  obtain ⟨q, _, hq⟩ := forall₂_exists_right h y hy
  have hkey : x.storeKey = y.storeKey := by
    rw [storeKey_of_aligned x (hal x hx), storeKey_of_aligned y (hal y hy), hxy]
  have hpq : p = q := by
    have h1 := hp.1
    rw [hkey, hq.1] at h1
    exact (Option.some.inj h1).symm
  subst hpq
  exact names_unique hp.2.2 hq.2.2

theorem updateRoomAvailabilities_bookable (input : BookInput) (mem : Mem) (db : memory.DB)
    (avs : List Ptr) (h : bookable mem db (requestedDays input) avs)
    (hnd : (requestedDays input).Nodup) :
    Manager.updateRoomAvailabilities input.prepareDates avs mem
      = (.ok avs, avs.foldl Mem.decQuota mem) := by
  have hkeys := bookable_dateKeys_nodup h hnd (requestedDays_aligned input)
  have hget := availabilityMap_get mem (requestedDays input) avs
    (List.Forall₂.imp (fun _ _ hr => hr.2.2) h) hkeys
  simp only [Manager.updateRoomAvailabilities, updatePlaces_requested,
    decKeys_found _ _ _ hget, List.nil_append]

theorem stagedRooms_bookable (mem : Mem) (db : memory.DB) (reqs : List RoomDay)
    (avs : List Ptr) (h : bookable mem db reqs avs) :
    (stagedRooms (avs.foldl Mem.decQuota mem) avs []).foldl (fun m kv => m.set kv.1 kv.2)
        db.roomAvailabilities
      = db.roomAvailabilities := by
  apply GoMap.foldl_set_eq_self
  intro kv hkv
  rcases stagedRooms_mem _ _ _ _ hkv with hkv | ⟨hmem, hk⟩
  · cases hkv
  · obtain ⟨r, _, hr⟩ := forall₂_exists_left h _ hmem
    rw [hk, foldl_decQuota_storeKey, names_storeKey hr.2.2]
    exact hr.1

/-- The booking of room-days that are all bookable, with a key that is not in the index:
every listed record is decremented, the room map is as before, and the order is committed
when the IDs and the price strategies do not fail. -/
theorem bookFresh_bookable {γ : Type} (env : Env) (g : idGenerator γ) (ctx : Ctx)
    (key : String) (input : BookInput) (w : World memory.DB γ) (avs : List Ptr)
    (h : bookable w.mem w.db (requestedDays input) avs) (hnd : (requestedDays input).Nodup) :
    bookFresh env g ctx key input w =
      match Manager.buildOrder env (memManager g) ctx input.prepareDates w.gen with
      | (.error err, gen) =>
        ((none, some (.wrap "build order" err)),
         { mem := avs.foldl Mem.decQuota w.mem, db := w.db, gen := gen })
      | (.ok (order, event), gen) =>
        ((some order, none),
         { mem := avs.foldl Mem.decQuota w.mem, db := w.db.booked key order event,
           gen := gen }) := by
  unfold bookFresh
  rw [GetAvailabilities_of_accepted w.mem w.db _ (bookable_accepted h)]
  simp only [updateRoomAvailabilities_bookable input w.mem w.db avs h hnd]
  rcases Manager.buildOrder env (memManager g) ctx input.prepareDates w.gen with ⟨r, gen⟩
  cases r with
  | error e => rfl
  | ok oe =>
    obtain ⟨order, event⟩ := oe
    simp only [memory.DB.afterBooking, memory.DB.booked,
      stagedRooms_bookable w.mem w.db _ avs h]

/-! ## The postcondition of a successful booking -/

theorem applyStrategies_ID (strategies : List BoostStrategy)
    (hids : ∀ s ∈ strategies, ∀ o, (s o).1.ID = o.ID) (o o' : Order)
    (h : Manager.applyStrategies strategies o = .ok o') : o'.ID = o.ID := by
  induction strategies generalizing o with
  | nil =>
    simp only [Manager.applyStrategies, Except.ok.injEq] at h
    rw [h]
  | cons s rest ih =>
    simp only [Manager.applyStrategies] at h
    have hs := hids s (List.mem_cons_self _ _) o
    rcases hso : s o with ⟨o1, e1⟩
    rw [hso] at h hs
    cases e1 with
    | some e => simp at h
    | none =>
      simp only [] at h
      rw [ih (fun s hs => hids s (List.mem_cons_of_mem _ hs)) o1 h]
      exact hs

theorem buildOrder_simple (env : Env) (ctx : Ctx) (input : BookInput) (gen : simple.Generator) :
    Manager.buildOrder env (memManager simple.IDs) ctx input gen =
      match Manager.applyStrategies input.BoostStrategies
          { ID := gen.counter + 1, Payer := { Email := input.Payer.Email },
            Places := input.Places, CreatedAt := env.now, Price := 0 } with
      | .error err => (.error err, { counter := gen.counter + 1 })
      | .ok order =>
        (.ok (order, { ID := gen.counter + 1 + 1, OrderID := order.ID, CreatedAt := env.now }),
         { counter := gen.counter + 1 + 1 }) := by
  simp only [Manager.buildOrder, Manager.buildEvent, memManager, simple.IDs,
    simple.Generator.GetID]

/-- What a successful call with a fresh key leaves behind, when the records of the
requested room-days carry their identifiers and the room-days are pairwise distinct. -/
theorem CreateOrder_success_post (env : Env) (ctx : Ctx) (key : String) (input : BookInput)
    (w w' : World memory.DB simple.Generator) (o : Order)
    (hkey : ctx.idempotencyKey = some key)
    (hfresh : w.db.orderIdempotencyKeys.get key = none)
    (hnd : (requestedDays input).Nodup)
    (hrec : ∀ r ∈ requestedDays input, ∀ p,
      w.db.roomAvailabilities.get r.storeKey = some p → r.names (w.mem.cell p))
    (hids : ∀ s ∈ input.BoostStrategies, ∀ o, (s o).1.ID = o.ID)
    (hsucc : Manager.CreateOrder env (memManager simple.IDs) ctx input w = ((some o, none), w')) :
    ∃ avs, bookable w.mem w.db (requestedDays input) avs ∧ avs.Nodup ∧
      w'.mem = avs.foldl Mem.decQuota w.mem ∧
      w'.db = w.db.booked key o
        { ID := w.gen.counter + 1 + 1, OrderID := o.ID, CreatedAt := env.now } ∧
      w'.gen = { counter := w.gen.counter + 1 + 1 } ∧
      o.ID = w.gen.counter + 1 ∧ key ≠ "" := by
  cases hv : input.validate env with
  | some err => rw [CreateOrder_memory_invalid env _ ctx input w hv] at hsucc; simp at hsucc
  | none =>
    by_cases hkne : key = ""
    · subst hkne
      rw [CreateOrder_memory_nokey env _ ctx input w hv (Or.inr hkey)] at hsucc
      simp at hsucc
    · rw [CreateOrder_memory_fresh env _ ctx input w hv hkey hkne hfresh] at hsucc
      rcases hga : w.db.GetAvailabilities w.mem (queries input.prepareDates) with ⟨avs, e⟩
      cases e with
      | some e =>
        simp only [bookFresh, hga] at hsucc
        simp at hsucc
      | none =>
        have hb : bookable w.mem w.db (requestedDays input) avs :=
          bookable_of_accepted (GetAvailabilities_ok _ _ _ hga) hrec
        rw [bookFresh_bookable env _ ctx key input w avs hb hnd, buildOrder_simple] at hsucc
        cases hap : Manager.applyStrategies input.prepareDates.BoostStrategies
            { ID := w.gen.counter + 1, Payer := { Email := input.prepareDates.Payer.Email },
              Places := input.prepareDates.Places, CreatedAt := env.now, Price := 0 } with
        | error err =>
          rw [hap] at hsucc
          simp at hsucc
        | ok order =>
          rw [hap] at hsucc
          simp only [Prod.mk.injEq, Option.some.injEq, and_true] at hsucc
          obtain ⟨ho, hw⟩ := hsucc
          subst ho hw
          have hid := applyStrategies_ID _ hids _ _ hap
          exact ⟨avs, hb, bookable_nodup hb hnd, rfl, rfl, rfl, hid, hkne⟩

/-- C5 (counterexample): two places with pairwise distinct (hotel, room, day) triples,
`(a_b, c, 2024-02-26)` and `(a, b_c, 2024-02-26)`, have the same key. The validated
request succeeds with a fresh idempotency key; the quota of the requested room-day
`(a_b, c, 2024-02-26)` goes from 5 to 3, not to 4; and the transaction that another
client had open before the call is still open afterwards. -/
theorem C5_colliding_keys_decrement_twice :
    (requestedDays collidingRequest).Nodup ∧
    collidingRequest.validate febFirst = none ∧
    collidingWorld.db.orderIdempotencyKeys.get "k1" = none ∧
    (Manager.CreateOrder febFirst appManager (withKey "k1") collidingRequest
        collidingWorld).1.1.isSome = true ∧
    (Manager.CreateOrder febFirst appManager (withKey "k1") collidingRequest
        collidingWorld).1.2 = none ∧
    memQuota collidingWorld "a_b" "c" (date 2024 2 26) = some 5 ∧
    memQuota (Manager.CreateOrder febFirst appManager (withKey "k1") collidingRequest
        collidingWorld).2 "a_b" "c" (date 2024 2 26) = some 3 ∧
    ((Manager.CreateOrder febFirst appManager (withKey "k1") collidingRequest
        collidingWorld).2.db.transactions.get "trx-1").isSome = true := by
  decide

/-- C5 (amended): over the in-memory store and the simple generator, for every state, key
`k` not in the idempotency index and request body whose places, after truncation to days,
cover pairwise distinct (hotel, room, day) triples, whose price strategies leave the
order's ID as drawn, in a store where the record filed under the key of each requested
room-day carries that hotel, room and day: if `CreateOrder` succeeds then
(1) the record of every requested room-day is still the one under its key and has its
previous quota minus 1 - nothing else of it changed -, every other record is unchanged and
the room map is as before;
(2) the orders map is the previous one with the returned order entered under its ID, the
events map is the previous one with one event entered under its ID, whose OrderID is the
order's ID and whose ID differs from the order's ID;
(3) `GetOrderByIdempotencyKey` for `k` returns the order;
(4) the transaction opened by the call is no longer open, and every other open
transaction is as before. -/
theorem C5_successful_booking_postcondition (env : Env) (ctx : Ctx) (key : String)
    (input : BookInput) (w w' : World memory.DB simple.Generator) (o : Order)
    (hkey : ctx.idempotencyKey = some key)
    (hfresh : w.db.orderIdempotencyKeys.get key = none)
    (hnd : (requestedDays input).Nodup)
    (hrec : ∀ r ∈ requestedDays input, ∀ p,
      w.db.roomAvailabilities.get r.storeKey = some p → r.names (w.mem.cell p))
    (hids : ∀ s ∈ input.BoostStrategies, ∀ o, (s o).1.ID = o.ID)
    (hsucc : Manager.CreateOrder env appManager ctx input w = ((some o, none), w')) :
    (∀ r ∈ requestedDays input, ∃ p,
      w.db.roomAvailabilities.get r.storeKey = some p ∧
      w'.db.roomAvailabilities.get r.storeKey = some p ∧
      w'.mem.cell p = { w.mem.cell p with Quota := (w.mem.cell p).Quota - 1 }) ∧
    (∀ p, (∀ r ∈ requestedDays input, w.db.roomAvailabilities.get r.storeKey ≠ some p) →
      w'.mem.cell p = w.mem.cell p) ∧
    w'.db.roomAvailabilities = w.db.roomAvailabilities ∧
    w'.db.orders = w.db.orders.set o.ID o ∧
    (∃ e : Event, w'.db.events = w.db.events.set e.ID e ∧ e.OrderID = o.ID ∧ e.ID ≠ o.ID) ∧
    w'.db.GetOrderByIdempotencyKey ctx = (some o, none) ∧
    w'.db.transactions.get ("trx-" ++ Time.fmtInt w.db.nextTrxID) = none ∧
    (∀ t, t ≠ "trx-" ++ Time.fmtInt w.db.nextTrxID →
      w'.db.transactions.get t = w.db.transactions.get t) := by
  obtain ⟨avs, hb, hav, hmem, hdb, _, hid, hkne⟩ :=
    CreateOrder_success_post env ctx key input w w' o hkey hfresh hnd hrec hids hsucc
  rw [hmem, hdb]
  refine ⟨?_, ?_, rfl, rfl, ⟨_, rfl, rfl, ?_⟩, ?_, ?_, ?_⟩
  · intro r hr
    obtain ⟨p, hp, hget, _, _⟩ := forall₂_exists_right hb r hr
    refine ⟨p, hget, hget, ?_⟩
    rw [foldl_decQuota_cell avs hav, if_pos hp]
  · intro p hp
    rw [foldl_decQuota_cell avs hav, if_neg]
    intro hmem
    obtain ⟨r, hr, hget, _, _⟩ := forall₂_exists_left hb p hmem
    exact hp r hr hget
  · simp only [hid]
    omega
  · simp [memory.DB.GetOrderByIdempotencyKey, memory.DB.booked, IdempotencyKeyFromContext,
      hkey, hkne, GoMap.get_set_same]
  · exact GoMap.get_del_same _ _
  · intro t ht
    exact GoMap.get_del_ne _ (Ne.symm ht)

/-- C5 (witness): the amended statement at the first booking of the seeded store. -/
theorem C5_successful_booking_postcondition_witness :
    (withKey "k1").idempotencyKey = some "k1" ∧
    seededWorld.db.orderIdempotencyKeys.get "k1" = none ∧
    (requestedDays (request [oneDay (date 2024 2 26)])).Nodup ∧
    firstBooking.1 = (some firstOrder, none) ∧
    firstBooking.2.db.roomAvailabilities = seededWorld.db.roomAvailabilities ∧
    firstBooking.2.db.orders = seededWorld.db.orders.set firstOrder.ID firstOrder ∧
    firstBooking.2.db.GetOrderByIdempotencyKey (withKey "k1") = (some firstOrder, none) :=
  have h := C5_successful_booking_postcondition febFirst (withKey "k1") "k1"
    (request [oneDay (date 2024 2 26)]) seededWorld firstBooking.2 firstOrder rfl
    (by decide) (by decide)
    (by
      intro r hr p hp
      have hreq : requestedDays (request [oneDay (date 2024 2 26)])
          = [("reddison", "lux", date 2024 2 26)] := by decide
      rw [hreq, List.mem_singleton] at hr
      subst hr
      have hget : seededWorld.db.roomAvailabilities.get
          (RoomDay.storeKey ("reddison", "lux", date 2024 2 26)) = some 0 := by decide
      rw [hget] at hp
      cases hp
      exact ⟨by decide, by decide, by decide⟩)
    (by intro s hs; cases hs)
    (Prod.ext (by decide) rfl)
  ⟨rfl, by decide, by decide, by decide, h.2.2.1, h.2.2.2.1, h.2.2.2.2.2.1⟩

/-! ## Booking one room-day until it is exhausted -/

theorem days_self (D : Time) : days D D = [D] := by
  have h1 : ((D - D) / dayNs + 1).toNat = 1 := by
    rw [Int.sub_self, Int.zero_ediv]; rfl
  simp [days, h1, daysLoop, Time.After]

theorem Truncate24h_of_aligned (D : Time) (hD : D % dayNs = 0) : Time.Truncate24h D = D := by
  simp [Time.Truncate24h, hD]

theorem applyStrategies_ok (strategies : List BoostStrategy)
    (h : ∀ s ∈ strategies, ∀ o, (s o).2 = none) (o : Order) :
    ∃ o', Manager.applyStrategies strategies o = .ok o' := by
  induction strategies generalizing o with
  | nil => exact ⟨o, rfl⟩
  | cons s rest ih =>
    have hs := h s (List.mem_cons_self _ _) o
    rcases hso : s o with ⟨o1, e1⟩
    rw [hso] at hs
    simp only at hs
    subst hs
    simp only [Manager.applyStrategies, hso]
    exact ih (fun s hs => h s (List.mem_cons_of_mem _ hs)) o1

section oneDay

variable {hotelID roomID : String} {D : Time} {key : String} {c : Env × Ctx × BookInput}

theorem booksDay_validate (hh : hotelID ≠ "") (hr : roomID ≠ "")
    (hc : booksDay hotelID roomID D key c) : c.2.2.validate c.1 = none := by
  obtain ⟨price, hp⟩ := hc.place
  have h1 : ¬ D < c.1.now := not_lt.mpr hc.clock
  simp [BookInput.validate, BookInput.validateFields, hc.email, hp, validatePlace, hh, hr,
    Time.Before, Time.After, h1, fieldsCount]

theorem booksDay_requestedDays (hD : D % dayNs = 0) (hc : booksDay hotelID roomID D key c) :
    requestedDays c.2.2 = [(hotelID, roomID, D)] := by
  obtain ⟨price, hp⟩ := hc.place
  simp [requestedDays, requestsOf, queries, BookInput.prepareDates, hp,
    Truncate24h_of_aligned D hD, days_self]

/-- One booking of the room-day while its quota is at least 1. -/
theorem booksDay_success (hh : hotelID ≠ "") (hr : roomID ≠ "") (hD : D % dayNs = 0)
    (hc : booksDay hotelID roomID D key c) (hkne : key ≠ "")
    (w : World memory.DB simple.Generator) (p : Ptr) (n : Int)
    (hfresh : w.db.orderIdempotencyKeys.get key = none)
    (hstore : w.db.roomAvailabilities.get (roomKey hotelID roomID (Time.FormatRFC3339 D))
      = some p)
    (hrec : w.mem.cell p = { HotelID := hotelID, RoomID := roomID, Date := D, Quota := n })
    (hn : 1 ≤ n) :
    ∃ o event gen,
      Manager.CreateOrder c.1 appManager c.2.1 c.2.2 w
        = ((some o, none),
           { mem := w.mem.decQuota p, db := w.db.booked key o event, gen := gen }) := by
  have hreq := booksDay_requestedDays hD hc
  have hb : bookable w.mem w.db (requestedDays c.2.2) [p] := by
    rw [hreq]
    refine List.Forall₂.cons ⟨hstore, ?_, ?_⟩ List.Forall₂.nil
    · rw [hrec]; exact hn
    · rw [hrec]; exact ⟨rfl, rfl, rfl⟩
  have hnd : (requestedDays c.2.2).Nodup := by rw [hreq]; exact List.nodup_singleton _
  have happ : appManager = memManager simple.IDs := rfl
  rw [happ, CreateOrder_memory_fresh c.1 _ c.2.1 c.2.2 w (booksDay_validate hh hr hc) hc.key
    hkne hfresh, bookFresh_bookable c.1 _ c.2.1 key c.2.2 w [p] hb hnd, buildOrder_simple]
  obtain ⟨o', ho'⟩ := applyStrategies_ok c.2.2.prepareDates.BoostStrategies hc.strategies
    { ID := w.gen.counter + 1, Payer := { Email := c.2.2.prepareDates.Payer.Email },
      Places := c.2.2.prepareDates.Places, CreatedAt := c.1.now, Price := 0 }
  rw [ho']
  exact ⟨o', _, _, rfl⟩

/-- One booking of the room-day when its quota is below 1. -/
theorem booksDay_exhausted (hh : hotelID ≠ "") (hr : roomID ≠ "") (hD : D % dayNs = 0)
    (hc : booksDay hotelID roomID D key c) (hkne : key ≠ "")
    (w : World memory.DB simple.Generator) (p : Ptr)
    (hfresh : w.db.orderIdempotencyKeys.get key = none)
    (hstore : w.db.roomAvailabilities.get (roomKey hotelID roomID (Time.FormatRFC3339 D))
      = some p)
    (hq : (w.mem.cell p).Quota < 1) :
    Manager.CreateOrder c.1 appManager c.2.1 c.2.2 w
      = ((none, some (.wrap "get availabilities" (.wrap "get availabilities from storage"
          (.AvailabilityError [⟨hotelID, roomID, [D]⟩])))), w) := by
  obtain ⟨price, hp⟩ := hc.place
  have happ : appManager = memManager simple.IDs := rfl
  rw [happ, CreateOrder_memory_fresh c.1 _ c.2.1 c.2.2 w (booksDay_validate hh hr hc) hc.key
    hkne hfresh]
  have hga : w.db.GetAvailabilities w.mem (queries c.2.2.prepareDates)
      = ([], some (.AvailabilityError [⟨hotelID, roomID, [D]⟩])) := by
    rw [memory.DB.GetAvailabilities_eq]
    simp [queries, BookInput.prepareDates, hp, Truncate24h_of_aligned D hD,
      memory.DB.unavailableRooms, memory.DB.unavailableDays, days_self,
      memory.DB.availableOn, hstore, hq]
  simp only [bookFresh, hga]

end oneDay

theorem memQuota_of_record {γ : Type} (w : World memory.DB γ) (hotelID roomID : String)
    (D : Time) (p : Ptr) (n : Int)
    (hstore : w.db.roomAvailabilities.get (roomKey hotelID roomID (Time.FormatRFC3339 D))
      = some p)
    (hrec : (w.mem.cell p).Quota = n) :
    memQuota w hotelID roomID D = some n := by
  simp [memQuota, quotaAt, hstore, hrec]

/-- Booking one room-day with `q + 1` calls under fresh, pairwise distinct keys, starting
from quota `q`, when the day is sent as a UTC time (the times of `CreateOrder` are in UTC):
the first `q` calls succeed and the `i`-th of them leaves quota `q - i`, the last one finds
the day unavailable and leaves the quota at 0. -/
theorem exhaust_room_day {hotelID roomID : String} {D : Time} (hh : hotelID ≠ "")
    (hr : roomID ≠ "") (hD : D % dayNs = 0) (q : Nat) :
    ∀ (w : World memory.DB simple.Generator) (p : Ptr) (keys : List String)
      (calls : List (Env × Ctx × BookInput)),
      w.db.roomAvailabilities.get (roomKey hotelID roomID (Time.FormatRFC3339 D)) = some p →
      w.mem.cell p = { HotelID := hotelID, RoomID := roomID, Date := D, Quota := q } →
      List.Forall₂ (booksDay hotelID roomID D) keys calls →
      calls.length = q + 1 → keys.Nodup →
      (∀ k ∈ keys, k ≠ "" ∧ w.db.orderIdempotencyKeys.get k = none) →
      (∀ i, i < q →
        (∃ o, (callResults appManager calls w)[i]? = some (some o, none)) ∧
        memQuota (runCalls appManager (calls.take (i + 1)) w) hotelID roomID D
          = some ((q : Int) - (i + 1))) ∧
      (∃ err, (callResults appManager calls w)[q]? = some (none, some err) ∧
        err.IsAvailabilityError = some [⟨hotelID, roomID, [D]⟩]) ∧
      memQuota (runCalls appManager calls w) hotelID roomID D = some 0 := by
  induction q with
  | zero =>
    intro w p keys calls hstore hrec hcalls hlen hnd hkeys
    cases hcalls with
    | nil => simp at hlen
    | @cons k c ks rest hc hrest =>
      cases hrest with
      | cons _ _ => simp at hlen
      | nil =>
        obtain ⟨env, ctx, input⟩ := c
        have hk := hkeys k (List.mem_cons_self _ _)
        have hex := booksDay_exhausted hh hr hD hc hk.1 w p hk.2 hstore (by rw [hrec]; simp)
        simp only at hex
        refine ⟨fun i hi => absurd hi (Nat.not_lt_zero _),
          ⟨.wrap "get availabilities" (.wrap "get availabilities from storage"
            (.AvailabilityError [⟨hotelID, roomID, [D]⟩])), ?_, rfl⟩, ?_⟩
        · simp only [callResults, hex, List.getElem?_cons_zero]
        · simp only [runCalls, hex]
          exact memQuota_of_record w _ _ _ p 0 hstore (by rw [hrec]; rfl)
  | succ q ih =>
    intro w p keys calls hstore hrec hcalls hlen hnd hkeys
    cases hcalls with
    | nil => simp at hlen
    | @cons k c ks rest hc hrest =>
      obtain ⟨env, ctx, input⟩ := c
      have hk := hkeys k (List.mem_cons_self _ _)
      rw [List.nodup_cons] at hnd
      obtain ⟨o, event, gen, hok⟩ := booksDay_success hh hr hD hc hk.1 w p (q + 1 : Nat) hk.2
        hstore hrec (by push_cast; omega)
      simp only at hok
      have hstore1 : (w.db.booked k o event).roomAvailabilities.get
          (roomKey hotelID roomID (Time.FormatRFC3339 D)) = some p := hstore
      have hrec1 : (w.mem.decQuota p).cell p
          = { HotelID := hotelID, RoomID := roomID, Date := D, Quota := q } := by
        simp only [Mem.decQuota, Function.update_same, hrec]
        congr 1
        push_cast
        omega
      have hkeys1 : ∀ k' ∈ ks, k' ≠ "" ∧
          (w.db.booked k o event).orderIdempotencyKeys.get k' = none := by
        intro k' hk'
        have h' := hkeys k' (List.mem_cons_of_mem _ hk')
        refine ⟨h'.1, ?_⟩
        have hne : k ≠ k' := fun heq => hnd.1 (heq ▸ hk')
        simp only [memory.DB.booked]
        rw [GoMap.get_set_ne _ _ hne]
        exact h'.2
      have hlen1 : rest.length = q + 1 := by simpa using hlen
      obtain ⟨ih1, ih2, ih3⟩ := ih
        { mem := w.mem.decQuota p, db := w.db.booked k o event, gen := gen } p ks rest
        hstore1 hrec1 hrest hlen1 hnd.2 hkeys1
      refine ⟨?_, ?_, ?_⟩
      · intro i hi
        cases i with
        | zero =>
          refine ⟨⟨o, ?_⟩, ?_⟩
          · simp only [callResults, hok, List.getElem?_cons_zero]
          · simp only [List.take_succ_cons, List.take_zero, runCalls, hok]
            rw [memQuota_of_record
              { mem := w.mem.decQuota p, db := w.db.booked k o event, gen := gen }
              hotelID roomID D p q hstore1 (by rw [hrec1])]
            congr 1
            push_cast
            omega
        | succ j =>
          obtain ⟨h1, h2⟩ := ih1 j (by omega)
          refine ⟨?_, ?_⟩
          · simpa only [callResults, hok, List.getElem?_cons_succ] using h1
          · simp only [List.take_succ_cons, runCalls, hok]
            rw [h2]
            congr 1
            push_cast
            omega
      · simpa only [callResults, hok, List.getElem?_cons_succ] using ih2
      · simpa only [runCalls, hok] using ih3

/-- C3 (witness): the amended statement for key `k1` in the seeded store, with a booking under `k2` in between and a different valid body on replay. -/
theorem C3_replay_returns_committed_order_witness :
    (withKey "k1").idempotencyKey = some "k1" ∧
    firstBooking.1 = (some firstOrder, none) ∧
    (request [oneDay (date 2024 2 27)]).validate febFirst = none ∧
    Manager.CreateOrder febFirst (memManager simple.IDs) (withKey "k1")
        (request [oneDay (date 2024 2 27)])
        (runCalls (memManager simple.IDs)
          [(febFirst, withKey "k2", request [oneDay (date 2024 2 26)])] firstBooking.2)
      = ((some firstOrder, none),
         runCalls (memManager simple.IDs)
          [(febFirst, withKey "k2", request [oneDay (date 2024 2 26)])] firstBooking.2) :=
  ⟨rfl, by decide, by decide,
   C3_replay_returns_committed_order simple.IDs "k1" febFirst (withKey "k1")
     (request [oneDay (date 2024 2 26)]) seededWorld firstBooking.2 firstOrder
     [(febFirst, withKey "k2", request [oneDay (date 2024 2 26)])]
     febFirst (withKey "k1") (request [oneDay (date 2024 2 27)]) rfl rfl
     (Prod.ext (by decide) rfl) (by decide)⟩

/-! ## Validation -/

theorem validatePlace_eq (env : Env) (m : GoMap String (List String)) (place : Place) :
    validatePlace env m place =
      addIf (Time.After place.From place.To) "place.from" "place.from must be before place.to"
        (addIf (Time.Before place.To env.now) "place.from" "place.to must not be in the past"
          (addIf (Time.Before place.From env.now) "place.from"
              "place.from must not be in the past"
            (addIf (decide (place.RoomID = "")) "place.roomID" "provide place.roomID"
              (addIf (decide (place.HotelID = "")) "place.hotelID" "provide place.hotelID"
                m)))) := by
  simp only [validatePlace, addIf, decide_eq_true_eq]

theorem validateFields_eq (env : Env) (b : BookInput) :
    b.validateFields env =
      b.Places.foldl (validatePlace env)
        (addIf (decide (b.Places.length = 0)) "places" "provide at least one place"
          (addIf (!env.parseAddress b.Payer.Email) "payer.email" "provide valid email" [])) := by
  simp only [BookInput.validateFields, addIf, decide_eq_true_eq]
  cases env.parseAddress b.Payer.Email <;> simp

theorem addError_ne_nil (m : GoMap String (List String)) (field msg : String) :
    addError m field msg ≠ [] := by
  unfold addError
  cases m with
  | nil => simp [GoMap.set]
  | cons kv rest =>
    obtain ⟨k, v⟩ := kv
    by_cases h : k = field <;> simp [GoMap.set, h]

theorem addIf_eq_nil_iff (c : Bool) (field msg : String) (m : GoMap String (List String)) :
    addIf c field msg m = [] ↔ m = [] ∧ c = false := by
  cases c
  · simp [addIf]
  · simp [addIf, addError_ne_nil]

theorem validatePlace_eq_nil_iff (env : Env) (m : GoMap String (List String)) (place : Place) :
    validatePlace env m place = [] ↔ m = [] ∧ placeValid env.now place := by
  simp only [validatePlace_eq, addIf_eq_nil_iff, placeValid, Time.After, Time.Before,
    decide_eq_false_iff_not, ne_eq]
  tauto

theorem foldl_validatePlace_eq_nil_iff (env : Env) (places : List Place)
    (m : GoMap String (List String)) :
    places.foldl (validatePlace env) m = [] ↔
      m = [] ∧ ∀ place ∈ places, placeValid env.now place := by
  induction places generalizing m with
  | nil => simp
  | cons place rest ih =>
    simp only [List.foldl_cons, ih, validatePlace_eq_nil_iff, List.mem_cons, forall_eq_or_imp]
    tauto

theorem validateFields_eq_nil_iff (env : Env) (b : BookInput) :
    b.validateFields env = [] ↔ inputValid env b := by
  rw [validateFields_eq, foldl_validatePlace_eq_nil_iff]
  simp only [addIf_eq_nil_iff, inputValid, decide_eq_false_iff_not, Bool.not_eq_false',
    List.length_eq_zero, ne_eq, true_and]
  tauto

theorem validate_eq_none_iff (env : Env) (b : BookInput) :
    b.validate env = none ↔ inputValid env b := by
  rw [← validateFields_eq_nil_iff]
  unfold BookInput.validate fieldsCount
  cases h : b.validateFields env with
  | nil => simp
  | cons kv rest => simp

/-- C17: for every request body and every clock reading, `validate` returns no error if and
only if the payer email is well formed, there is at least one place, and every place has a
non-empty hotelID, a non-empty roomID, from not before now, to not before now and from not
after to; otherwise it returns an `InputError` (with the field map it has built). -/
theorem C17_validate_decides_the_rules (env : Env) (b : BookInput) :
    (b.validate env = none ↔
      env.parseAddress b.Payer.Email = true ∧ b.Places ≠ [] ∧
      ∀ place ∈ b.Places,
        place.HotelID ≠ "" ∧ place.RoomID ≠ "" ∧ ¬ Time.Before place.From env.now = true ∧
        ¬ Time.Before place.To env.now = true ∧ ¬ Time.After place.From place.To = true) ∧
    (b.validate env ≠ none → b.validate env = some (.InputError (b.validateFields env))) := by
  constructor
  · rw [validate_eq_none_iff]
    simp only [inputValid, placeValid, Time.Before, Time.After, decide_eq_true_eq]
  · intro h
    unfold BookInput.validate at h ⊢
    by_cases hc : fieldsCount (b.validateFields env) > 0
    · simp [hc]
    · simp [hc] at h

theorem allMessages_addError (m : GoMap String (List String)) (field msg : String) :
    (allMessages (addError m field msg)).Perm (allMessages m ++ [msg]) := by
  unfold addError
  induction m with
  | nil => simp [GoMap.set, GoMap.get, allMessages]
  | cons kv rest ih =>
    obtain ⟨k, v⟩ := kv
    by_cases h : k = field
    · simp only [GoMap.set, GoMap.get, h, if_true, Option.getD_some, allMessages,
        List.flatMap_cons, List.append_assoc]
      exact List.Perm.append_left v List.perm_append_comm
    · simp only [GoMap.set, GoMap.get, h, if_false, allMessages, List.flatMap_cons,
        List.append_assoc]
      exact List.Perm.append_left v ih

theorem allMessages_addIf (c : Bool) (field msg : String) (m : GoMap String (List String)) :
    (allMessages (addIf c field msg m)).Perm (allMessages m ++ if c then [msg] else []) := by
  cases c
  · simp [addIf]
  · simpa [addIf] using allMessages_addError m field msg

theorem allMessages_validatePlace (env : Env) (m : GoMap String (List String))
    (place : Place) :
    (allMessages (validatePlace env m place)).Perm
      (allMessages m ++ placeViolations env.now place) := by
  rw [validatePlace_eq]
  refine (allMessages_addIf _ _ _ _).trans ?_
  refine ((allMessages_addIf _ _ _ _).append_right _).trans ?_
  refine (((allMessages_addIf _ _ _ _).append_right _).append_right _).trans ?_
  refine ((((allMessages_addIf _ _ _ _).append_right _).append_right _).append_right _).trans ?_
  refine (((((allMessages_addIf _ _ _ _).append_right _).append_right _).append_right
    _).append_right _).trans ?_
  simp only [placeViolations, Time.After, Time.Before, decide_eq_true_eq, List.append_assoc]
  exact List.Perm.refl _

theorem allMessages_foldl_validatePlace (env : Env) (places : List Place)
    (m : GoMap String (List String)) :
    (allMessages (places.foldl (validatePlace env) m)).Perm
      (allMessages m ++ places.flatMap (placeViolations env.now)) := by
  induction places generalizing m with
  | nil => simp
  | cons place rest ih =>
    simp only [List.foldl_cons, List.flatMap_cons]
    refine (ih _).trans ?_
    rw [← List.append_assoc]
    exact (allMessages_validatePlace env m place).append_right _

theorem allMessages_validateFields (env : Env) (b : BookInput) :
    (allMessages (b.validateFields env)).Perm (violations env b) := by
  rw [validateFields_eq]
  refine (allMessages_foldl_validatePlace env _ _).trans ?_
  refine ((allMessages_addIf _ _ _ _).append_right _).trans ?_
  refine (((allMessages_addIf _ _ _ _).append_right _).append_right _).trans ?_
  cases h : env.parseAddress b.Payer.Email <;>
    simp [violations, h, allMessages]

/-- C18: for every request body, the field map that `validate` builds holds, over all its
fields, exactly one message for each violated rule - invalid email, empty places list, and
per place: empty hotelID, empty roomID, past from, past to, from after to -, so the number
of messages equals the number of violations; and whenever a rule is violated, `validate`
returns the `InputError` that carries this field map. -/
theorem C18_validation_collects_every_violation (env : Env) (b : BookInput) :
    (allMessages (b.validateFields env)).Perm (violations env b) ∧
    (allMessages (b.validateFields env)).length = (violations env b).length ∧
    (violations env b ≠ [] → b.validate env = some (.InputError (b.validateFields env))) := by
  have hperm := allMessages_validateFields env b
  refine ⟨hperm, hperm.length_eq, ?_⟩
  intro hv
  have hne : b.validateFields env ≠ [] := by
    intro h
    rw [h] at hperm
    exact hv (List.Perm.nil_eq hperm).symm
  unfold BookInput.validate fieldsCount
  cases h : b.validateFields env with
  | nil => exact absurd h hne
  | cons kv rest => simp

/-- C18 (witness): a request with an invalid email and a place whose from is in the past
and after its to (so that its to is in the past as well) yields one message for each of
these four violations. -/
theorem C18_validation_collects_every_violation_witness :
    (allMessages (badRequest.validateFields noon26)).Perm
      ["provide valid email", "place.from must not be in the past",
       "place.to must not be in the past", "place.from must be before place.to"] ∧
    badRequest.validate noon26 = some (.InputError
      [("payer.email", ["provide valid email"]),
       ("place.from", ["place.from must not be in the past",
         "place.to must not be in the past", "place.from must be before place.to"])]) :=
  ⟨(C18_validation_collects_every_violation noon26 badRequest).1, by decide⟩

/-- C19 (counterexample): at noon of 2024-02-26 a request for the place from 2024-02-26
00:00 to 2024-02-26 00:00 - from and to on the current day, from equal to midnight of the
current day, all else valid - is rejected with an `InputError`. -/
theorem C19_midnight_of_current_day_is_rejected :
    Time.Truncate24h noon26.now = date 2024 2 26 ∧
    (request [oneDay (date 2024 2 26)]).validate noon26
      = some (.InputError [("place.from",
          ["place.from must not be in the past", "place.to must not be in the past"])]) := by
  decide

/-- C19 (amended): for every clock reading and every request body with a well-formed payer
email, at least one place and non-empty hotel and room identifiers, whose places all have
from not after to and from not before the current time as an instant (time of day
included), `validate` accepts the input - whatever the day: a from later on the current day
is accepted. -/
theorem C19_instants_not_before_now_are_accepted (env : Env) (b : BookInput)
    (hmail : env.parseAddress b.Payer.Email = true) (hplaces : b.Places ≠ [])
    (hall : ∀ place ∈ b.Places,
      place.HotelID ≠ "" ∧ place.RoomID ≠ "" ∧ env.now ≤ place.From ∧
      place.From ≤ place.To) :
    b.validate env = none := by
  rw [validate_eq_none_iff]
  refine ⟨hmail, hplaces, ?_⟩
  intro place hp
  obtain ⟨h1, h2, h3, h4⟩ := hall place hp
  have h3' : (env.now : Int) ≤ place.From := h3
  have h4' : (place.From : Int) ≤ place.To := h4
  refine ⟨h1, h2, ?_, ?_, ?_⟩
  · exact not_lt.mpr h3'
  · exact not_lt.mpr (le_trans h3' h4')
  · exact not_lt.mpr h4'

/-- C19 (witness): at noon of 2024-02-26 a request for that day from 13:00 to 14:00 is
accepted. -/
theorem C19_instants_not_before_now_are_accepted_witness :
    noon26.parseAddress "a@b.c" = true ∧
    (request [{ oneDay (date 2024 2 26) with
        From := date 2024 2 26 + 13 * 3600 * 1000000000,
        To := date 2024 2 26 + 14 * 3600 * 1000000000 }]).validate noon26 = none :=
  ⟨by decide,
   C19_instants_not_before_now_are_accepted noon26
     (request [{ oneDay (date 2024 2 26) with
        From := date 2024 2 26 + 13 * 3600 * 1000000000,
        To := date 2024 2 26 + 14 * 3600 * 1000000000 }])
     (by decide) (by decide) (by decide)⟩

/-! ## Claims about `CommitTransaction` without a key and about `GetAvailabilities` -/

/-- C11: for every store state and open transaction `t`, `CommitTransaction` called with no
idempotency key in the context (absent, or the empty string) returns the
idempotency-key-missing error and leaves the whole store - the authoritative maps, the
index and the buffer of `t` - as it was; and `CreateOrder` called with a valid body and no
idempotency key returns a nil order and an error that wraps `ErrIdempotencyKey`, and
leaves the heap, the store and the generator as they were. -/
theorem C11_no_key_no_commit {γ : Type} (db : memory.DB) (ctx : Ctx) (trxID : String)
    (trx : memory.transaction) (env : Env) (g : idGenerator γ) (input : BookInput)
    (w : World memory.DB γ)
    (hctx : ctx.transactionID = some trxID) (hne : trxID ≠ "")
    (hopen : db.transactions.get trxID = some trx)
    (hkey : ctx.idempotencyKey = none ∨ ctx.idempotencyKey = some "")
    (hvalid : input.validate env = none) :
    db.CommitTransaction ctx = (some .ErrIdempotencyKey, db) ∧
    (db.CommitTransaction ctx).2.transactions.get trxID = some trx ∧
    (∃ err, Manager.CreateOrder env (memManager g) ctx input w = ((none, some err), w) ∧
      err.Is .ErrIdempotencyKey = true) := by
  have hc : db.CommitTransaction ctx = (some .ErrIdempotencyKey, db) := by
    rcases hkey with hkey | hkey <;>
      simp [memory.DB.CommitTransaction, memory.DB.openTransaction_of_open hctx hne hopen,
        IdempotencyKeyFromContext, hkey]
  refine ⟨hc, by rw [hc]; exact hopen, _, CreateOrder_memory_nokey env g ctx input w hvalid hkey,
    by decide⟩

/-- C11 (witness): the open transaction `trx-1` of `secondWriterDB`, committed with a
context that carries no idempotency key; and the first request of the scenario sent
without a key. -/
theorem C11_no_key_no_commit_witness :
    secondWriterDB.transactions.get "trx-1" = some secondWriterTrx ∧
    (request [oneDay (date 2024 2 26)]).validate febFirst = none ∧
    secondWriterDB.CommitTransaction ⟨none, some "trx-1"⟩
      = (some .ErrIdempotencyKey, secondWriterDB) ∧
    (∃ err, Manager.CreateOrder febFirst (memManager simple.IDs) ⟨none, some "trx-1"⟩
        (request [oneDay (date 2024 2 26)]) seededWorld = ((none, some err), seededWorld) ∧
      err.Is .ErrIdempotencyKey = true) :=
  have h := C11_no_key_no_commit secondWriterDB ⟨none, some "trx-1"⟩ "trx-1" secondWriterTrx
    febFirst simple.IDs (request [oneDay (date 2024 2 26)]) seededWorld rfl (by decide)
    (by decide) (Or.inl rfl) (by decide)
  ⟨by decide, by decide, h.1, h.2.2⟩

theorem stagedRooms_cons (mem : Mem) (p : Ptr) (rest : List Ptr) (staged : GoMap String Ptr) :
    stagedRooms mem (p :: rest) staged =
      stagedRooms mem rest
        (match staged.get (storeKey (mem.cell p)) with
         | some _ => staged
         | none => staged.set (storeKey (mem.cell p)) p) := rfl

theorem stagedRooms_append (mem : Mem) (l1 l2 : List Ptr) (staged : GoMap String Ptr) :
    stagedRooms mem (l1 ++ l2) staged = stagedRooms mem l2 (stagedRooms mem l1 staged) := by
  simp only [stagedRooms, List.foldl_append]

theorem stagedRooms_keeps (mem : Mem) (avs : List Ptr) (staged : GoMap String Ptr)
    {k : String} {q : Ptr} (h : staged.get k = some q) :
    (stagedRooms mem avs staged).get k = some q := by
  induction avs generalizing staged with
  | nil => exact h
  | cons p rest ih =>
    rw [stagedRooms_cons]
    apply ih
    cases hget : staged.get (storeKey (mem.cell p)) with
    | some _ => exact h
    | none =>
      have hne : storeKey (mem.cell p) ≠ k := by
        intro heq
        rw [heq, h] at hget
        cases hget
      simp only []
      rw [GoMap.get_set_ne _ _ hne]
      exact h

theorem stagedRooms_none (mem : Mem) (avs : List Ptr) (staged : GoMap String Ptr)
    {k : String} (h : staged.get k = none) (hk : ∀ q ∈ avs, storeKey (mem.cell q) ≠ k) :
    (stagedRooms mem avs staged).get k = none := by
  induction avs generalizing staged with
  | nil => exact h
  | cons p rest ih =>
    rw [stagedRooms_cons]
    apply ih _ _ fun q hq => hk q (List.mem_cons_of_mem _ hq)
    cases hget : staged.get (storeKey (mem.cell p)) with
    | some _ => exact h
    | none =>
      simp only []
      rw [GoMap.get_set_ne _ _ (hk p (List.mem_cons_self _ _))]
      exact h

theorem stagedRooms_first (mem : Mem) (p : Ptr) (rest : List Ptr) (staged : GoMap String Ptr)
    (h : staged.get (storeKey (mem.cell p)) = none) :
    (stagedRooms mem (p :: rest) staged).get (storeKey (mem.cell p)) = some p := by
  rw [stagedRooms_cons, h]
  exact stagedRooms_keeps mem rest _ (GoMap.get_set_same _ _ _)

theorem stagedRooms_all_staged (mem : Mem) (avs : List Ptr) (staged : GoMap String Ptr) :
    ∀ p ∈ avs, (stagedRooms mem avs staged).get (storeKey (mem.cell p)) ≠ none := by
  induction avs generalizing staged with
  | nil => intro p hp; cases hp
  | cons a rest ih =>
    intro p hp
    rcases List.mem_cons.1 hp with hp | hp
    · subst hp
      cases hget : staged.get (storeKey (mem.cell p)) with
      | some q =>
        rw [stagedRooms_keeps mem _ staged hget]
        simp
      | none =>
        rw [stagedRooms_first mem p rest staged hget]
        simp
    · rw [stagedRooms_cons]
      exact ih _ p hp

namespace memory.DB

theorem stageRoom_staged (mem : Mem) (db : DB) (trx : transaction) (p : Ptr)
    (h : trx.roomModifications.get (storeKey (mem.cell p)) ≠ none) :
    stageRoom mem db trx p = trx := by
  unfold stageRoom
  simp only [storeKey] at h
  cases hget : trx.roomModifications.get
      (roomKey (mem.cell p).HotelID (mem.cell p).RoomID
        (Time.FormatRFC3339 (mem.cell p).Date)) with
  | some q => simp only [hget]
  | none => exact absurd hget h

theorem foldl_stageRoom_staged (mem : Mem) (db : DB) (trx : transaction) (avs : List Ptr)
    (h : ∀ p ∈ avs, trx.roomModifications.get (storeKey (mem.cell p)) ≠ none) :
    avs.foldl (stageRoom mem db) trx = trx := by
  induction avs with
  | nil => rfl
  | cons p rest ih =>
    simp only [List.foldl_cons]
    rw [stageRoom_staged mem db trx p (h p (List.mem_cons_self _ _))]
    exact ih fun q hq => h q (List.mem_cons_of_mem _ hq)

theorem set_open_eq {db : DB} {trxID : String} {trx : transaction}
    (h : db.transactions.get trxID = some trx) :
    ({ db with transactions := db.transactions.set trxID trx } : DB) = db := by
  rw [GoMap.set_eq_self _ h]

theorem SaveRoomAvailabilities_open {mem : Mem} {db : DB} {ctx : Ctx} {trxID : String}
    {trx : transaction} (hctx : ctx.transactionID = some trxID) (hne : trxID ≠ "")
    (hopen : db.transactions.get trxID = some trx) (avs : List Ptr) :
    SaveRoomAvailabilities mem db ctx avs
      = (none, { db with
          transactions := db.transactions.set trxID (avs.foldl (stageRoom mem db) trx) }) := by
  simp only [SaveRoomAvailabilities, openTransaction_of_open hctx hne hopen]

theorem SaveRoomAvailabilities_staged {mem : Mem} {db : DB} {ctx : Ctx} {trxID : String}
    {trx : transaction} (hctx : ctx.transactionID = some trxID) (hne : trxID ≠ "")
    (hopen : db.transactions.get trxID = some trx) (avs : List Ptr)
    (h : ∀ p ∈ avs, trx.roomModifications.get (storeKey (mem.cell p)) ≠ none) :
    SaveRoomAvailabilities mem db ctx avs = (none, db) := by
  rw [SaveRoomAvailabilities_open hctx hne hopen, foldl_stageRoom_staged mem db trx avs h,
    set_open_eq hopen]

theorem SaveOrder_staged {db : DB} {ctx : Ctx} {trxID : String} {trx : transaction}
    (hctx : ctx.transactionID = some trxID) (hne : trxID ≠ "")
    (hopen : db.transactions.get trxID = some trx) (order : Order)
    (h : trx.orderModifications.get order.ID ≠ none) :
    SaveOrder db ctx order = (none, db) := by
  simp only [SaveOrder, openTransaction_of_open hctx hne hopen]
  cases hget : trx.orderModifications.get order.ID with
  | some _ => rfl
  | none => exact absurd hget h

theorem SaveEvent_staged {db : DB} {ctx : Ctx} {trxID : String} {trx : transaction}
    (hctx : ctx.transactionID = some trxID) (hne : trxID ≠ "")
    (hopen : db.transactions.get trxID = some trx) (event : Event)
    (h : trx.eventModifications.get event.ID ≠ none) :
    SaveEvent db ctx event = (none, db) := by
  simp only [SaveEvent, openTransaction_of_open hctx hne hopen]
  cases hget : trx.eventModifications.get event.ID with
  | some _ => rfl
  | none => exact absurd hget h

theorem SaveOrder_twice {db : DB} {ctx : Ctx} {trxID : String} {trx : transaction}
    (hctx : ctx.transactionID = some trxID) (hne : trxID ≠ "")
    (hopen : db.transactions.get trxID = some trx) (order : Order) :
    (db.SaveOrder ctx order).2.SaveOrder ctx order = (none, (db.SaveOrder ctx order).2) := by
  cases hget : trx.orderModifications.get order.ID with
  | some o =>
    rw [SaveOrder_staged hctx hne hopen order (by rw [hget]; simp)]
    exact SaveOrder_staged hctx hne hopen order (by rw [hget]; simp)
  | none =>
    have h1 : db.SaveOrder ctx order = (none, { db with
        transactions := db.transactions.set trxID
          { trx with
            orderModifications := trx.orderModifications.set order.ID order,
            rollbackActions := trx.rollbackActions ++ [.deleteOrder order.ID] } }) := by
      simp only [SaveOrder, openTransaction_of_open hctx hne hopen, hget]
    rw [h1]
    exact SaveOrder_staged hctx hne (GoMap.get_set_same _ _ _) order
      (by simp [GoMap.get_set_same])

theorem SaveEvent_twice {db : DB} {ctx : Ctx} {trxID : String} {trx : transaction}
    (hctx : ctx.transactionID = some trxID) (hne : trxID ≠ "")
    (hopen : db.transactions.get trxID = some trx) (event : Event) :
    (db.SaveEvent ctx event).2.SaveEvent ctx event = (none, (db.SaveEvent ctx event).2) := by
  cases hget : trx.eventModifications.get event.ID with
  | some o =>
    rw [SaveEvent_staged hctx hne hopen event (by rw [hget]; simp)]
    exact SaveEvent_staged hctx hne hopen event (by rw [hget]; simp)
  | none =>
    have h1 : db.SaveEvent ctx event = (none, { db with
        transactions := db.transactions.set trxID
          { trx with
            eventModifications := trx.eventModifications.set event.ID event,
            rollbackActions := trx.rollbackActions ++ [.deleteEvent event.ID] } }) := by
      simp only [SaveEvent, openTransaction_of_open hctx hne hopen, hget]
    rw [h1]
    exact SaveEvent_staged hctx hne (GoMap.get_set_same _ _ _) event
      (by simp [GoMap.get_set_same])

theorem SaveRoomAvailabilities_twice {mem : Mem} {db : DB} {ctx : Ctx} {trxID : String}
    {trx : transaction} (hctx : ctx.transactionID = some trxID) (hne : trxID ≠ "")
    (hopen : db.transactions.get trxID = some trx) (avs : List Ptr) :
    SaveRoomAvailabilities mem (SaveRoomAvailabilities mem db ctx avs).2 ctx avs
      = (none, (SaveRoomAvailabilities mem db ctx avs).2) := by
  rw [SaveRoomAvailabilities_open hctx hne hopen]
  apply SaveRoomAvailabilities_staged hctx hne (GoMap.get_set_same _ _ _)
  intro p hp
  rw [stageRoom_rooms]
  exact stagedRooms_all_staged mem avs _ p hp

end memory.DB

/-- C16: for every open transaction, staging a room record whose key is already staged, an
order whose ID is already staged or an event whose ID is already staged leaves the whole
store state - the staged value and the rest of the transaction included - as it was; so
calling `SaveRoomAvailabilities`, `SaveOrder` or `SaveEvent` a second time with the same
argument changes nothing; and within one list of room records the first record of a key
not staged before is the one staged under it. -/
theorem C16_staging_is_idempotent_per_key (mem : Mem) (db : memory.DB) (ctx : Ctx)
    (trxID : String) (trx : memory.transaction)
    (hctx : ctx.transactionID = some trxID) (hne : trxID ≠ "")
    (hopen : db.transactions.get trxID = some trx) :
    (∀ p, trx.roomModifications.get (storeKey (mem.cell p)) ≠ none →
      db.SaveRoomAvailabilities mem ctx [p] = (none, db)) ∧
    (∀ order, trx.orderModifications.get order.ID ≠ none →
      db.SaveOrder ctx order = (none, db)) ∧
    (∀ event, trx.eventModifications.get event.ID ≠ none →
      db.SaveEvent ctx event = (none, db)) ∧
    (∀ avs, (db.SaveRoomAvailabilities mem ctx avs).2.SaveRoomAvailabilities mem ctx avs
      = (none, (db.SaveRoomAvailabilities mem ctx avs).2)) ∧
    (∀ order, (db.SaveOrder ctx order).2.SaveOrder ctx order
      = (none, (db.SaveOrder ctx order).2)) ∧
    (∀ event, (db.SaveEvent ctx event).2.SaveEvent ctx event
      = (none, (db.SaveEvent ctx event).2)) ∧
    (∀ l1 p l2, (∀ q ∈ l1, storeKey (mem.cell q) ≠ storeKey (mem.cell p)) →
      trx.roomModifications.get (storeKey (mem.cell p)) = none →
      ∃ trx', (db.SaveRoomAvailabilities mem ctx (l1 ++ p :: l2)).2.transactions.get trxID
          = some trx' ∧
        trx'.roomModifications.get (storeKey (mem.cell p)) = some p) := by
  refine ⟨?_, ?_, ?_, ?_, ?_, ?_, ?_⟩
  · intro p hp
    apply memory.DB.SaveRoomAvailabilities_staged hctx hne hopen
    intro q hq
    rw [List.mem_singleton] at hq
    subst hq
    exact hp
  · exact fun order h => memory.DB.SaveOrder_staged hctx hne hopen order h
  · exact fun event h => memory.DB.SaveEvent_staged hctx hne hopen event h
  · exact fun avs => memory.DB.SaveRoomAvailabilities_twice hctx hne hopen avs
  · exact fun order => memory.DB.SaveOrder_twice hctx hne hopen order
  · exact fun event => memory.DB.SaveEvent_twice hctx hne hopen event
  · intro l1 p l2 hl1 hnone
    rw [memory.DB.SaveRoomAvailabilities_open hctx hne hopen]
    refine ⟨_, GoMap.get_set_same _ _ _, ?_⟩
    rw [memory.DB.stageRoom_rooms, stagedRooms_append]
    exact stagedRooms_first mem p l2 _ (stagedRooms_none mem l1 _ hnone hl1)

/-- Witness for C16: in the store where transaction `trx-1` has staged order 8 and event 9,
staging order 8 or event 9 again changes nothing, and staging order 7 or the seed record
`0` twice gives the state that staging it once gives. -/
theorem C16_staging_is_idempotent_per_key_witness :
    (withTransactionID (withKey "k") "trx-1").transactionID = some "trx-1" ∧ "trx-1" ≠ "" ∧
    secondWriterDB.transactions.get "trx-1" = some secondWriterTrx ∧
    secondWriterDB.SaveOrder (withTransactionID (withKey "k") "trx-1")
      { order8 with Price := 99 } = (none, secondWriterDB) ∧
    secondWriterDB.SaveEvent (withTransactionID (withKey "k") "trx-1")
      { ID := 9, OrderID := 1, CreatedAt := 5 } = (none, secondWriterDB) ∧
    (secondWriterDB.SaveOrder (withTransactionID (withKey "k") "trx-1") order7).2.SaveOrder
        (withTransactionID (withKey "k") "trx-1") order7
      = (none, (secondWriterDB.SaveOrder (withTransactionID (withKey "k") "trx-1") order7).2) ∧
    (secondWriterDB.SaveRoomAvailabilities seededWorld.mem
        (withTransactionID (withKey "k") "trx-1") [0, 1]).2.SaveRoomAvailabilities
        seededWorld.mem (withTransactionID (withKey "k") "trx-1") [0, 1]
      = (none, (secondWriterDB.SaveRoomAvailabilities seededWorld.mem
          (withTransactionID (withKey "k") "trx-1") [0, 1]).2) :=
  ⟨rfl, by decide, by decide,
   (C16_staging_is_idempotent_per_key seededWorld.mem secondWriterDB
      (withTransactionID (withKey "k") "trx-1") "trx-1" secondWriterTrx rfl (by decide)
      (by decide)).2.1 { order8 with Price := 99 } (by decide),
   (C16_staging_is_idempotent_per_key seededWorld.mem secondWriterDB
      (withTransactionID (withKey "k") "trx-1") "trx-1" secondWriterTrx rfl (by decide)
      (by decide)).2.2.1 { ID := 9, OrderID := 1, CreatedAt := 5 } (by decide),
   (C16_staging_is_idempotent_per_key seededWorld.mem secondWriterDB
      (withTransactionID (withKey "k") "trx-1") "trx-1" secondWriterTrx rfl (by decide)
      (by decide)).2.2.2.2.1 order7,
   (C16_staging_is_idempotent_per_key seededWorld.mem secondWriterDB
      (withTransactionID (withKey "k") "trx-1") "trx-1" secondWriterTrx rfl (by decide)
      (by decide)).2.2.2.1 [0, 1]⟩

/-! ## Failures before the first write -/

theorem applyStrategies_error_kind (strategies : List BoostStrategy)
    (hs : ∀ s ∈ strategies, ∀ o e, (s o).2 = some e → e.isClientError = false)
    (o : Order) (err : Error) (h : Manager.applyStrategies strategies o = .error err) :
    err.isClientError = false := by
  induction strategies generalizing o with
  | nil => simp only [Manager.applyStrategies] at h; cases h
  | cons s rest ih =>
    simp only [Manager.applyStrategies] at h
    have hso := hs s (List.mem_cons_self _ _) o
    rcases hr : s o with ⟨o1, e1⟩
    rw [hr] at h hso
    cases e1 with
    | some e =>
      simp only [Except.error.injEq] at h
      subst h
      have := hso e rfl
      simpa [Error.isClientError, Error.IsInputError, Error.IsAvailabilityError] using this
    | none =>
      exact ih (fun s hs' => hs s (List.mem_cons_of_mem _ hs')) o1 h

theorem buildOrder_error_kind {γ : Type} (env : Env) (g : idGenerator γ) (ctx : Ctx)
    (input : BookInput) (gen gen' : γ) (err : Error)
    (hs : ∀ s ∈ input.BoostStrategies, ∀ o e, (s o).2 = some e → e.isClientError = false)
    (h : Manager.buildOrder env (memManager g) ctx input gen = (.error err, gen')) :
    err.isClientError = false := by
  unfold Manager.buildOrder at h
  rcases hid : (memManager g).idGenerator.GetID ctx gen with ⟨⟨id, e⟩, gen1⟩
  rw [hid] at h
  cases e with
  | some e =>
    simp only [Prod.mk.injEq, Except.error.injEq] at h
    rw [← h.1]
    rfl
  | none =>
    simp only at h
    cases hap : Manager.applyStrategies input.BoostStrategies
        { ID := id, Payer := { Email := input.Payer.Email }, Places := input.Places,
          CreatedAt := env.now, Price := 0 } with
    | error e =>
      rw [hap] at h
      simp only [Prod.mk.injEq, Except.error.injEq] at h
      rw [← h.1]
      exact applyStrategies_error_kind _ hs _ _ hap
    | ok order =>
      rw [hap] at h
      simp only at h
      unfold Manager.buildEvent at h
      rcases hid2 : (memManager g).idGenerator.GetID ctx gen1 with ⟨⟨id2, e2⟩, gen2⟩
      rw [hid2] at h
      cases e2 with
      | some e =>
        simp only [Prod.mk.injEq, Except.error.injEq] at h
        rw [← h.1]
        rfl
      | none => simp at h

theorem updateRoomAvailabilities_error_kind (input : BookInput) (avs : List Ptr)
    (mem mem' : Mem) (err : Error)
    (h : Manager.updateRoomAvailabilities input avs mem = (.error err, mem')) :
    err.isClientError = false := by
  unfold Manager.updateRoomAvailabilities at h
  rcases hup : Manager.updatePlaces (Manager.availabilityMap mem avs) input.Places [] mem with
    ⟨r, mem1⟩
  simp only [hup] at h
  cases r with
  | some u => simp at h
  | none =>
    simp only [Prod.mk.injEq, Except.error.injEq] at h
    rw [← h.1]
    rfl

theorem bookFresh_client_error {γ : Type} (env : Env) (g : idGenerator γ) (ctx : Ctx)
    (key : String) (input : BookInput) (w : World memory.DB γ)
    (hs : ∀ s ∈ input.BoostStrategies, ∀ o e, (s o).2 = some e → e.isClientError = false)
    (err : Error) (herr : (bookFresh env g ctx key input w).1.2 = some err)
    (hkind : err.isClientError = true) :
    (bookFresh env g ctx key input w).2 = w := by
  unfold bookFresh at herr ⊢
  rcases hga : w.db.GetAvailabilities w.mem (queries input.prepareDates) with ⟨avs, e⟩
  rw [hga] at herr
  cases e with
  | some e => rfl
  | none =>
    simp only at herr ⊢
    rcases hup : Manager.updateRoomAvailabilities input.prepareDates avs w.mem with ⟨r, mem⟩
    rw [hup] at herr
    cases r with
    | error e =>
      simp only [Option.some.injEq] at herr
      have hk := updateRoomAvailabilities_error_kind _ _ _ _ _ hup
      subst herr
      simp [Error.isClientError, Error.IsInputError, Error.IsAvailabilityError] at hk hkind
      simp [hk] at hkind
    | ok avs2 =>
      simp only at herr ⊢
      rcases hbo : Manager.buildOrder env (memManager g) ctx input.prepareDates w.gen with
        ⟨r, gen⟩
      rw [hbo] at herr
      cases r with
      | error e =>
        simp only [Option.some.injEq] at herr
        have hk := buildOrder_error_kind env g ctx input.prepareDates w.gen gen e hs hbo
        subst herr
        simp [Error.isClientError, Error.IsInputError, Error.IsAvailabilityError] at hk hkind
        simp [hk] at hkind
      | ok oe =>
        obtain ⟨order, event⟩ := oe
        simp at herr

/-- C20 (counterexample): the claim quantifies over every `BookInput`, and the price
strategies are part of it. With a strategy whose `Apply` returns an `AvailabilityError`,
`CreateOrder` returns an error that `IsAvailabilityError` recognises, yet an ID has been
drawn from the generator and the quota of the requested room-day has dropped from 2 to 1. -/
theorem C20_strategy_error_is_reported_after_side_effects :
    (Manager.CreateOrder febFirst appManager (withKey "k1")
        { request [oneDay (date 2024 2 26)] with BoostStrategies := [soldOutStrategy] }
        seededWorld).1
      = (none, some (.wrap "build order"
          (.wrap "apply strategy to order" (.AvailabilityError [])))) ∧
    (Error.wrap "build order"
      (.wrap "apply strategy to order" (.AvailabilityError []))).IsAvailabilityError
      = some [] ∧
    seededWorld.gen.counter = 0 ∧
    (Manager.CreateOrder febFirst appManager (withKey "k1")
        { request [oneDay (date 2024 2 26)] with BoostStrategies := [soldOutStrategy] }
        seededWorld).2.gen.counter = 1 ∧
    memQuota seededWorld "reddison" "lux" (date 2024 2 26) = some 2 ∧
    memQuota (Manager.CreateOrder febFirst appManager (withKey "k1")
        { request [oneDay (date 2024 2 26)] with BoostStrategies := [soldOutStrategy] }
        seededWorld).2 "reddison" "lux" (date 2024 2 26) = some 1 := by
  decide

/-- C20 (amended): over the in-memory store and any ID generator, when no price strategy of
the input returns an error that `IsInputError` or `IsAvailabilityError` recognises, a call
of `CreateOrder` that returns an error recognised by one of the two leaves the whole state
as it was: the generator (no ID drawn), the store (no transaction opened; rooms, orders,
events, idempotency index and open transactions unchanged) and the records in memory. -/
theorem C20_validation_and_availability_failures_are_side_effect_free {γ : Type}
    (env : Env) (g : idGenerator γ) (ctx : Ctx) (input : BookInput) (w : World memory.DB γ)
    (hs : ∀ s ∈ input.BoostStrategies, ∀ o e, (s o).2 = some e → e.isClientError = false)
    (err : Error)
    (herr : (Manager.CreateOrder env (memManager g) ctx input w).1.2 = some err)
    (hkind : err.IsInputError ≠ none ∨ err.IsAvailabilityError ≠ none) :
    (Manager.CreateOrder env (memManager g) ctx input w).2 = w := by
  have hk : err.isClientError = true := by
    rcases hkind with h | h
    · cases hi : err.IsInputError with
      | none => exact absurd hi h
      | some f => simp [Error.isClientError, hi]
    · cases hi : err.IsAvailabilityError with
      | none => exact absurd hi h
      | some f => simp [Error.isClientError, hi]
  cases hv : input.validate env with
  | some e => rw [CreateOrder_memory_invalid env g ctx input w hv]
  | none =>
    cases hkey : ctx.idempotencyKey with
    | none => rw [CreateOrder_memory_nokey env g ctx input w hv (Or.inl hkey)]
    | some key =>
      by_cases hkne : key = ""
      · subst hkne
        rw [CreateOrder_memory_nokey env g ctx input w hv (Or.inr hkey)]
      · cases hidx : w.db.orderIdempotencyKeys.get key with
        | some o => rw [CreateOrder_memory_replay env g ctx input w hv hkey hkne hidx]
        | none =>
          rw [CreateOrder_memory_fresh env g ctx input w hv hkey hkne hidx] at herr ⊢
          exact bookFresh_client_error env g ctx key input w hs err herr hk

/-- Witness for C20: a request for a day that the store does not hold is refused with an
availability error and leaves the seeded state as it was. -/
theorem C20_validation_and_availability_failures_are_side_effect_free_witness :
    (Manager.CreateOrder febFirst (memManager simple.IDs) (withKey "k1")
        (request [oneDay (date 2024 3 5)]) seededWorld).1.2
      = some (.wrap "get availabilities" (.wrap "get availabilities from storage"
          (.AvailabilityError [⟨"reddison", "lux", [date 2024 3 5]⟩]))) ∧
    (Manager.CreateOrder febFirst (memManager simple.IDs) (withKey "k1")
        (request [oneDay (date 2024 3 5)]) seededWorld).2 = seededWorld :=
  ⟨by decide,
   C20_validation_and_availability_failures_are_side_effect_free febFirst simple.IDs
     (withKey "k1") (request [oneDay (date 2024 3 5)]) seededWorld
     (fun s h => absurd h (List.not_mem_nil s))
     (.wrap "get availabilities" (.wrap "get availabilities from storage"
        (.AvailabilityError [⟨"reddison", "lux", [date 2024 3 5]⟩])))
     (by decide) (Or.inr (by decide))⟩

/-! ## Handles are issued once -/

theorem digitChar_toNat (n : Nat) : (Time.digitChar n).toNat - 48 = n % 10 := by
  unfold Time.digitChar
  have hk : n % 10 < 10 := Nat.mod_lt _ (by decide)
  generalize n % 10 = k at hk
  interval_cases k <;> decide

theorem digitsValue_digitsAux (fuel n : Nat) (acc : List Char) (h : n < 10 ^ fuel) :
    digitsValue (Time.digitsAux fuel n acc) 0 = digitsValue acc n := by
  induction fuel generalizing n acc with
  | zero =>
    have hn : n = 0 := by simpa using h
    subst hn
    rfl
  | succ fuel ih =>
    unfold Time.digitsAux
    by_cases h10 : n < 10
    · simp only [h10, if_true]
      simp only [digitsValue, List.foldl_cons, digitChar_toNat, Nat.mod_eq_of_lt h10,
        Nat.zero_mul, Nat.zero_add]
    · simp only [h10, if_false]
      have hdiv : n / 10 < 10 ^ fuel := by
        rw [pow_succ] at h
        omega
      rw [ih (n / 10) _ hdiv]
      simp only [digitsValue, List.foldl_cons, digitChar_toNat]
      have hn : n / 10 * 10 + n % 10 = n := by omega
      rw [hn]

theorem fmtInt_injective {a b : Int} (ha : 0 ≤ a) (hb : 0 ≤ b)
    (h : Time.fmtInt a = Time.fmtInt b) : a = b := by
  unfold Time.fmtInt at h
  simp only [not_lt.2 ha, not_lt.2 hb, if_false] at h
  have hd := congrArg String.data h
  simp only at hd
  have hv := congrArg (fun cs => digitsValue cs 0) hd
  simp only at hv
  have hlt : ∀ n : Nat, n < 10 ^ (n + 1) := fun n =>
    lt_of_lt_of_le (Nat.lt_pow_self (by decide) n)
      (Nat.pow_le_pow_right (by decide) (Nat.le_succ n))
  rw [digitsValue_digitsAux _ _ _ (hlt _), digitsValue_digitsAux _ _ _ (hlt _)] at hv
  simp only [digitsValue, List.foldl_nil] at hv
  omega

theorem string_append_left_cancel {a b s : String} (h : s ++ a = s ++ b) : a = b := by
  apply String.ext
  have := congrArg String.data h
  simp only [String.data_append] at this
  exact List.append_cancel_left this

theorem trxName_injective {a b : Int} (ha : 0 ≤ a) (hb : 0 ≤ b) (h : trxName a = trxName b) :
    a = b :=
  fmtInt_injective ha hb (string_append_left_cancel h)

theorem trxName_ne_empty (n : Int) : trxName n ≠ "" := trxID_ne_empty n

theorem GoMap.get_del_some {K V : Type} [DecidableEq K] {m : GoMap K V} {k k' : K} {v : V}
    (h : (m.del k).get k' = some v) : k ≠ k' ∧ m.get k' = some v := by
  by_cases hk : k = k'
  · subst hk
    rw [GoMap.get_del_same] at h
    cases h
  · rw [GoMap.get_del_ne _ hk] at h
    exact ⟨hk, h⟩

namespace memory.DB

theorem openTransaction_cases (db : DB) (ctx : Ctx) :
    (∃ e, openTransaction db ctx = .error e) ∨
    ∃ trxID trx, ctx.transactionID = some trxID ∧ trxID ≠ "" ∧
      db.transactions.get trxID = some trx ∧ openTransaction db ctx = .ok (trxID, trx) := by
  cases hctx : ctx.transactionID with
  | none =>
    exact Or.inl ⟨.ErrTransactionIDNotFoundInCtx,
      by simp [openTransaction, transactionIDFromContext, hctx]⟩
  | some trxID =>
    by_cases hne : trxID = ""
    · exact Or.inl ⟨.ErrTransactionIDNotFoundInCtx,
        by simp [openTransaction, transactionIDFromContext, hctx, hne]⟩
    · cases hopen : db.transactions.get trxID with
      | none =>
        exact Or.inl ⟨.wrap ("transaction " ++ trxID ++ " not found") .ErrTransactionNotFound,
          by simp [openTransaction, transactionIDFromContext, hctx, hne, hopen]⟩
      | some trx =>
        exact Or.inr ⟨trxID, trx, rfl, hne, hopen, openTransaction_of_open hctx hne hopen⟩

theorem openTransaction_consumed {db : DB} {ctx : Ctx} {h : String}
    (hctx : ctx.transactionID = some h) (hc : db.consumed h) :
    openTransaction db ctx
      = .error (.wrap ("transaction " ++ h ++ " not found") .ErrTransactionNotFound) := by
  obtain ⟨hnone, n, _, _, hn⟩ := hc
  have hne : h ≠ "" := by rw [hn]; exact trxName_ne_empty n
  simp [openTransaction, transactionIDFromContext, hctx, hne, hnone]

theorem CommitTransaction_open {db : DB} {ctx : Ctx} {trxID : String} {trx : transaction}
    (hctx : ctx.transactionID = some trxID) (hne : trxID ≠ "")
    (hopen : db.transactions.get trxID = some trx) :
    (db.CommitTransaction ctx = (some .ErrIdempotencyKey, db)) ∨
    ((db.CommitTransaction ctx).1 = none ∧
      (db.CommitTransaction ctx).2.transactions = db.transactions.del trxID ∧
      (db.CommitTransaction ctx).2.nextTrxID = db.nextTrxID) := by
  cases hkey : ctx.idempotencyKey with
  | none =>
    left
    simp only [CommitTransaction, openTransaction_of_open hctx hne hopen,
      IdempotencyKeyFromContext, hkey]
  | some key =>
    by_cases hkne : key = ""
    · left
      simp only [CommitTransaction, openTransaction_of_open hctx hne hopen,
        IdempotencyKeyFromContext, hkey, hkne, if_true]
    · right
      rw [CommitTransaction_eq hctx hne hopen hkey hkne]
      exact ⟨rfl, rfl, rfl⟩

theorem RollbackTransaction_open {db : DB} {ctx : Ctx} {trxID : String} {trx : transaction}
    (hctx : ctx.transactionID = some trxID) (hne : trxID ≠ "")
    (hopen : db.transactions.get trxID = some trx) :
    (db.RollbackTransaction ctx).1 = none ∧
      (db.RollbackTransaction ctx).2.transactions = db.transactions.del trxID ∧
      (db.RollbackTransaction ctx).2.nextTrxID = db.nextTrxID := by
  have heq : db.RollbackTransaction ctx = (none,
      { trx.rollbackActions.foldl runRollbackAction db with
        transactions := (trx.rollbackActions.foldl runRollbackAction db).transactions.del
          trxID }) := by
    simp only [RollbackTransaction, openTransaction_of_open hctx hne hopen]
  obtain ⟨_, h2, h3⟩ := rollback_index trx.rollbackActions db
  rw [heq]
  exact ⟨rfl, congrArg (fun m => GoMap.del m trxID) h2, h3⟩

end memory.DB

theorem StoreOp.run_registerStep (op : StoreOp) (db : memory.DB) :
    memory.DB.registerStep db (op.run db).2 := by
  cases op with
  | begin ctx level => exact .opened _ rfl rfl
  | commit ctx =>
    rcases memory.DB.openTransaction_cases db ctx with ⟨e, he⟩ | ⟨k, trx, hctx, hne, hopen, _⟩
    · refine .same ?_ ?_ <;> simp only [StoreOp.run, memory.DB.CommitTransaction, he]
    · rcases memory.DB.CommitTransaction_open hctx hne hopen with h | ⟨_, ht, hn⟩
      · refine .same ?_ ?_ <;> simp only [StoreOp.run, h]
      · exact .closed k ht hn
  | rollback ctx =>
    rcases memory.DB.openTransaction_cases db ctx with ⟨e, he⟩ | ⟨k, trx, hctx, hne, hopen, _⟩
    · refine .same ?_ ?_ <;> simp only [StoreOp.run, memory.DB.RollbackTransaction, he]
    · obtain ⟨_, ht, hn⟩ := memory.DB.RollbackTransaction_open hctx hne hopen
      exact .closed k ht hn
  | saveRooms mem ctx avs =>
    rcases memory.DB.openTransaction_cases db ctx with ⟨e, he⟩ | ⟨k, trx, hctx, hne, hopen, _⟩
    · refine .same ?_ ?_ <;> simp only [StoreOp.run, memory.DB.SaveRoomAvailabilities, he]
    · refine .staged k trx (avs.foldl (memory.DB.stageRoom mem db) trx) hopen ?_ ?_ <;>
        simp only [StoreOp.run, memory.DB.SaveRoomAvailabilities_open hctx hne hopen]
  | saveOrder ctx order =>
    rcases memory.DB.openTransaction_cases db ctx with ⟨e, he⟩ | ⟨k, trx, hctx, hne, hopen, ho⟩
    · refine .same ?_ ?_ <;> simp only [StoreOp.run, memory.DB.SaveOrder, he]
    · cases hget : trx.orderModifications.get order.ID with
      | some o => refine .same ?_ ?_ <;> simp only [StoreOp.run, memory.DB.SaveOrder, ho, hget]
      | none =>
        refine .staged k trx
          { trx with
            orderModifications := trx.orderModifications.set order.ID order,
            rollbackActions := trx.rollbackActions ++ [.deleteOrder order.ID] } hopen ?_ ?_ <;>
          simp only [StoreOp.run, memory.DB.SaveOrder, ho, hget]
  | saveEvent ctx event =>
    rcases memory.DB.openTransaction_cases db ctx with ⟨e, he⟩ | ⟨k, trx, hctx, hne, hopen, ho⟩
    · refine .same ?_ ?_ <;> simp only [StoreOp.run, memory.DB.SaveEvent, he]
    · cases hget : trx.eventModifications.get event.ID with
      | some o => refine .same ?_ ?_ <;> simp only [StoreOp.run, memory.DB.SaveEvent, ho, hget]
      | none =>
        refine .staged k trx
          { trx with
            eventModifications := trx.eventModifications.set event.ID event,
            rollbackActions := trx.rollbackActions ++ [.deleteEvent event.ID] } hopen ?_ ?_ <;>
          simp only [StoreOp.run, memory.DB.SaveEvent, ho, hget]

namespace memory.DB

theorem handlesIssued_New : New.handlesIssued :=
  ⟨le_refl _, fun k trx h => by simp [New, GoMap.get] at h⟩

theorem registerStep.handlesIssued {db db' : DB} (hs : registerStep db db')
    (hi : db.handlesIssued) : db'.handlesIssued := by
  obtain ⟨h0, hall⟩ := hi
  cases hs with
  | same ht hn =>
    refine ⟨by rw [hn]; exact h0, fun k trx hk => ?_⟩
    rw [ht] at hk
    rw [hn]
    exact hall k trx hk
  | closed k0 ht hn =>
    refine ⟨by rw [hn]; exact h0, fun k trx hk => ?_⟩
    rw [ht] at hk
    rw [hn]
    exact hall k trx (GoMap.get_del_some hk).2
  | staged k0 old new hk0 ht hn =>
    refine ⟨by rw [hn]; exact h0, fun k trx hk => ?_⟩
    rw [ht] at hk
    rw [hn]
    by_cases hkk : k0 = k
    · subst hkk
      exact hall k0 old hk0
    · rw [GoMap.get_set_ne _ _ hkk] at hk
      exact hall k trx hk
  | opened new ht hn =>
    refine ⟨by rw [hn]; omega, fun k trx hk => ?_⟩
    rw [ht] at hk
    rw [hn]
    by_cases hkk : trxName db.nextTrxID = k
    · exact ⟨db.nextTrxID, h0, by omega, hkk.symm⟩
    · rw [GoMap.get_set_ne _ _ hkk] at hk
      obtain ⟨n, hn0, hn1, hn2⟩ := hall k trx hk
      exact ⟨n, hn0, by omega, hn2⟩

theorem registerStep.consumed {db db' : DB} (hs : registerStep db db') {h : String}
    (hc : db.consumed h) : db'.consumed h := by
  obtain ⟨hnone, n, hn0, hn1, hn2⟩ := hc
  cases hs with
  | same ht hn => exact ⟨by rw [ht]; exact hnone, n, hn0, by rw [hn]; exact hn1, hn2⟩
  | closed k0 ht hn =>
    refine ⟨?_, n, hn0, by rw [hn]; exact hn1, hn2⟩
    rw [ht]
    by_cases hkk : k0 = h
    · rw [hkk]; exact GoMap.get_del_same _ _
    · rw [GoMap.get_del_ne _ hkk]; exact hnone
  | staged k0 old new hk0 ht hn =>
    refine ⟨?_, n, hn0, by rw [hn]; exact hn1, hn2⟩
    rw [ht]
    have hkk : k0 ≠ h := by
      intro heq
      rw [heq, hnone] at hk0
      cases hk0
    rw [GoMap.get_set_ne _ _ hkk]
    exact hnone
  | opened new ht hn =>
    refine ⟨?_, n, hn0, by rw [hn]; omega, hn2⟩
    rw [ht]
    have hkk : trxName db.nextTrxID ≠ h := by
      intro heq
      rw [hn2] at heq
      have := trxName_injective (by omega) hn0 heq
      omega
    rw [GoMap.get_set_ne _ _ hkk]
    exact hnone

end memory.DB

theorem runOps_append (ops ops' : List StoreOp) (db : memory.DB) :
    runOps (ops ++ ops') db = runOps ops' (runOps ops db) := by
  simp only [runOps, List.foldl_append]

theorem runOps_handlesIssued (ops : List StoreOp) (db : memory.DB) (hi : db.handlesIssued) :
    (runOps ops db).handlesIssued := by
  induction ops generalizing db with
  | nil => exact hi
  | cons op rest ih => exact ih _ ((op.run_registerStep db).handlesIssued hi)

theorem runOps_consumed (ops : List StoreOp) (db : memory.DB) {h : String}
    (hc : db.consumed h) : (runOps ops db).consumed h := by
  induction ops generalizing db with
  | nil => exact hc
  | cons op rest ih => exact ih _ ((op.run_registerStep db).consumed hc)

theorem StoreOp.closes_consumes {op : StoreOp} {db : memory.DB} {h : String}
    (hop : op.closes h) (hi : db.handlesIssued) (hok : (op.run db).1 = none) :
    (op.run db).2.consumed h := by
  cases op with
  | begin ctx level => exact hop.elim
  | saveRooms mem ctx avs => exact hop.elim
  | saveOrder ctx order => exact hop.elim
  | saveEvent ctx event => exact hop.elim
  | commit ctx =>
    have hctx : ctx.transactionID = some h := hop
    rcases memory.DB.openTransaction_cases db ctx with ⟨e, he⟩ | ⟨k, trx, hctx', hne, hopen, _⟩
    · simp [StoreOp.run, memory.DB.CommitTransaction, he] at hok
    · rw [hctx] at hctx'
      cases hctx'
      obtain ⟨n, hn0, hn1, hn2⟩ := hi.2 h trx hopen
      rcases memory.DB.CommitTransaction_open hctx hne hopen with hfail | ⟨_, ht, hn⟩
      · simp [StoreOp.run, hfail] at hok
      · refine ⟨?_, n, hn0, ?_, hn2⟩
        · simp only [StoreOp.run, ht]
          exact GoMap.get_del_same _ _
        · simp only [StoreOp.run, hn]
          exact hn1
  | rollback ctx =>
    have hctx : ctx.transactionID = some h := hop
    rcases memory.DB.openTransaction_cases db ctx with ⟨e, he⟩ | ⟨k, trx, hctx', hne, hopen, _⟩
    · simp [StoreOp.run, memory.DB.RollbackTransaction, he] at hok
    · rw [hctx] at hctx'
      cases hctx'
      obtain ⟨n, hn0, hn1, hn2⟩ := hi.2 h trx hopen
      obtain ⟨_, ht, hn⟩ := memory.DB.RollbackTransaction_open hctx hne hopen
      refine ⟨?_, n, hn0, ?_, hn2⟩
      · simp only [StoreOp.run, ht]
        exact GoMap.get_del_same _ _
      · simp only [StoreOp.run, hn]
        exact hn1

theorem StoreOp.run_consumed {op : StoreOp} {db : memory.DB} {h : String}
    (hop : op.carries h) (hc : db.consumed h) :
    op.run db
      = (some (.wrap ("transaction " ++ h ++ " not found") .ErrTransactionNotFound), db) := by
  cases op with
  | begin ctx level => exact hop.elim
  | commit ctx =>
    simp only [StoreOp.run, memory.DB.CommitTransaction,
      memory.DB.openTransaction_consumed hop hc]
  | rollback ctx =>
    simp only [StoreOp.run, memory.DB.RollbackTransaction,
      memory.DB.openTransaction_consumed hop hc]
  | saveRooms mem ctx avs =>
    simp only [StoreOp.run, memory.DB.SaveRoomAvailabilities,
      memory.DB.openTransaction_consumed hop hc]
  | saveOrder ctx order =>
    simp only [StoreOp.run, memory.DB.SaveOrder, memory.DB.openTransaction_consumed hop hc]
  | saveEvent ctx event =>
    simp only [StoreOp.run, memory.DB.SaveEvent, memory.DB.openTransaction_consumed hop hc]

/-- C14: in the store that any sequence `before` of calls has made of `memory.New`, let a
`CommitTransaction` or `RollbackTransaction` carrying the handle `h` succeed, and let any
sequence `later` of calls follow, `BeginTransaction` calls included. Then every
`SaveRoomAvailabilities`, `SaveOrder`, `SaveEvent`, `CommitTransaction` or
`RollbackTransaction` carrying `h` returns the error `transaction h not found`, which is
`ErrTransactionNotFound`, and leaves the store as it was; and a `BeginTransaction` issues
a handle other than `h`. The counter is the `int64` of the source while it is below
`2 ^ 63`, which `hfit` records; the proof makes no use of the bound. -/
theorem C14_transaction_is_consumed_once (before later : List StoreOp)
    (closing use : StoreOp) (h : String)
    (hclosing : closing.closes h)
    (hok : (closing.run (runOps before memory.New)).1 = none)
    (huse : use.carries h)
    (hfit : (runOps later (closing.run (runOps before memory.New)).2).nextTrxID < 2 ^ 63) :
    use.run (runOps later (closing.run (runOps before memory.New)).2)
      = (some (.wrap ("transaction " ++ h ++ " not found") .ErrTransactionNotFound),
         runOps later (closing.run (runOps before memory.New)).2) ∧
    errorsIs (use.run (runOps later (closing.run (runOps before memory.New)).2)).1
      .ErrTransactionNotFound = true ∧
    ∀ ctx level,
      ((runOps later (closing.run (runOps before memory.New)).2).BeginTransaction
        ctx level).1.1.transactionID ≠ some h := by
  have _ := hfit
  have hi := runOps_handlesIssued before memory.New memory.DB.handlesIssued_New
  have hc := runOps_consumed later _ (StoreOp.closes_consumes hclosing hi hok)
  have hrun := StoreOp.run_consumed huse hc
  refine ⟨hrun, ?_, ?_⟩
  · rw [hrun]
    simp [errorsIs, Error.Is]
  · intro ctx level heq
    obtain ⟨_, n, hn0, hn1, hn2⟩ := hc
    simp only [memory.DB.BeginTransaction, withTransactionID, Option.some.injEq] at heq
    have heq' : trxName
        (runOps later (closing.run (runOps before memory.New)).2).nextTrxID = trxName n := by
      rw [← hn2]
      exact heq
    have := trxName_injective (by omega) hn0 heq'
    omega

/-- Witness for C14: transaction `trx-0` stages order 7 and commits; two more transactions
are begun; then staging order 8 under `trx-0` fails and changes nothing. -/
theorem C14_transaction_is_consumed_once_witness :
    (StoreOp.run (.commit ⟨some "k", some "trx-0"⟩)
      (runOps [.begin (withKey "k") "", .saveOrder ⟨some "k", some "trx-0"⟩ order7]
        memory.New)).1 = none ∧
    StoreOp.run (.saveOrder ⟨some "x", some "trx-0"⟩ order8)
      (runOps [.begin ⟨none, none⟩ "", .begin ⟨none, none⟩ ""]
        (StoreOp.run (.commit ⟨some "k", some "trx-0"⟩)
          (runOps [.begin (withKey "k") "", .saveOrder ⟨some "k", some "trx-0"⟩ order7]
            memory.New)).2)
      = (some (.wrap ("transaction " ++ "trx-0" ++ " not found") .ErrTransactionNotFound),
         runOps [.begin ⟨none, none⟩ "", .begin ⟨none, none⟩ ""]
          (StoreOp.run (.commit ⟨some "k", some "trx-0"⟩)
            (runOps [.begin (withKey "k") "", .saveOrder ⟨some "k", some "trx-0"⟩ order7]
              memory.New)).2) :=
  ⟨by decide,
   (C14_transaction_is_consumed_once
      [.begin (withKey "k") "", .saveOrder ⟨some "k", some "trx-0"⟩ order7]
      [.begin ⟨none, none⟩ "", .begin ⟨none, none⟩ ""]
      (.commit ⟨some "k", some "trx-0"⟩) (.saveOrder ⟨some "x", some "trx-0"⟩ order8) "trx-0"
      (by decide) (by decide) (by decide) (by decide)).1⟩

/-! ## Staged writes and the readers -/

namespace memory.DB

theorem scanDay_congr (mem : Mem) {db db' : DB}
    (h : db'.roomAvailabilities = db.roomAvailabilities) :
    scanDay mem db' = scanDay mem db := by
  funext input s d
  simp only [scanDay, h]

theorem GetAvailabilities_congr (mem : Mem) {db db' : DB}
    (h : db'.roomAvailabilities = db.roomAvailabilities) (inputs : List GetAvailabilityInput) :
    db'.GetAvailabilities mem inputs = db.GetAvailabilities mem inputs := by
  have hs : scanInput mem db' = scanInput mem db := by
    funext s input
    simp only [scanInput, scanDay_congr mem h]
  simp only [GetAvailabilities, hs]

theorem GetOrderByIdempotencyKey_congr {db db' : DB}
    (h : db'.orderIdempotencyKeys = db.orderIdempotencyKeys) (ctx : Ctx) :
    db'.GetOrderByIdempotencyKey ctx = db.GetOrderByIdempotencyKey ctx := by
  simp only [GetOrderByIdempotencyKey, h]

end memory.DB

theorem StoreOp.stages_maps {op : StoreOp} (hop : op.stages) (db : memory.DB) :
    (op.run db).2.roomAvailabilities = db.roomAvailabilities ∧
    (op.run db).2.orders = db.orders ∧
    (op.run db).2.events = db.events ∧
    (op.run db).2.orderIdempotencyKeys = db.orderIdempotencyKeys := by
  cases op with
  | commit ctx => exact hop.elim
  | rollback ctx => exact hop.elim
  | begin ctx level => exact ⟨rfl, rfl, rfl, rfl⟩
  | saveRooms mem ctx avs =>
    rcases memory.DB.openTransaction_cases db ctx with ⟨e, he⟩ | ⟨k, trx, hctx, hne, hopen, _⟩
    · simp only [StoreOp.run, memory.DB.SaveRoomAvailabilities, he, and_self]
    · simp only [StoreOp.run, memory.DB.SaveRoomAvailabilities_open hctx hne hopen, and_self]
  | saveOrder ctx order =>
    rcases memory.DB.openTransaction_cases db ctx with ⟨e, he⟩ | ⟨k, trx, hctx, hne, hopen, ho⟩
    · simp only [StoreOp.run, memory.DB.SaveOrder, he, and_self]
    · cases hget : trx.orderModifications.get order.ID <;>
        simp only [StoreOp.run, memory.DB.SaveOrder, ho, hget, and_self]
  | saveEvent ctx event =>
    rcases memory.DB.openTransaction_cases db ctx with ⟨e, he⟩ | ⟨k, trx, hctx, hne, hopen, ho⟩
    · simp only [StoreOp.run, memory.DB.SaveEvent, he, and_self]
    · cases hget : trx.eventModifications.get event.ID <;>
        simp only [StoreOp.run, memory.DB.SaveEvent, ho, hget, and_self]

theorem StoreOp.stages_others {op : StoreOp} (hop : op.stages) {db : memory.DB}
    (hi : db.handlesIssued) {k : String} {trx : memory.transaction}
    (hk : db.transactions.get k = some trx) (hother : op.handle ≠ some k) :
    (op.run db).2.transactions.get k = some trx := by
  cases op with
  | commit ctx => exact hop.elim
  | rollback ctx => exact hop.elim
  | begin ctx level =>
    obtain ⟨n, hn0, hn1, hn2⟩ := hi.2 k trx hk
    have hne : trxName db.nextTrxID ≠ k := by
      intro heq
      rw [hn2] at heq
      have := trxName_injective hi.1 hn0 heq
      omega
    simp only [StoreOp.run, memory.DB.BeginTransaction]
    exact (GoMap.get_set_ne _ _ hne).trans hk
  | saveRooms mem ctx avs =>
    rcases memory.DB.openTransaction_cases db ctx with ⟨e, he⟩ | ⟨k', trx', hctx, hne, hopen, _⟩
    · simp only [StoreOp.run, memory.DB.SaveRoomAvailabilities, he, hk]
    · have hkk : k' ≠ k := fun heq => hother (by rw [← heq]; exact hctx)
      simp only [StoreOp.run, memory.DB.SaveRoomAvailabilities_open hctx hne hopen]
      exact (GoMap.get_set_ne _ _ hkk).trans hk
  | saveOrder ctx order =>
    rcases memory.DB.openTransaction_cases db ctx with ⟨e, he⟩ | ⟨k', trx', hctx, hne, hopen, ho⟩
    · simp only [StoreOp.run, memory.DB.SaveOrder, he, hk]
    · have hkk : k' ≠ k := fun heq => hother (by rw [← heq]; exact hctx)
      cases hget : trx'.orderModifications.get order.ID with
      | some o => simp only [StoreOp.run, memory.DB.SaveOrder, ho, hget, hk]
      | none =>
        simp only [StoreOp.run, memory.DB.SaveOrder, ho, hget]
        exact (GoMap.get_set_ne _ _ hkk).trans hk
  | saveEvent ctx event =>
    rcases memory.DB.openTransaction_cases db ctx with ⟨e, he⟩ | ⟨k', trx', hctx, hne, hopen, ho⟩
    · simp only [StoreOp.run, memory.DB.SaveEvent, he, hk]
    · have hkk : k' ≠ k := fun heq => hother (by rw [← heq]; exact hctx)
      cases hget : trx'.eventModifications.get event.ID with
      | some o => simp only [StoreOp.run, memory.DB.SaveEvent, ho, hget, hk]
      | none =>
        simp only [StoreOp.run, memory.DB.SaveEvent, ho, hget]
        exact (GoMap.get_set_ne _ _ hkk).trans hk

/-- C15: in every store that a sequence of calls has made of `memory.New`, a call of
`BeginTransaction`, `SaveRoomAvailabilities`, `SaveOrder` or `SaveEvent` leaves the room
map, the orders, the events and the idempotency index as they were, so that
`GetAvailabilities` and `GetOrderByIdempotencyKey` return what they returned before, and
leaves the buffer of every open transaction other than the one the call carries as it was.
The counter is the `int64` of the source while it is below `2 ^ 63`, which `hfit`
records; the proof makes no use of the bound. -/
theorem C15_staged_writes_are_invisible (ops : List StoreOp) (op : StoreOp)
    (hop : op.stages) (hfit : (op.run (runOps ops memory.New)).2.nextTrxID < 2 ^ 63) :
    (op.run (runOps ops memory.New)).2.roomAvailabilities
      = (runOps ops memory.New).roomAvailabilities ∧
    (op.run (runOps ops memory.New)).2.orders = (runOps ops memory.New).orders ∧
    (op.run (runOps ops memory.New)).2.events = (runOps ops memory.New).events ∧
    (op.run (runOps ops memory.New)).2.orderIdempotencyKeys
      = (runOps ops memory.New).orderIdempotencyKeys ∧
    (∀ mem inputs, (op.run (runOps ops memory.New)).2.GetAvailabilities mem inputs
      = (runOps ops memory.New).GetAvailabilities mem inputs) ∧
    (∀ ctx, (op.run (runOps ops memory.New)).2.GetOrderByIdempotencyKey ctx
      = (runOps ops memory.New).GetOrderByIdempotencyKey ctx) ∧
    (∀ k trx, (runOps ops memory.New).transactions.get k = some trx → op.handle ≠ some k →
      (op.run (runOps ops memory.New)).2.transactions.get k = some trx) := by
  have _ := hfit
  obtain ⟨h1, h2, h3, h4⟩ := StoreOp.stages_maps hop (runOps ops memory.New)
  refine ⟨h1, h2, h3, h4, ?_, ?_, ?_⟩
  · exact fun mem inputs => memory.DB.GetAvailabilities_congr mem h1 inputs
  · exact fun ctx => memory.DB.GetOrderByIdempotencyKey_congr h4 ctx
  · exact fun k trx hk hother =>
      StoreOp.stages_others hop
        (runOps_handlesIssued ops memory.New memory.DB.handlesIssued_New) hk hother

/-- Witness for C15: after the history `twoOpen`, staging `order8` in `trx-1` leaves the
orders as they were, the index still answers `order7` for the key `k`, and the buffer of
`trx-2` is the one it was. -/
theorem C15_staged_writes_are_invisible_witness :
    (StoreOp.run (.saveOrder ⟨none, some "trx-1"⟩ order8) (runOps twoOpen memory.New)).1
      = none ∧
    (StoreOp.run (.saveOrder ⟨none, some "trx-1"⟩ order8) (runOps twoOpen memory.New)).2.orders
      = (runOps twoOpen memory.New).orders ∧
    (StoreOp.run (.saveOrder ⟨none, some "trx-1"⟩ order8)
        (runOps twoOpen memory.New)).2.GetOrderByIdempotencyKey (withKey "k")
      = (some order7, none) ∧
    (StoreOp.run (.saveOrder ⟨none, some "trx-1"⟩ order8)
        (runOps twoOpen memory.New)).2.transactions.get "trx-2"
      = some { id := "trx-2", roomModifications := [], orderModifications := [(8, order8)],
               eventModifications := [], rollbackActions := [.deleteOrder 8] } :=
  ⟨by decide,
   (C15_staged_writes_are_invisible twoOpen (.saveOrder ⟨none, some "trx-1"⟩ order8)
      (by decide) (by decide)).2.1,
   ((C15_staged_writes_are_invisible twoOpen (.saveOrder ⟨none, some "trx-1"⟩ order8)
      (by decide) (by decide)).2.2.2.2.2.1 (withKey "k")).trans (by decide),
   (C15_staged_writes_are_invisible twoOpen (.saveOrder ⟨none, some "trx-1"⟩ order8)
      (by decide) (by decide)).2.2.2.2.2.2 "trx-2" _ (by decide) (by decide)⟩

/-! ## The ID generator -/

theorem simple.Generator.calls_eq (g : simple.Generator) (ctxs : List Ctx) :
    (g.calls ctxs).1
      = (List.range ctxs.length).map fun (i : Nat) => (g.counter + 1 + (i : Int), none) := by
  induction ctxs generalizing g with
  | nil => rfl
  | cons ctx rest ih =>
    simp only [simple.Generator.calls, List.length_cons, List.range_succ_eq_map,
      List.map_cons, List.map_map]
    rw [ih]
    simp only [simple.Generator.GetID, Nat.cast_zero, add_zero, List.cons.injEq, true_and]
    apply List.map_congr_left
    intro i _
    simp only [Function.comp, Nat.cast_succ]
    rw [add_assoc (g.counter + 1), add_comm 1 (i : Int)]

/-- C21: on a generator as `simple.New` returns it, the `n`-th of any sequence of calls of
`GetID`, one after the other, returns `n` and no error, for every `n ≥ 1` up to the number
of calls; so every returned ID is above zero, each call returns more than every call
before it, and no ID is returned twice. The counter is the `int` of the source while the
number of calls is below `2 ^ 63`, which `hfit` records; the proof makes no use of the
bound. -/
theorem C21_nth_call_returns_n (ctxs : List Ctx) (hfit : ctxs.length < 2 ^ 63) :
    (∀ n : Nat, 1 ≤ n → n ≤ ctxs.length →
      (simple.New.calls ctxs).1[n - 1]? = some ((n : Int), none)) ∧
    (∀ r ∈ (simple.New.calls ctxs).1, 0 < r.1 ∧ r.2 = none) ∧
    (simple.New.calls ctxs).1.Pairwise (fun a b => a.1 < b.1) ∧
    ((simple.New.calls ctxs).1.map Prod.fst).Nodup := by
  have _ := hfit
  have hpair : (simple.New.calls ctxs).1.Pairwise (fun a b => a.1 < b.1) := by
    rw [simple.Generator.calls_eq, List.pairwise_map]
    refine (List.pairwise_lt_range ctxs.length).imp ?_
    intro a b hab
    simp only [simple.New]
    omega
  refine ⟨?_, ?_, hpair, ?_⟩
  · intro n h1 hn
    rw [simple.Generator.calls_eq, List.getElem?_map, List.getElem?_range (by omega)]
    simp only [simple.New, Option.map_some', Option.some.injEq, Prod.mk.injEq, and_true]
    omega
  · intro r hr
    rw [simple.Generator.calls_eq, List.mem_map] at hr
    obtain ⟨i, _, rfl⟩ := hr
    simp only [simple.New, and_true]
    omega
  · rw [List.Nodup, List.pairwise_map]
    exact hpair.imp fun h => ne_of_lt h

/-- Witness for C21: three calls return 1, 2 and 3. -/
theorem C21_nth_call_returns_n_witness :
    (simple.New.calls [⟨none, none⟩, withKey "k", ⟨none, some "trx-0"⟩]).1
      = [(1, none), (2, none), (3, none)] ∧
    (simple.New.calls [⟨none, none⟩, withKey "k", ⟨none, some "trx-0"⟩]).1[3 - 1]?
      = some (((3 : Nat) : Int), none) :=
  ⟨by decide,
   (C21_nth_call_returns_n [⟨none, none⟩, withKey "k", ⟨none, some "trx-0"⟩]
      (by decide)).1 3 (by decide) (by decide)⟩

/-! ## Keys and fields -/

/-- C24 (defect witness): the key function `fmt.Sprintf("%s_%s_%s", ...)` of the store and
of the decrement step gives hotel `a_b`, room `c` and hotel `a`, room `b_c` the same key
for every date text. In the store that holds only the record of `(a_b, c)` for 2024-02-26,
a query for `(a, b_c)` succeeds and returns that record; and after a transaction has saved
a record of `(a, b_c)` with quota 1, the quota read for `(a_b, c)` is 1 instead of 5 and the
record under its key carries the hotel `a`. -/
theorem C24_distinct_rooms_share_a_key :
    (∀ d : String, roomKey "a_b" "c" d = roomKey "a" "b_c" d) ∧
    (collidingWorld.db.GetAvailabilities collidingWorld.mem
        [{ HotelID := "a", RoomID := "b_c", From := date 2024 2 26, To := date 2024 2 26 }])
      = ([0], none) ∧
    collidingWorld.mem.cell 0
      = { HotelID := "a_b", RoomID := "c", Date := date 2024 2 26, Quota := 5 } ∧
    memQuota collidingWorld "a_b" "c" (date 2024 2 26) = some 5 ∧
    memQuota overwrittenWorld "a_b" "c" (date 2024 2 26) = some 1 ∧
    (overwrittenWorld.db.roomAvailabilities.get
        (roomKey "a_b" "c" (Time.FormatRFC3339 (date 2024 2 26)))).map
      (fun p => (overwrittenWorld.mem.cell p).HotelID) = some "a" := by
  refine ⟨?_, by decide, by decide, by decide, by decide, by decide⟩
  intro d
  apply String.ext
  simp only [roomKey, String.data_append]
  simp

theorem addError_get_ne (m : GoMap String (List String)) {field k : String} (msg : String)
    (h : field ≠ k) : (addError m field msg).get k = m.get k := by
  unfold addError
  exact GoMap.get_set_ne _ _ h

theorem addIf_get_ne (v : Bool) (m : GoMap String (List String)) {field k : String}
    (msg : String) (h : field ≠ k) : (addIf v field msg m).get k = m.get k := by
  unfold addIf
  split
  · exact addError_get_ne m msg h
  · rfl

theorem validatePlace_no_to_field (env : Env) (m : GoMap String (List String)) (place : Place) :
    (validatePlace env m place).get "place.to" = m.get "place.to" := by
  rw [validatePlace_eq]
  rw [addIf_get_ne _ _ _ (by decide), addIf_get_ne _ _ _ (by decide),
    addIf_get_ne _ _ _ (by decide), addIf_get_ne _ _ _ (by decide),
    addIf_get_ne _ _ _ (by decide)]

theorem validateFields_no_to_field (env : Env) (b : BookInput) :
    (b.validateFields env).get "place.to" = none := by
  rw [validateFields_eq]
  have : ∀ (places : List Place) (m : GoMap String (List String)),
      (places.foldl (validatePlace env) m).get "place.to" = m.get "place.to" := by
    intro places
    induction places with
    | nil => intro m; rfl
    | cons place rest ih =>
      intro m
      simp only [List.foldl_cons]
      rw [ih, validatePlace_no_to_field]
  rw [this, addIf_get_ne _ _ _ (by decide), addIf_get_ne _ _ _ (by decide)]
  rfl

theorem addError_toMessage {m : GoMap String (List String)} (field msg : String)
    (h : toMessageUnderFrom m) : toMessageUnderFrom (addError m field msg) := by
  obtain ⟨msgs, hget, hmem⟩ := h
  by_cases hf : field = "place.from"
  · subst hf
    refine ⟨msgs ++ [msg], ?_, List.mem_append_left _ hmem⟩
    unfold addError
    rw [GoMap.get_set_same, hget]
    rfl
  · exact ⟨msgs, (addError_get_ne m msg hf).trans hget, hmem⟩

theorem addError_from_toMessage (m : GoMap String (List String)) :
    toMessageUnderFrom (addError m "place.from" "place.to must not be in the past") :=
  ⟨(m.get "place.from").getD [] ++ ["place.to must not be in the past"],
   GoMap.get_set_same _ _ _, List.mem_append_right _ (List.mem_singleton_self _)⟩

theorem addIf_toMessage {m : GoMap String (List String)} (v : Bool) (field msg : String)
    (h : toMessageUnderFrom m) : toMessageUnderFrom (addIf v field msg m) := by
  unfold addIf
  split
  · exact addError_toMessage field msg h
  · exact h

theorem validatePlace_toMessage (env : Env) (m : GoMap String (List String)) (place : Place)
    (h : toMessageUnderFrom m ∨ place.To < env.now) :
    toMessageUnderFrom (validatePlace env m place) := by
  rw [validatePlace_eq]
  apply addIf_toMessage
  rcases h with h | h
  · exact addIf_toMessage _ _ _ (addIf_toMessage _ _ _ (addIf_toMessage _ _ _
      (addIf_toMessage _ _ _ h)))
  · have hb : Time.Before place.To env.now = true := by simp [Time.Before, h]
    rw [hb]
    simp only [addIf, if_true]
    exact addError_from_toMessage _

theorem foldl_validatePlace_toMessage (env : Env) (places : List Place)
    (m : GoMap String (List String))
    (h : toMessageUnderFrom m ∨ ∃ place ∈ places, place.To < env.now) :
    toMessageUnderFrom (places.foldl (validatePlace env) m) := by
  induction places generalizing m with
  | nil =>
    rcases h with h | ⟨place, hp, _⟩
    · exact h
    · cases hp
  | cons place rest ih =>
    simp only [List.foldl_cons]
    apply ih
    rcases h with h | ⟨q, hq, hlt⟩
    · exact Or.inl (validatePlace_toMessage env m place (Or.inl h))
    · rcases List.mem_cons.1 hq with heq | hq
      · subst heq
        exact Or.inl (validatePlace_toMessage env m q (Or.inr hlt))
      · exact Or.inr ⟨q, hq, hlt⟩

/-- C25 (defect witness): `validate` files the message `place.to must not be in the past`
under the field `place.from`. For every request the field map has no entry under
`place.to`, and whenever some place has its `To` before the current time the entry of
`place.from` holds the message about `To`. On 2024-03-01 the request for the day 2024-02-26
gets both messages under `place.from`. The particular case named by the claim never
arises: a `To` before now, with `From` not before now, is before `From`. -/
theorem C25_to_message_is_filed_under_from :
    (∀ (env : Env) (b : BookInput), (b.validateFields env).get "place.to" = none) ∧
    (∀ (env : Env) (b : BookInput), (∃ place ∈ b.Places, place.To < env.now) →
      toMessageUnderFrom (b.validateFields env)) ∧
    (request [oneDay (date 2024 2 26)]).validate marchFirst
      = some (.InputError [("place.from",
          ["place.from must not be in the past", "place.to must not be in the past"])]) ∧
    (∀ (now : Time) (place : Place),
      place.To < now → ¬ place.From < now → place.To < place.From) := by
  refine ⟨validateFields_no_to_field, ?_, by decide, ?_⟩
  · intro env b h
    rw [validateFields_eq]
    exact foldl_validatePlace_toMessage env _ _ (Or.inr h)
  · intro now place h1 h2
    exact lt_of_lt_of_le h1 (not_lt.1 h2)

/-! ## `CreateOrder` call by call -/

namespace Invocation

variable {σ γ : Type}

theorem run_done (env : Env) (m : Manager σ γ) (ctx : Ctx) (input : BookInput) (n : Nat)
    (result : Option Order × Option Error) (w : World σ γ) :
    run env m ctx input n (done result, w) = (done result, w) := by
  induction n with
  | zero => rfl
  | succ n ih => simp only [run, step, ih]

theorem run_returning (env : Env) (m : Manager σ γ) (ctx : Ctx) (input : BookInput) (n : Nat)
    (trxCtx : Ctx) (result : Option Order × Option Error) (w : World σ γ) :
    run env m ctx input (n + 1) (returning trxCtx result, w)
      = (done (Manager.finish m trxCtx result w.mem w.db).1,
         { w with mem := (Manager.finish m trxCtx result w.mem w.db).2.1,
                  db := (Manager.finish m trxCtx result w.mem w.db).2.2 }) := by
  simp only [run, step, run_done]

theorem run_succ (env : Env) (m : Manager σ γ) (ctx : Ctx) (input : BookInput) (n : Nat)
    (i : Invocation) (w : World σ γ) :
    run env m ctx input (n + 1) (i, w) = run env m ctx input n (step env m ctx input i w) :=
  rfl

/-- The pieces of one invocation, run one after the other with nothing in between, are
`CreateOrder`. -/
theorem run_eq_CreateOrder (env : Env) (m : Manager σ γ) (ctx : Ctx) (input : BookInput)
    (w : World σ γ) :
    run env m ctx input 8 (start, w)
      = (done (Manager.CreateOrder env m ctx input w).1,
         (Manager.CreateOrder env m ctx input w).2) := by
  show run env m ctx input (0 + 1 + 1 + 1 + 1 + 1 + 1 + 1 + 1) (start, w) = _
  unfold Manager.CreateOrder
  rw [run_succ]
  cases hv : input.validate env with
  | some err =>
    have hs : step env m ctx input start w = (done (none, some err), w) := by
      simp only [step, hv]
    rw [hs, run_done]
  | none =>
    rcases hlk : m.storage.GetOrderByIdempotencyKey ctx w.mem w.db with ⟨⟨o, e⟩, mem1, db1⟩
    by_cases h1 : (e.isSome && !errorsIs e .ErrRecordNotFound) = true
    · have hs : step env m ctx input start w
          = (done (none, e.map (Error.wrap "get order by idempotency key")),
             { w with mem := mem1, db := db1 }) := by
        simp only [step, hv, hlk]
        rw [if_pos h1]
      rw [hs, run_done]
      simp only []
      rw [if_pos h1]
    · by_cases h2 : (!errorsIs e .ErrRecordNotFound) = true
      · have hs : step env m ctx input start w
            = (done (o, none), { w with mem := mem1, db := db1 }) := by
          simp only [step, hv, hlk]
          rw [if_neg h1, if_pos h2]
        rw [hs, run_done]
        simp only []
        rw [if_neg h1, if_pos h2]
      · have hs : step env m ctx input start w
            = (lookedUp, { w with mem := mem1, db := db1 }) := by
          simp only [step, hv, hlk]
          rw [if_neg h1, if_neg h2]
        rw [hs, run_succ]
        simp only []
        rw [if_neg h1, if_neg h2]
        rcases hga : Manager.getRoomAvailabilities m ctx input.prepareDates mem1 db1 with
          ⟨r, mem2, db2⟩
        cases r with
        | error err =>
          have hs : step env m ctx input lookedUp { w with mem := mem1, db := db1 }
              = (done (none, some (.wrap "get availabilities" err)),
                 { w with mem := mem2, db := db2 }) := by
            simp only [step, hga]
          rw [hs, run_done]
        | ok avs =>
          have hs : step env m ctx input lookedUp { w with mem := mem1, db := db1 }
              = (read avs, { w with mem := mem2, db := db2 }) := by
            simp only [step, hga]
          rw [hs, run_succ]
          simp only []
          rcases hup : Manager.updateRoomAvailabilities input.prepareDates avs mem2 with
            ⟨r, mem3⟩
          cases r with
          | error err =>
            have hs : step env m ctx input (read avs) { w with mem := mem2, db := db2 }
                = (done (none, some (.wrap "update availabilities" err)),
                   { w with mem := mem3, db := db2 }) := by
              simp only [step, hup]
            rw [hs, run_done]
          | ok avs2 =>
            rcases hbo : Manager.buildOrder env m ctx input.prepareDates w.gen with ⟨r, gen⟩
            cases r with
            | error err =>
              have hs : step env m ctx input (read avs) { w with mem := mem2, db := db2 }
                  = (done (none, some (.wrap "build order" err)),
                     { mem := mem3, db := db2, gen := gen }) := by
                simp only [step, hup, hbo]
              rw [hs, run_done]
            | ok oe =>
              obtain ⟨order, event⟩ := oe
              have hs : step env m ctx input (read avs) { w with mem := mem2, db := db2 }
                  = (built order event avs2, { mem := mem3, db := db2, gen := gen }) := by
                simp only [step, hup, hbo]
              rw [hs, run_succ]
              simp only []
              rcases hbe : m.storage.BeginTransaction ctx "READ COMMITTED" mem3 db2 with
                ⟨⟨trxCtx, e⟩, mem4, db3⟩
              cases e with
              | some err =>
                have hs : step env m ctx input (built order event avs2)
                      { mem := mem3, db := db2, gen := gen }
                    = (done (none, some (.wrap "begin transaction" err)),
                       { mem := mem4, db := db3, gen := gen }) := by
                  simp only [step, hbe]
                rw [hs, run_done]
              | none =>
                have hs : step env m ctx input (built order event avs2)
                      { mem := mem3, db := db2, gen := gen }
                    = (begun trxCtx order event avs2,
                       { mem := mem4, db := db3, gen := gen }) := by
                  simp only [step, hbe]
                rw [hs, run_succ]
                simp only [Manager.persist]
                rcases hso : m.storage.SaveOrder trxCtx order mem4 db3 with ⟨e, mem5, db4⟩
                cases e with
                | some err =>
                  have hs : step env m ctx input (begun trxCtx order event avs2)
                        { mem := mem4, db := db3, gen := gen }
                      = (returning trxCtx (none, some (.wrap "save order to storage" err)),
                         { mem := mem5, db := db4, gen := gen }) := by
                    simp only [step, hso]
                  rw [hs, run_returning]
                | none =>
                  have hs : step env m ctx input (begun trxCtx order event avs2)
                        { mem := mem4, db := db3, gen := gen }
                      = (orderSaved trxCtx order event avs2,
                         { mem := mem5, db := db4, gen := gen }) := by
                    simp only [step, hso]
                  rw [hs, run_succ]
                  simp only []
                  rcases hsr : m.storage.SaveRoomAvailabilities trxCtx avs2 mem5 db4 with
                    ⟨e, mem6, db5⟩
                  cases e with
                  | some err =>
                    have hs : step env m ctx input (orderSaved trxCtx order event avs2)
                          { mem := mem5, db := db4, gen := gen }
                        = (returning trxCtx
                            (none, some (.wrap "save room availabilities to storage" err)),
                           { mem := mem6, db := db5, gen := gen }) := by
                      simp only [step, hsr]
                    rw [hs, run_returning]
                  | none =>
                    have hs : step env m ctx input (orderSaved trxCtx order event avs2)
                          { mem := mem5, db := db4, gen := gen }
                        = (roomsSaved trxCtx order event,
                           { mem := mem6, db := db5, gen := gen }) := by
                      simp only [step, hsr]
                    rw [hs, run_succ]
                    simp only []
                    rcases hse : m.storage.SaveEvent trxCtx event mem6 db5 with
                      ⟨e, mem7, db6⟩
                    cases e with
                    | some err =>
                      have hs : step env m ctx input (roomsSaved trxCtx order event)
                            { mem := mem6, db := db5, gen := gen }
                          = (returning trxCtx (none, some (.wrap "save event to storage" err)),
                             { mem := mem7, db := db6, gen := gen }) := by
                        simp only [step, hse]
                      rw [hs, run_returning]
                    | none =>
                      have hs : step env m ctx input (roomsSaved trxCtx order event)
                            { mem := mem6, db := db5, gen := gen }
                          = (returning trxCtx (some order, none),
                             { mem := mem7, db := db6, gen := gen }) := by
                        simp only [step, hse]
                      rw [hs, run_returning]

end Invocation

/-- C22 (defect witness): the seeded store holds quota 1 for (reddison, lux, 2024-02-28).
Two invocations of `CreateOrder` for that day with the keys `k1` and `k2` run on it. When
one runs after the other, the first succeeds, the second gets an `AvailabilityError` and
the quota ends at 0. When both have returned from `GetAvailabilities` before either goes
on, both find quota 1, both decrement, both commit: both return an order and no error, and
the quota ends at -1. -/
theorem C22_both_concurrent_bookings_succeed :
    memQuota seededWorld "reddison" "lux" (date 2024 2 28) = some 1 ∧
    (interleave febFirst appManager
        (withKey "k1", request [oneDay (date 2024 2 28)])
        (withKey "k2", request [oneDay (date 2024 2 28)])
        oneAfterTheOther (.start, .start, seededWorld)).1
      = .done (some { ID := 1, Payer := { Email := "a@b.c" },
                      Places := [oneDay (date 2024 2 28)], CreatedAt := date 2024 2 1,
                      Price := 0 }, none) ∧
    (interleave febFirst appManager
        (withKey "k1", request [oneDay (date 2024 2 28)])
        (withKey "k2", request [oneDay (date 2024 2 28)])
        oneAfterTheOther (.start, .start, seededWorld)).2.1
      = .done (none, some (.wrap "get availabilities" (.wrap "get availabilities from storage"
          (.AvailabilityError [⟨"reddison", "lux", [date 2024 2 28]⟩])))) ∧
    memQuota (interleave febFirst appManager
        (withKey "k1", request [oneDay (date 2024 2 28)])
        (withKey "k2", request [oneDay (date 2024 2 28)])
        oneAfterTheOther (.start, .start, seededWorld)).2.2
      "reddison" "lux" (date 2024 2 28) = some 0 ∧
    (interleave febFirst appManager
        (withKey "k1", request [oneDay (date 2024 2 28)])
        (withKey "k2", request [oneDay (date 2024 2 28)])
        bothReadFirst (.start, .start, seededWorld)).1
      = .done (some { ID := 1, Payer := { Email := "a@b.c" },
                      Places := [oneDay (date 2024 2 28)], CreatedAt := date 2024 2 1,
                      Price := 0 }, none) ∧
    (interleave febFirst appManager
        (withKey "k1", request [oneDay (date 2024 2 28)])
        (withKey "k2", request [oneDay (date 2024 2 28)])
        bothReadFirst (.start, .start, seededWorld)).2.1
      = .done (some { ID := 3, Payer := { Email := "a@b.c" },
                      Places := [oneDay (date 2024 2 28)], CreatedAt := date 2024 2 1,
                      Price := 0 }, none) ∧
    memQuota (interleave febFirst appManager
        (withKey "k1", request [oneDay (date 2024 2 28)])
        (withKey "k2", request [oneDay (date 2024 2 28)])
        bothReadFirst (.start, .start, seededWorld)).2.2
      "reddison" "lux" (date 2024 2 28) = some (-1) := by
  decide

/-! ## Records under their own keys -/

theorem GoMap.mem_del {K V : Type} [DecidableEq K] (m : GoMap K V) (k : K) (kv : K × V)
    (h : kv ∈ m.del k) : kv ∈ m := by
  induction m with
  | nil => simp [GoMap.del] at h
  | cons kv0 rest ih =>
    obtain ⟨k0, v0⟩ := kv0
    by_cases h0 : k0 = k
    · simp only [GoMap.del, h0, if_true] at h
      exact List.mem_cons_of_mem _ (ih h)
    · simp only [GoMap.del, h0, if_false] at h
      rcases List.mem_cons.1 h with h | h
      · exact h ▸ List.mem_cons_self _ _
      · exact List.mem_cons_of_mem _ (ih h)

theorem GoMap.mem_foldl_set {K V α : Type} [DecidableEq K] (f : α → K) (g : α → V)
    (l : List α) (m0 : GoMap K V) (kv : K × V)
    (h : kv ∈ l.foldl (fun m x => m.set (f x) (g x)) m0) :
    kv ∈ m0 ∨ ∃ x ∈ l, kv = (f x, g x) := by
  induction l generalizing m0 with
  | nil => exact Or.inl h
  | cons x rest ih =>
    simp only [List.foldl_cons] at h
    rcases ih _ h with h | ⟨y, hy, hkv⟩
    · rcases GoMap.mem_set _ _ _ _ h with h | h
      · exact Or.inl h
      · exact Or.inr ⟨x, List.mem_cons_self _ _, h⟩
    · exact Or.inr ⟨y, List.mem_cons_of_mem _ hy, hkv⟩

theorem storeKey_of_sameRoomDay {a b : RoomAvailability} (h : sameRoomDay a b) :
    storeKey a = storeKey b := by
  obtain ⟨h1, h2, h3⟩ := h
  simp only [storeKey, h1, h2, h3]

namespace memory.DB

theorem stageRoom_keyed {mem mem' : Mem} {db : DB} {trx : transaction} {p : Ptr}
    (hdb : db.keyed mem) (htrx : trx.keyed mem)
    (hp : sameRoomDay (mem'.cell p) (mem.cell p)) :
    (stageRoom mem' db trx p).keyed mem := by
  have hkey : roomKey (mem'.cell p).HotelID (mem'.cell p).RoomID
      (Time.FormatRFC3339 (mem'.cell p).Date) = storeKey (mem.cell p) :=
    storeKey_of_sameRoomDay hp
  obtain ⟨hr, ho, he, ha⟩ := htrx
  unfold stageRoom
  simp only [hkey]
  cases hget : trx.roomModifications.get (storeKey (mem.cell p)) with
  | some q => exact ⟨hr, ho, he, ha⟩
  | none =>
    have hr' : ∀ kv ∈ trx.roomModifications.set (storeKey (mem.cell p)) p,
        kv.1 = storeKey (mem.cell kv.2) := by
      intro kv hkv
      rcases GoMap.mem_set _ _ _ _ hkv with h | h
      · exact hr kv h
      · rw [h]
    cases hold : db.roomAvailabilities.get (storeKey (mem.cell p)) with
    | some originalRoom =>
      refine ⟨hr', ho, he, ?_⟩
      intro k q hq
      rcases List.mem_append.1 hq with hq | hq
      · exact ha k q hq
      · rw [List.mem_singleton] at hq
        cases hq
        exact hdb.1 _ (GoMap.mem_of_get_eq_some _ hold)
    | none =>
      refine ⟨hr', ho, he, ?_⟩
      intro k q hq
      rcases List.mem_append.1 hq with hq | hq
      · exact ha k q hq
      · rw [List.mem_singleton] at hq
        cases hq

theorem foldl_stageRoom_keyed {mem mem' : Mem} {db : DB} (avs : List Ptr)
    {trx : transaction} (hdb : db.keyed mem) (htrx : trx.keyed mem)
    (hp : ∀ p ∈ avs, sameRoomDay (mem'.cell p) (mem.cell p)) :
    (avs.foldl (stageRoom mem' db) trx).keyed mem := by
  induction avs generalizing trx with
  | nil => exact htrx
  | cons p rest ih =>
    simp only [List.foldl_cons]
    exact ih (stageRoom_keyed hdb htrx (hp p (List.mem_cons_self _ _)))
      fun q hq => hp q (List.mem_cons_of_mem _ hq)

theorem keyed_set_transaction {mem : Mem} {db : DB} (hdb : db.keyed mem) (k : String)
    {trx : transaction} (htrx : trx.keyed mem) :
    ({ db with transactions := db.transactions.set k trx } : DB).keyed mem := by
  refine ⟨hdb.1, hdb.2.1, hdb.2.2.1, ?_⟩
  intro ht hht
  rcases GoMap.mem_set _ _ _ _ hht with h | h
  · exact hdb.2.2.2 ht h
  · rw [h]
    exact htrx

theorem runRollbackAction_keyed {mem : Mem} {db : DB} (hdb : db.keyed mem)
    (a : rollbackAction) (ha : ∀ k p, a = .restoreRoom k p → k = storeKey (mem.cell p)) :
    (runRollbackAction db a).keyed mem := by
  obtain ⟨hr, ho, he, ht⟩ := hdb
  cases a with
  | restoreRoom k p =>
    refine ⟨?_, ho, he, ht⟩
    intro kv hkv
    rcases GoMap.mem_set _ _ _ _ hkv with h | h
    · exact hr kv h
    · rw [h]
      exact ha k p rfl
  | deleteRoom k => exact ⟨fun kv hkv => hr kv (GoMap.mem_del _ _ _ hkv), ho, he, ht⟩
  | deleteOrder id => exact ⟨hr, fun kv hkv => ho kv (GoMap.mem_del _ _ _ hkv), he, ht⟩
  | deleteEvent id => exact ⟨hr, ho, fun kv hkv => he kv (GoMap.mem_del _ _ _ hkv), ht⟩

theorem foldl_runRollbackAction_keyed {mem : Mem} (l : List rollbackAction) {db : DB}
    (hdb : db.keyed mem)
    (ha : ∀ k p, rollbackAction.restoreRoom k p ∈ l → k = storeKey (mem.cell p)) :
    (l.foldl runRollbackAction db).keyed mem := by
  induction l generalizing db with
  | nil => exact hdb
  | cons a rest ih =>
    simp only [List.foldl_cons]
    apply ih
    · exact runRollbackAction_keyed hdb a fun k p h => ha k p (h ▸ List.mem_cons_self _ _)
    · exact fun k p h => ha k p (List.mem_cons_of_mem _ h)

theorem keyed_del_transaction {mem : Mem} {db : DB} (hdb : db.keyed mem) (k : String) :
    ({ db with transactions := db.transactions.del k } : DB).keyed mem :=
  ⟨hdb.1, hdb.2.1, hdb.2.2.1, fun ht hht => hdb.2.2.2 ht (GoMap.mem_del _ _ _ hht)⟩

theorem keyed_empty (mem : Mem) (id : String) :
    ({ id := id, roomModifications := [], orderModifications := [], eventModifications := [],
       rollbackActions := [] } : transaction).keyed mem :=
  ⟨fun _ h => absurd h (List.not_mem_nil _), fun _ h => absurd h (List.not_mem_nil _),
   fun _ h => absurd h (List.not_mem_nil _), fun _ _ h => absurd h (List.not_mem_nil _)⟩

theorem keyed_New (mem : Mem) : New.keyed mem := by
  refine ⟨?_, ?_, ?_, ?_⟩ <;> intro kv h <;> simp [New] at h

end memory.DB

theorem StoreOp.run_keyed {mem : Mem} (op : StoreOp) (hop : op.recordsAsIn mem)
    {db : memory.DB} (hdb : db.keyed mem) : (op.run db).2.keyed mem := by
  cases op with
  | begin ctx level =>
    have h := memory.DB.keyed_set_transaction hdb (trxName db.nextTrxID)
      (memory.DB.keyed_empty mem (trxName db.nextTrxID))
    exact ⟨h.1, h.2.1, h.2.2.1, h.2.2.2⟩
  | commit ctx =>
    rcases memory.DB.openTransaction_cases db ctx with ⟨e, he⟩ | ⟨k, trx, hctx, hne, hopen, ho⟩
    · simp only [StoreOp.run, memory.DB.CommitTransaction, he]
      exact hdb
    · have htrx := hdb.2.2.2 _ (GoMap.mem_of_get_eq_some _ hopen)
      cases hkey : ctx.idempotencyKey with
      | none =>
        simp only [StoreOp.run, memory.DB.CommitTransaction, ho, IdempotencyKeyFromContext,
          hkey]
        exact hdb
      | some key =>
        by_cases hkne : key = ""
        · simp only [StoreOp.run, memory.DB.CommitTransaction, ho, IdempotencyKeyFromContext,
            hkey, hkne, if_true]
          exact hdb
        · simp only [StoreOp.run, memory.DB.CommitTransaction_eq hctx hne hopen hkey hkne]
          refine ⟨?_, ?_, ?_, ?_⟩
          · intro kv hkv
            rcases GoMap.mem_foldl_set _ _ _ _ _ hkv with h | ⟨x, hx, h⟩
            · exact hdb.1 kv h
            · rw [h]
              exact htrx.1 x hx
          · intro kv hkv
            rcases GoMap.mem_foldl_set _ _ _ _ _ hkv with h | ⟨x, hx, h⟩
            · exact hdb.2.1 kv h
            · rw [h]
          · intro kv hkv
            rcases GoMap.mem_foldl_set _ _ _ _ _ hkv with h | ⟨x, hx, h⟩
            · exact hdb.2.2.1 kv h
            · rw [h]
          · exact fun ht hht => hdb.2.2.2 ht (GoMap.mem_del _ _ _ hht)
  | rollback ctx =>
    rcases memory.DB.openTransaction_cases db ctx with ⟨e, he⟩ | ⟨k, trx, hctx, hne, hopen, ho⟩
    · simp only [StoreOp.run, memory.DB.RollbackTransaction, he]
      exact hdb
    · have htrx := hdb.2.2.2 _ (GoMap.mem_of_get_eq_some _ hopen)
      simp only [StoreOp.run, memory.DB.RollbackTransaction, ho]
      exact memory.DB.keyed_del_transaction
        (memory.DB.foldl_runRollbackAction_keyed _ hdb htrx.2.2.2) k
  | saveRooms mem' ctx avs =>
    rcases memory.DB.openTransaction_cases db ctx with ⟨e, he⟩ | ⟨k, trx, hctx, hne, hopen, ho⟩
    · simp only [StoreOp.run, memory.DB.SaveRoomAvailabilities, he]
      exact hdb
    · have htrx := hdb.2.2.2 _ (GoMap.mem_of_get_eq_some _ hopen)
      simp only [StoreOp.run, memory.DB.SaveRoomAvailabilities, ho]
      exact memory.DB.keyed_set_transaction hdb k
        (memory.DB.foldl_stageRoom_keyed avs hdb htrx hop)
  | saveOrder ctx order =>
    rcases memory.DB.openTransaction_cases db ctx with ⟨e, he⟩ | ⟨k, trx, hctx, hne, hopen, ho⟩
    · simp only [StoreOp.run, memory.DB.SaveOrder, he]
      exact hdb
    · have htrx := hdb.2.2.2 _ (GoMap.mem_of_get_eq_some _ hopen)
      cases hget : trx.orderModifications.get order.ID with
      | some o =>
        simp only [StoreOp.run, memory.DB.SaveOrder, ho, hget]
        exact hdb
      | none =>
        simp only [StoreOp.run, memory.DB.SaveOrder, ho, hget]
        apply memory.DB.keyed_set_transaction hdb k
        refine ⟨htrx.1, ?_, htrx.2.2.1, ?_⟩
        · intro kv hkv
          rcases GoMap.mem_set _ _ _ _ hkv with h | h
          · exact htrx.2.1 kv h
          · rw [h]
        · intro k' p hq
          rcases List.mem_append.1 hq with hq | hq
          · exact htrx.2.2.2 k' p hq
          · rw [List.mem_singleton] at hq
            cases hq
  | saveEvent ctx event =>
    rcases memory.DB.openTransaction_cases db ctx with ⟨e, he⟩ | ⟨k, trx, hctx, hne, hopen, ho⟩
    · simp only [StoreOp.run, memory.DB.SaveEvent, he]
      exact hdb
    · have htrx := hdb.2.2.2 _ (GoMap.mem_of_get_eq_some _ hopen)
      cases hget : trx.eventModifications.get event.ID with
      | some o =>
        simp only [StoreOp.run, memory.DB.SaveEvent, ho, hget]
        exact hdb
      | none =>
        simp only [StoreOp.run, memory.DB.SaveEvent, ho, hget]
        apply memory.DB.keyed_set_transaction hdb k
        refine ⟨htrx.1, htrx.2.1, ?_, ?_⟩
        · intro kv hkv
          rcases GoMap.mem_set _ _ _ _ hkv with h | h
          · exact htrx.2.2.1 kv h
          · rw [h]
        · intro k' p hq
          rcases List.mem_append.1 hq with hq | hq
          · exact htrx.2.2.2 k' p hq
          · rw [List.mem_singleton] at hq
            cases hq

theorem runOps_keyed {mem : Mem} (ops : List StoreOp) (hops : ∀ op ∈ ops, op.recordsAsIn mem)
    {db : memory.DB} (hdb : db.keyed mem) : (runOps ops db).keyed mem := by
  induction ops generalizing db with
  | nil => exact hdb
  | cons op rest ih =>
    exact ih (fun o ho => hops o (List.mem_cons_of_mem _ ho))
      (op.run_keyed (hops op (List.mem_cons_self _ _)) hdb)

/-- C26: in every store that a sequence of calls of `BeginTransaction`,
`SaveRoomAvailabilities`, `SaveOrder`, `SaveEvent`, `CommitTransaction` and
`RollbackTransaction` has made of `memory.New`, where the staged records carry the hotel,
room and date that they carried when they were staged, every record of the room map is
under the key of its own hotel, room and date, every order and every event is under its
own ID, and the same holds for the three buffers of every open transaction. -/
theorem C26_store_key_invariant (ops : List StoreOp) (mem : Mem)
    (hops : ∀ op ∈ ops, op.recordsAsIn mem) :
    (∀ k p, (runOps ops memory.New).roomAvailabilities.get k = some p →
      k = storeKey (mem.cell p)) ∧
    (∀ id order, (runOps ops memory.New).orders.get id = some order → order.ID = id) ∧
    (∀ id event, (runOps ops memory.New).events.get id = some event → event.ID = id) ∧
    (∀ h trx, (runOps ops memory.New).transactions.get h = some trx →
      (∀ k p, trx.roomModifications.get k = some p → k = storeKey (mem.cell p)) ∧
      (∀ id order, trx.orderModifications.get id = some order → order.ID = id) ∧
      (∀ id event, trx.eventModifications.get id = some event → event.ID = id)) := by
  obtain ⟨hr, ho, he, ht⟩ := runOps_keyed ops hops (memory.DB.keyed_New mem)
  refine ⟨?_, ?_, ?_, ?_⟩
  · exact fun k p h => hr _ (GoMap.mem_of_get_eq_some _ h)
  · exact fun id order h => ho _ (GoMap.mem_of_get_eq_some _ h)
  · exact fun id event h => he _ (GoMap.mem_of_get_eq_some _ h)
  · intro h trx hopen
    obtain ⟨hr', ho', he', _⟩ := ht _ (GoMap.mem_of_get_eq_some _ hopen)
    exact ⟨fun k p h => hr' _ (GoMap.mem_of_get_eq_some _ h),
      fun id order h => ho' _ (GoMap.mem_of_get_eq_some _ h),
      fun id event h => he' _ (GoMap.mem_of_get_eq_some _ h)⟩

/-- Witness for C26: the calls of the migration make the seeded store, and the record that
it holds under the key of (reddison, lux, 2024-02-26) is under its own key. -/
theorem C26_store_key_invariant_witness :
    runOps seedOps memory.New = seededWorld.db ∧
    (runOps seedOps memory.New).roomAvailabilities.get "reddison_lux_2024-02-26T00:00:00Z"
      = some 0 ∧
    "reddison_lux_2024-02-26T00:00:00Z" = storeKey (seededWorld.mem.cell 0) :=
  ⟨by decide, by decide,
   (C26_store_key_invariant seedOps seededWorld.mem (by decide)).1
     "reddison_lux_2024-02-26T00:00:00Z" 0 (by decide)⟩

/-! ## The decrement step after a successful read -/

theorem pad2_length (n : Nat) : (Time.pad2 n).data.length = 2 := rfl

theorem storeKey_split (h r : String) (d : Time) :
    ∃ clock : List Char, clock.length = 10 ∧
      (roomKey h r (Time.FormatRFC3339 d)).data
        = (roomKey h r (Time.FormatDate d)).data ++ clock := by
  refine ⟨'T' :: ((Time.pad2 (((d % dayNs) / 1000000000).toNat / 3600)).data ++
      ':' :: ((Time.pad2 (((d % dayNs) / 1000000000).toNat / 60 % 60)).data ++
      ':' :: ((Time.pad2 (((d % dayNs) / 1000000000).toNat % 60)).data ++ ['Z']))), ?_, ?_⟩
  · simp only [List.length_cons, List.length_append, pad2_length, List.length_nil]
  · simp only [roomKey, Time.FormatRFC3339, String.data_append, List.append_assoc]
    rfl

theorem dateKey_of_storeKey {h r h' r' : String} {d d' : Time}
    (heq : roomKey h r (Time.FormatRFC3339 d) = roomKey h' r' (Time.FormatRFC3339 d')) :
    roomKey h r (Time.FormatDate d) = roomKey h' r' (Time.FormatDate d') := by
  obtain ⟨c, hc, hs⟩ := storeKey_split h r d
  obtain ⟨c', hc', hs'⟩ := storeKey_split h' r' d'
  have hd := congrArg String.data heq
  rw [hs, hs'] at hd
  exact String.ext (List.append_inj_left' hd (hc.trans hc'.symm))

theorem foldl_set_get_or {K α : Type} [DecidableEq K] (f : α → K) (l : List α)
    (m0 : GoMap K α) (k : K) :
    (l.foldl (fun m x => m.set (f x) x) m0).get k = m0.get k ∨
    ∃ y ∈ l, f y = k ∧ (l.foldl (fun m x => m.set (f x) x) m0).get k = some y := by
  induction l generalizing m0 with
  | nil => exact Or.inl rfl
  | cons x rest ih =>
    simp only [List.foldl_cons]
    rcases ih (m0.set (f x) x) with h | ⟨y, hy, hfy, hget⟩
    · by_cases hk : f x = k
      · refine Or.inr ⟨x, List.mem_cons_self _ _, hk, ?_⟩
        rw [h, ← hk]
        exact GoMap.get_set_same _ _ _
      · exact Or.inl (h.trans (GoMap.get_set_ne _ _ hk))
    · exact Or.inr ⟨y, List.mem_cons_of_mem _ hy, hfy, hget⟩

theorem foldl_set_get_of_mem {K α : Type} [DecidableEq K] (f : α → K) (l : List α)
    (m0 : GoMap K α) {x : α} (hx : x ∈ l) :
    ∃ y ∈ l, f y = f x ∧ (l.foldl (fun m x => m.set (f x) x) m0).get (f x) = some y := by
  induction l generalizing m0 with
  | nil => cases hx
  | cons a rest ih =>
    simp only [List.foldl_cons]
    rcases List.mem_cons.1 hx with heq | hx
    · subst heq
      rcases foldl_set_get_or f rest (m0.set (f x) x) (f x) with h | ⟨y, hy, hfy, hget⟩
      · exact ⟨x, List.mem_cons_self _ _, rfl, h.trans (GoMap.get_set_same _ _ _)⟩
      · exact ⟨y, List.mem_cons_of_mem _ hy, hfy, hget⟩
    · obtain ⟨y, hy, hfy, hget⟩ := ih (m0.set (f a) a) hx
      exact ⟨y, List.mem_cons_of_mem _ hy, hfy, hget⟩

theorem availabilityMap_get_of_mem (mem : Mem) (avs : List Ptr) {p : Ptr} (hp : p ∈ avs) :
    ∃ q ∈ avs, dateKey (mem.cell q) = dateKey (mem.cell p) ∧
      (Manager.availabilityMap mem avs).get (dateKey (mem.cell p)) = some q :=
  foldl_set_get_of_mem (fun p => dateKey (mem.cell p)) avs [] hp

theorem exists_forall₂_of_forall {α β : Type} {R : α → β → Prop} (l : List α)
    (h : ∀ a ∈ l, ∃ b, R a b) : ∃ l', List.Forall₂ R l l' := by
  induction l with
  | nil => exact ⟨[], List.Forall₂.nil⟩
  | cons a rest ih =>
    obtain ⟨b, hb⟩ := h a (List.mem_cons_self _ _)
    obtain ⟨l', hl'⟩ := ih fun x hx => h x (List.mem_cons_of_mem _ hx)
    exact ⟨b :: l', List.Forall₂.cons hb hl'⟩

theorem updatePlaces_requests (amap : GoMap String Ptr) (input : BookInput) (mem : Mem) :
    Manager.updatePlaces amap input.Places [] mem
      = decKeys amap ((requestsOf (queries input)).map RoomDay.dateKey) [] mem := by
  rw [updatePlaces_eq]
  congr 1
  simp only [requestsOf, queries, List.flatMap_map, List.map_flatMap, List.map_map]
  rfl

/-- C23: in every store that a sequence of its own operations has made of `memory.New`,
where the staged records carry the hotel, room and date that they carried when they were
staged, and for every request body: if `GetAvailabilities` succeeds for the queries built
from the places of the body (one per place, with its hotel, room, from and to), then
`updateRoomAvailabilities`, applied to the body and the returned records, returns no error;
its output has one record for each requested day, in order, and that record is one of the
returned records and is filed under the key of the requested day. -/
theorem C23_logic_error_is_unreachable (ops : List StoreOp) (mem : Mem)
    (hops : ∀ op ∈ ops, op.recordsAsIn mem) (input : BookInput) (avs : List Ptr)
    (hget : (runOps ops memory.New).GetAvailabilities mem (queries input) = (avs, none)) :
    ∃ updated mem', Manager.updateRoomAvailabilities input avs mem = (.ok updated, mem') ∧
      updated.length = (requestsOf (queries input)).length ∧
      List.Forall₂ (fun (r : RoomDay) p => p ∈ avs ∧ dateKey (mem.cell p) = r.dateKey)
        (requestsOf (queries input)) updated := by
  have hkeyed := runOps_keyed ops hops (memory.DB.keyed_New mem)
  have hacc := GetAvailabilities_ok mem _ _ hget
  have hfound : ∀ r ∈ requestsOf (queries input),
      ∃ q, (Manager.availabilityMap mem avs).get r.dateKey = some q ∧
        (q ∈ avs ∧ dateKey (mem.cell q) = r.dateKey) := by
    intro r hr
    obtain ⟨p, hp, hpacc⟩ := forall₂_exists_right hacc r hr
    have hstore := (accepted_some hpacc).1
    have hk : r.storeKey = storeKey (mem.cell p) :=
      hkeyed.1 _ (GoMap.mem_of_get_eq_some _ hstore)
    have hdk : dateKey (mem.cell p) = r.dateKey := dateKey_of_storeKey hk.symm
    obtain ⟨q, hq, hqk, hqget⟩ := availabilityMap_get_of_mem mem avs hp
    rw [hdk] at hqk hqget
    exact ⟨q, hqget, hq, hqk⟩
  obtain ⟨updated, hupd⟩ := exists_forall₂_of_forall _ hfound
  have hlookup : List.Forall₂ (fun k p => (Manager.availabilityMap mem avs).get k = some p)
      ((requestsOf (queries input)).map RoomDay.dateKey) updated := by
    rw [List.forall₂_map_left_iff]
    exact hupd.imp fun _ _ h => h.1
  refine ⟨updated, updated.foldl Mem.decQuota mem, ?_, hupd.length_eq.symm,
    hupd.imp fun _ _ h => h.2⟩
  unfold Manager.updateRoomAvailabilities
  simp only [updatePlaces_requests, decKeys_found _ _ _ hlookup, List.nil_append]

/-- Witness for C23: in the seeded store the read for a request of two nights returns the
records `0` and `1`, and the decrement step returns these two records and no error. -/
theorem C23_logic_error_is_unreachable_witness :
    (runOps seedOps memory.New).GetAvailabilities seededWorld.mem (queries twoNights)
      = ([0, 1], none) ∧
    (Manager.updateRoomAvailabilities twoNights [0, 1] seededWorld.mem).1.toOption
      = some [0, 1] ∧
    ∃ updated mem',
      Manager.updateRoomAvailabilities twoNights [0, 1] seededWorld.mem
        = (.ok updated, mem') ∧
      updated.length = (requestsOf (queries twoNights)).length ∧
      List.Forall₂
        (fun (r : RoomDay) p => p ∈ [0, 1] ∧ dateKey (seededWorld.mem.cell p) = r.dateKey)
        (requestsOf (queries twoNights)) updated :=
  ⟨by decide, by decide,
   C23_logic_error_is_unreachable seedOps seededWorld.mem (by decide) twoNights [0, 1]
     (by decide)⟩

/-! ## Requests whose times are not in UTC -/

theorem Time.FormatDateIn_zero (t : Time) : Time.FormatDateIn 0 t = Time.FormatDate t := by
  simp only [Time.FormatDateIn, zero_mul, add_zero]

theorem Time.FormatRFC3339In_zero (t : Time) :
    Time.FormatRFC3339In 0 t = Time.FormatRFC3339 t := by
  simp only [Time.FormatRFC3339In, Time.FormatRFC3339, Time.FormatDateIn_zero, Time.zoneText,
    zero_mul, add_zero, if_true]

namespace memory.DB

theorem scanDayIn_zero (mem : Mem) (db : DB) : scanDayIn 0 mem db = scanDay mem db := by
  funext input s d
  simp only [scanDayIn, scanDay, Time.FormatRFC3339In_zero]

theorem GetAvailabilitiesIn_zero (mem : Mem) (db : DB) (inputs : List GetAvailabilityInput) :
    db.GetAvailabilitiesIn 0 mem inputs = db.GetAvailabilities mem inputs := by
  have hs : scanInputIn 0 mem db = scanInput mem db := by
    funext s input
    simp only [scanInputIn, scanInput, scanDayIn_zero]
  simp only [GetAvailabilitiesIn, GetAvailabilities, hs]

end memory.DB

namespace Manager

theorem getRoomAvailabilitiesIn_zero {γ : Type} (g : Booking.idGenerator γ) (ctx : Ctx)
    (input : BookInput) (mem : Mem) (db : memory.DB) :
    getRoomAvailabilitiesIn 0 input mem db
      = getRoomAvailabilities (memManager g) ctx input mem db := by
  simp only [getRoomAvailabilitiesIn, getRoomAvailabilities, memManager_GetAvailabilities,
    memory.DB.GetAvailabilitiesIn_zero]
  generalize memory.DB.GetAvailabilities mem db _ = r
  obtain ⟨avs, e⟩ := r
  cases e <;> rfl

theorem updateDaysIn_zero (amap : GoMap String Ptr) (property : Place) (ds : List Time)
    (updated : List Ptr) (mem : Mem) :
    updateDaysIn 0 amap property ds updated mem = updateDays amap property ds updated mem := by
  induction ds generalizing updated mem with
  | nil => rfl
  | cons d rest ih =>
    simp only [updateDaysIn, updateDays, Time.FormatDateIn_zero]
    cases amap.get (roomKey property.HotelID property.RoomID (Time.FormatDate d)) with
    | none => rfl
    | some p => exact ih _ _

theorem updatePlacesIn_zero (amap : GoMap String Ptr) (places : List Place)
    (updated : List Ptr) (mem : Mem) :
    updatePlacesIn 0 amap places updated mem = updatePlaces amap places updated mem := by
  induction places generalizing updated mem with
  | nil => rfl
  | cons property rest ih =>
    simp only [updatePlacesIn, updatePlaces, updateDaysIn_zero]
    rcases updateDays amap property (days property.From property.To) updated mem with ⟨r, mem1⟩
    cases r with
    | none => rfl
    | some u => exact ih _ _

theorem updateRoomAvailabilitiesIn_zero (input : BookInput) (availabilities : List Ptr)
    (mem : Mem) :
    updateRoomAvailabilitiesIn 0 input availabilities mem
      = updateRoomAvailabilities input availabilities mem := by
  simp only [updateRoomAvailabilitiesIn, updateRoomAvailabilities, updatePlacesIn_zero]

/-- For a request whose times are in UTC, `CreateOrderIn` is `CreateOrder` over the
in-memory store. -/
theorem CreateOrderIn_zero {γ : Type} (env : Env) (g : Booking.idGenerator γ) (ctx : Ctx)
    (input : BookInput) (w : World memory.DB γ) :
    CreateOrderIn 0 env g ctx input w = CreateOrder env (memManager g) ctx input w := by
  simp only [CreateOrderIn, CreateOrder, getRoomAvailabilitiesIn_zero g ctx,
    updateRoomAvailabilitiesIn_zero]
  cases input.validate env with
  | some err => rfl
  | none =>
    simp only []
    split_ifs
    · rfl
    · rfl
    · generalize getRoomAvailabilities (memManager g) ctx input.prepareDates _ _ = r1
      obtain ⟨r, mem1, db1⟩ := r1
      cases r with
      | error err => rfl
      | ok avs =>
        simp only []
        generalize updateRoomAvailabilities input.prepareDates avs mem1 = r2
        obtain ⟨r, mem2⟩ := r2
        cases r with
        | error err => rfl
        | ok avs2 =>
          simp only []
          generalize buildOrder env (memManager g) ctx input.prepareDates w.gen = r3
          obtain ⟨r, gen⟩ := r3
          cases r with
          | error err => rfl
          | ok oe =>
            obtain ⟨order, event⟩ := oe
            simp only []
            generalize (memManager g).storage.BeginTransaction ctx "READ COMMITTED" mem2 db1
              = r4
            obtain ⟨⟨trxCtx, e⟩, mem3, db2⟩ := r4
            cases e <;> rfl

end Manager

/-- C4 (defect witness): the seeded store holds quota 2 for (reddison, lux, 2024-02-26),
whose record is dated 2024-02-26T00:00:00Z. Sent as UTC times, the three calls of the
scenario play out as claimed: two orders, then an `AvailabilityError`, quota 0. Sent as the
same instant in the zone `+03:00` (`2024-02-26T03:00:00+03:00`), the first call already
fails: the body is valid, `GetAvailabilities` formats the key in the zone of the request,
finds no record under it and reports the day unavailable, and the quota stays at 2. For
every request the definitions for a zone are, at offset 0, `CreateOrder`. -/
theorem C4_same_day_sent_with_offset_is_refused :
    (∀ (env : Env) (ctx : Ctx) (input : BookInput) (w : World memory.DB simple.Generator),
      Manager.CreateOrderIn 0 env simple.IDs ctx input w
        = Manager.CreateOrder env appManager ctx input w) ∧
    memQuota seededWorld "reddison" "lux" (date 2024 2 26) = some 2 ∧
    (seededWorld.mem.cell 0).Date = date 2024 2 26 ∧
    callResults appManager scenarioCalls seededWorld
      = [(some firstOrder, none), (some { firstOrder with ID := 3 }, none),
         (none, some (.wrap "get availabilities" (.wrap "get availabilities from storage"
           (.AvailabilityError [⟨"reddison", "lux", [date 2024 2 26]⟩]))))] ∧
    memQuota (runCalls appManager scenarioCalls seededWorld) "reddison" "lux"
      (date 2024 2 26) = some 0 ∧
    Time.FormatRFC3339In 0 (date 2024 2 26) = "2024-02-26T00:00:00Z" ∧
    Time.FormatRFC3339In 10800 (date 2024 2 26) = "2024-02-26T03:00:00+03:00" ∧
    (request [oneDay (date 2024 2 26)]).validate febFirst = none ∧
    (Manager.CreateOrderIn 0 febFirst simple.IDs (withKey "k1")
        (request [oneDay (date 2024 2 26)]) seededWorld).1 = (some firstOrder, none) ∧
    (Manager.CreateOrderIn 10800 febFirst simple.IDs (withKey "k1")
        (request [oneDay (date 2024 2 26)]) seededWorld).1
      = (none, some (.wrap "get availabilities" (.wrap "get availabilities from storage"
          (.AvailabilityError [⟨"reddison", "lux", [date 2024 2 26]⟩])))) ∧
    memQuota (Manager.CreateOrderIn 10800 febFirst simple.IDs (withKey "k1")
        (request [oneDay (date 2024 2 26)]) seededWorld).2 "reddison" "lux"
      (date 2024 2 26) = some 2 := by
  refine ⟨fun env ctx input w => Manager.CreateOrderIn_zero env simple.IDs ctx input w,
    by decide, by decide, by decide, by decide, by decide, by decide, by decide, by decide,
    by decide, by decide⟩

end Booking
